import Mathlib

/-!
A verification development for the streaming group-by aggregation operator
(`runtime/sam/op/aggregate` of the super repository).

The operator core (`Op`, `Aggregator`, `Consume`, `spillTable`, `readTable`,
`readSpills`, `nextResult`, `nextResultFromSpills`, the producer loop `run`)
is embedded as executable Lean functions, translated from the Go source.
External collaborators that the source consumes but whose code is not part of
the embedded file set (the value model `super.Value`, `super.TypeVectorTable`,
`zcode` framing, the `expr` comparators/evaluators, `spill.MergeSort`, the
aggregate-function states) are modelled from the specification's collaborator
contracts; each such definition carries a doc comment saying so.

Conventions of the model:
* machine bytes are `Nat` (each < 256 in real executions; the claims do not
  depend on the bound);
* a value is its interned type id together with its flat payload
  (`none` = the null payload, which zcode framing distinguishes from an
  empty payload);
* Go maps are modelled as association lists in insertion order, a
  deterministic refinement of Go's unspecified iteration order;
* aggregate-function state is modelled freely as the multiset of
  contributions consumed, with per-function `result`/`resultPart`
  interpretation maps, so that the decomposability assumptions of the spec
  become hypotheses on those maps.
-/

namespace SuperAgg

abbrev Bytes := List Nat

/-- Modelled from the spec: a `super.Value` as the operator observes it — an
interned type handle (`tid`) plus the flat encoded payload (`bytes`), where
`none` is the null payload.  Quiet/error sentinels are modelled as predicates
on values supplied by the configuration (they are type-determined in the
source). -/
structure SVal where
  tid : Nat
  bytes : Option Bytes
deriving DecidableEq, Repr

instance : Inhabited SVal := ⟨⟨0, none⟩⟩

/-- An output record as built by `readTable`/`nextResultFromSpills`: the key
fields followed by the aggregate fields.  The source serializes this through
`super.RecordBuilder`; the model keeps the fields directly, since the builder
round-trips them (field `i` of the output is readable back through the dotted
reference `names[i]`). -/
structure Out where
  keys : List SVal
  aggs : List SVal
deriving DecidableEq, Repr

instance : Inhabited Out := ⟨⟨[], []⟩⟩

/-! ### Unsigned varint (Go `encoding/binary.AppendUvarint`) -/

/-- Little-endian base-128 varint encoding, fuel-recursive so that it reduces
by kernel evaluation.  `fuel ≥ n` suffices. -/
def uvarintAux : Nat → Nat → Bytes
  | 0, n => [n % 128]
  | fuel + 1, n => if n < 128 then [n] else (n % 128 + 128) :: uvarintAux fuel (n / 128)

/-- Go `binary.AppendUvarint` payload for `n`. -/
def uvarint (n : Nat) : Bytes := uvarintAux n n

/-- Varint decoder matching `uvarint`. -/
def parseUvarintAux : Bytes → Nat → Nat → Option (Nat × Bytes)
  | [], _, _ => none
  | b :: rest, shift, acc =>
    if b < 128 then some (acc + b * 2 ^ shift, rest)
    else parseUvarintAux rest (shift + 7) (acc + (b - 128) * 2 ^ shift)

def parseUvarint (b : Bytes) : Option (Nat × Bytes) := parseUvarintAux b 0 0

theorem uvarintAux_parse (fuel : Nat) : ∀ (n shift acc : Nat), n ≤ fuel →
    parseUvarintAux (uvarintAux fuel n ++ rest) shift acc =
      some (acc + n * 2 ^ shift, rest) := by
  induction fuel with
  | zero =>
    intro n shift acc hn
    interval_cases n
    simp [uvarintAux, parseUvarintAux]
  | succ fuel ih =>
    intro n shift acc hn
    by_cases h : n < 128
    · simp [uvarintAux, parseUvarintAux, h]
    · have hdiv : n / 128 ≤ fuel := by
        have : n / 128 < n := Nat.div_lt_self (by omega) (by omega)
        omega
      have hmod : n % 128 < 128 := Nat.mod_lt _ (by omega)
      simp only [uvarintAux, if_neg h, List.cons_append, parseUvarintAux]
      rw [if_neg (by omega)]
      rw [ih (n / 128) (shift + 7) (acc + (n % 128 + 128 - 128) * 2 ^ shift) hdiv]
      congr 1
      congr 1
      have h128 : n % 128 + 128 * (n / 128) = n := Nat.mod_add_div n 128
      have hp : (2 : Nat) ^ (shift + 7) = 2 ^ shift * 128 := by
        rw [pow_add]; norm_num
      have hm : n % 128 + 128 - 128 = n % 128 := by omega
      rw [hp, hm]
      conv_rhs => rw [← h128]
      ring

theorem uvarint_parse (n : Nat) (rest : Bytes) :
    parseUvarint (uvarint n ++ rest) = some (n, rest) := by
  unfold parseUvarint uvarint
  rw [uvarintAux_parse n n 0 0 le_rfl]
  simp

/-- The varint framing is prefix-free: equal encoded streams have equal
payloads and equal remainders. -/
theorem uvarint_frame_inj {a b : Nat} {r1 r2 : Bytes}
    (h : uvarint a ++ r1 = uvarint b ++ r2) : a = b ∧ r1 = r2 := by
  have h1 := uvarint_parse a r1
  have h2 := uvarint_parse b r2
  rw [h] at h1
  have h3 := h1.symm.trans h2
  rw [Option.some.injEq, Prod.mk.injEq] at h3
  exact h3

theorem uvarint_inj {a b : Nat} (h : uvarint a = uvarint b) : a = b := by
  have := @uvarint_frame_inj a b [] [] (by simpa using h)
  exact this.1

/-! ### zcode framing

Modelled from the spec and the source's usage: `zcode.Append` appends one
value with a self-delimiting tag (tag `0` = null payload, tag `k+1` = payload
of `k` bytes), and `zcode.Bytes.Iter`/`Next` reads values back one at a time.
`readTable` decodes exactly `nkeys` values from the table key this way, so the
framing must be self-delimiting. -/

def zcodeAppendVal : Option Bytes → Bytes
  | none => [0]
  | some v => uvarint (v.length + 1) ++ v

/-- `zcode.Append` over a whole key tuple (the scratch `keyBytes` buffer). -/
def encodeFlat (vals : List (Option Bytes)) : Bytes :=
  (vals.map zcodeAppendVal).foldr (· ++ ·) []

/-- One `Iter.Next` step: reads a tag and returns the payload and remainder.
Ill-framed input yields a null payload and empty remainder (never reached on
table keys, which are well-framed by construction). -/
def parseVal (b : Bytes) : Option Bytes × Bytes :=
  match parseUvarint b with
  | none => (none, [])
  | some (0, rest) => (none, rest)
  | some (k + 1, rest) => (some (rest.take k), rest.drop k)

/-- Reads `n` values off the front of `b` (the `readTable` decode loop),
returning the values and the remainder. -/
def parseFlat : Nat → Bytes → List (Option Bytes) × Bytes
  | 0, b => ([], b)
  | n + 1, b =>
    let (v, rest) := parseVal b
    let (vs, rest2) := parseFlat n rest
    (v :: vs, rest2)

theorem parseVal_zcodeAppendVal (v : Option Bytes) (rest : Bytes) :
    parseVal (zcodeAppendVal v ++ rest) = (v, rest) := by
  cases v with
  | none =>
    have : zcodeAppendVal none ++ rest = uvarint 0 ++ rest := by
      simp [zcodeAppendVal, uvarint, uvarintAux]
    rw [this]
    simp [parseVal, uvarint_parse]
  | some v =>
    simp only [zcodeAppendVal, List.append_assoc]
    simp [parseVal, uvarint_parse]

theorem parseFlat_encodeFlat (vals : List (Option Bytes)) (rest : Bytes) :
    parseFlat vals.length (encodeFlat vals ++ rest) = (vals, rest) := by
  induction vals generalizing rest with
  | nil => simp [parseFlat, encodeFlat]
  | cons v vs ih =>
    simp only [encodeFlat, List.map_cons, List.foldr_cons, List.length_cons]
    rw [List.append_assoc]
    simp only [parseFlat, parseVal_zcodeAppendVal]
    rw [show (vs.map zcodeAppendVal).foldr (· ++ ·) [] = encodeFlat vs from rfl]
    rw [ih rest]

/-- The table key `encodeFlat vals ++ uvarint tid` determines both the key
tuple and the type id (for a fixed number of keys). -/
theorem tableKey_inj {vals1 vals2 : List (Option Bytes)} {t1 t2 : Nat}
    (hlen : vals1.length = vals2.length)
    (h : encodeFlat vals1 ++ uvarint t1 = encodeFlat vals2 ++ uvarint t2) :
    vals1 = vals2 ∧ t1 = t2 := by
  have h1 := parseFlat_encodeFlat vals1 (uvarint t1)
  have h2 := parseFlat_encodeFlat vals2 (uvarint t2)
  rw [h, hlen] at h1
  have h3 := h1.symm.trans h2
  rw [Prod.mk.injEq] at h3
  exact ⟨h3.1, uvarint_inj h3.2⟩

/-! ### Comparators

Modelled from the spec: the value comparator collaborator is a total order on
values with a configured direction (`expr.NewValueCompareFn`), and the keys
comparator (`expr.NewComparator` over the key references) compares key tuples
lexicographically in the same direction.  The model orders values by payload
bytes then type id; what the claims use is that it is a total order whose
equality coincides with value identity (types are part of group identity per
the spec's type-separation invariant). -/

def cmpNat (a b : Nat) : Ordering :=
  if a < b then .lt else if b < a then .gt else .eq

def cmpLex {α : Type _} (c : α → α → Ordering) : List α → List α → Ordering
  | [], [] => .eq
  | [], _ :: _ => .lt
  | _ :: _, [] => .gt
  | a :: as, b :: bs => (c a b).then (cmpLex c as bs)

def cmpOptBytes : Option Bytes → Option Bytes → Ordering
  | none, none => .eq
  | none, some _ => .lt
  | some _, none => .gt
  | some a, some b => cmpLex cmpNat a b

def cmpSVal (a b : SVal) : Ordering :=
  (cmpOptBytes a.bytes b.bytes).then (cmpNat a.tid b.tid)

/-- `expr.NewValueCompareFn` with the configured direction: descending input
direction flips the comparison (the source builds the comparator over
`order.Which(inputDir < 0)`). -/
def dirCmp (dir : Int) (a b : SVal) : Ordering :=
  if dir < 0 then cmpSVal b a else cmpSVal a b

theorem cmpNat_eq_iff {a b : Nat} : cmpNat a b = .eq ↔ a = b := by
  constructor
  · intro h
    unfold cmpNat at h
    split at h
    · exact absurd h (by simp)
    · split at h
      · exact absurd h (by simp)
      · omega
  · intro h
    subst h
    simp [cmpNat]

theorem cmpNat_swap (a b : Nat) : (cmpNat a b).swap = cmpNat b a := by
  unfold cmpNat
  rcases Nat.lt_trichotomy a b with h | h | h
  · rw [if_pos h, if_neg (Nat.lt_asymm h), if_pos h]; rfl
  · subst h
    rw [if_neg (lt_irrefl a), if_neg (lt_irrefl a)]; rfl
  · rw [if_neg (Nat.lt_asymm h), if_pos h, if_pos h]; rfl

theorem cmpNat_lt_trans {a b c : Nat} (h1 : cmpNat a b = .lt)
    (h2 : cmpNat b c = .lt) : cmpNat a c = .lt := by
  have hab : a < b := by
    by_contra hh
    unfold cmpNat at h1
    rw [if_neg hh] at h1
    split at h1 <;> simp_all
  have hbc : b < c := by
    by_contra hh
    unfold cmpNat at h2
    rw [if_neg hh] at h2
    split at h2 <;> simp_all
  unfold cmpNat
  rw [if_pos (by omega)]

theorem ordThen_eq_iff {x y : Ordering} : x.then y = .eq ↔ x = .eq ∧ y = .eq := by
  cases x <;> cases y <;> simp [Ordering.then]

theorem ordThen_swap (x y : Ordering) : (x.then y).swap = x.swap.then y.swap := by
  cases x <;> cases y <;> rfl

/-- Bundle of the total-order facts the development needs about a comparator:
equality of the comparison coincides with identity, the comparison is
antisymmetric via `swap`, and strict comparisons compose. -/
structure CmpFacts {α : Type _} (c : α → α → Ordering) : Prop where
  eq_iff : ∀ a b, c a b = .eq ↔ a = b
  swap_eq : ∀ a b, (c a b).swap = c b a
  lt_trans : ∀ a b d, c a b = .lt → c b d = .lt → c a d = .lt

theorem cmpFacts_cmpNat : CmpFacts cmpNat :=
  ⟨fun _ _ => cmpNat_eq_iff, cmpNat_swap, fun _ _ _ => cmpNat_lt_trans⟩

theorem CmpFacts.refl {α : Type _} {c : α → α → Ordering} (hc : CmpFacts c)
    (a : α) : c a a = .eq := (hc.eq_iff a a).mpr rfl

theorem CmpFacts.lt_of_lt_of_eq {α : Type _} {c : α → α → Ordering}
    (hc : CmpFacts c) {a b d : α} (h1 : c a b = .lt) (h2 : c b d = .eq) :
    c a d = .lt := by
  rw [(hc.eq_iff b d).mp h2] at h1
  exact h1

theorem CmpFacts.gt_iff {α : Type _} {c : α → α → Ordering} (hc : CmpFacts c)
    {a b : α} : c a b = .gt ↔ c b a = .lt := by
  rw [← hc.swap_eq a b]
  cases c a b <;> simp [Ordering.swap]

theorem cmpFacts_cmpLex {α : Type _} {c : α → α → Ordering} (hc : CmpFacts c) :
    CmpFacts (cmpLex c) := by
  refine ⟨?_, ?_, ?_⟩
  · intro a b
    induction a generalizing b with
    | nil => cases b <;> simp [cmpLex]
    | cons x xs ih =>
      cases b with
      | nil => simp [cmpLex]
      | cons y ys =>
        simp only [cmpLex, ordThen_eq_iff, hc.eq_iff, ih, List.cons.injEq]
  · intro a b
    induction a generalizing b with
    | nil => cases b <;> rfl
    | cons x xs ih =>
      cases b with
      | nil => rfl
      | cons y ys =>
        simp only [cmpLex, ordThen_swap, hc.swap_eq, ih]
  · intro a b d h1 h2
    induction a generalizing b d with
    | nil =>
      cases b with
      | nil =>
        cases d <;> simp_all [cmpLex]
      | cons y ys =>
        cases d with
        | nil => simp_all [cmpLex, Ordering.then]
        | cons z zs => rfl
    | cons x xs ih =>
      cases b with
      | nil => simp_all [cmpLex]
      | cons y ys =>
        cases d with
        | nil => simp_all [cmpLex]
        | cons z zs =>
          simp only [cmpLex] at h1 h2 ⊢
          rcases hxy : c x y with _ | _ | _ <;> rw [hxy] at h1 <;>
            rcases hyz : c y z with _ | _ | _ <;> rw [hyz] at h2 <;>
              simp only [Ordering.then] at h1 h2 ⊢
          · rw [hc.lt_trans x y z hxy hyz]
          · rw [hc.lt_of_lt_of_eq hxy hyz]
          · exact absurd h2 (by simp)
          · rw [(hc.eq_iff x y).mp hxy, hyz]
          · have hab := (hc.eq_iff x y).mp hxy
            have hbd := (hc.eq_iff y z).mp hyz
            rw [hab, hbd, hc.refl z]
            exact ih ys zs h1 h2
          · exact absurd h2 (by simp)
          · exact absurd h1 (by simp)
          · exact absurd h1 (by simp)
          · exact absurd h1 (by simp)

theorem cmpFacts_cmpOptBytes : CmpFacts cmpOptBytes := by
  have hlex := cmpFacts_cmpLex cmpFacts_cmpNat
  refine ⟨?_, ?_, ?_⟩
  · intro a b
    cases a <;> cases b <;> simp [cmpOptBytes, hlex.eq_iff]
  · intro a b
    cases a <;> cases b <;> simp [cmpOptBytes, hlex.swap_eq] <;> rfl
  · intro a b d h1 h2
    cases a <;> cases b <;> cases d <;>
      simp_all [cmpOptBytes]
    exact hlex.lt_trans _ _ _ h1 h2

theorem cmpFacts_cmpSVal : CmpFacts cmpSVal := by
  have hob := cmpFacts_cmpOptBytes
  refine ⟨?_, ?_, ?_⟩
  · intro a b
    cases a with | mk atid abytes =>
    cases b with | mk btid bbytes =>
    simp [cmpSVal, ordThen_eq_iff, hob.eq_iff, cmpNat_eq_iff, and_comm]
  · intro a b
    simp [cmpSVal, ordThen_swap, hob.swap_eq, cmpNat_swap]
  · intro a b d h1 h2
    simp only [cmpSVal] at h1 h2 ⊢
    rcases hxy : cmpOptBytes a.bytes b.bytes with _ | _ | _ <;> rw [hxy] at h1 <;>
      rcases hyz : cmpOptBytes b.bytes d.bytes with _ | _ | _ <;> rw [hyz] at h2 <;>
        simp only [Ordering.then] at h1 h2 ⊢
    · rw [hob.lt_trans _ _ _ hxy hyz]
    · rw [hob.lt_of_lt_of_eq hxy hyz]
    · exact absurd h2 (by simp)
    · have hab := (hob.eq_iff _ _).mp hxy
      rw [hab, hyz]
    · have hab := (hob.eq_iff _ _).mp hxy
      have hbd := (hob.eq_iff _ _).mp hyz
      rw [hab, hbd, hob.refl d.bytes]
      exact cmpNat_lt_trans h1 h2
    · exact absurd h2 (by simp)
    · exact absurd h1 (by simp)
    · exact absurd h1 (by simp)
    · exact absurd h1 (by simp)

theorem cmpFacts_dirCmp (dir : Int) : CmpFacts (dirCmp dir) := by
  have hs := cmpFacts_cmpSVal
  unfold dirCmp
  by_cases hd : dir < 0
  · simp only [if_pos hd]
    refine ⟨?_, ?_, ?_⟩
    · intro a b
      rw [hs.eq_iff]
      exact ⟨Eq.symm, Eq.symm⟩
    · intro a b
      exact hs.swap_eq b a
    · intro a b d h1 h2
      exact hs.lt_trans d b a h2 h1
  · simp only [if_neg hd]
    exact hs

/-! ### Sorting

Modelled from the spec: `spill.MergeSort` sorts each spilled run with the
full-keys comparator and exposes a k-way merged stream in that order; the
driver additionally stable-sorts each early-emit batch by the first-key
comparator.  All the claims need of a sort is that it produces a sorted
permutation, so the model uses a simple structural insertion sort (which also
evaluates by kernel reduction). -/

def orderedInsert {α : Type _} (le : α → α → Bool) (x : α) : List α → List α
  | [] => [x]
  | y :: ys => if le y x then y :: orderedInsert le x ys else x :: y :: ys

def sortBy {α : Type _} (le : α → α → Bool) : List α → List α
  | [] => []
  | x :: xs => orderedInsert le x (sortBy le xs)

theorem orderedInsert_perm {α : Type _} (le : α → α → Bool) (x : α)
    (l : List α) : (orderedInsert le x l).Perm (x :: l) := by
  induction l with
  | nil => rfl
  | cons y ys ih =>
    by_cases h : le y x
    · simp only [orderedInsert, if_pos h]
      exact (ih.cons y).trans (List.Perm.swap x y ys)
    · simp only [orderedInsert, if_neg h]
      exact List.Perm.refl _

theorem sortBy_perm {α : Type _} (le : α → α → Bool) (l : List α) :
    (sortBy le l).Perm l := by
  induction l with
  | nil => rfl
  | cons x xs ih =>
    exact (orderedInsert_perm le x (sortBy le xs)).trans (ih.cons x)

theorem orderedInsert_pairwise {α : Type _} {le : α → α → Bool}
    (htot : ∀ a b, le a b || le b a)
    (htrans : ∀ a b c, le a b = true → le b c = true → le a c = true)
    {x : α} {l : List α}
    (hl : l.Pairwise (fun a b => le a b = true)) :
    (orderedInsert le x l).Pairwise (fun a b => le a b = true) := by
  induction l with
  | nil => simp [orderedInsert]
  | cons y ys ih =>
    rcases List.pairwise_cons.mp hl with ⟨hy, hys⟩
    by_cases h : le y x
    · simp only [orderedInsert, if_pos h]
      refine List.pairwise_cons.mpr ⟨?_, ih hys⟩
      intro b hb
      have hb2 := (List.Perm.mem_iff (orderedInsert_perm le x ys)).mp hb
      rcases List.mem_cons.mp hb2 with hb3 | hb3
      · subst hb3; exact h
      · exact hy b hb3
    · have hxy : le x y := by
        rcases Bool.or_eq_true_iff.mp (htot y x) with h1 | h1
        · exact absurd h1 h
        · exact h1
      simp only [orderedInsert, if_neg h]
      refine List.pairwise_cons.mpr ⟨?_, hl⟩
      intro b hb
      rcases List.mem_cons.mp hb with hb | hb
      · subst hb; exact hxy
      · exact htrans x y b hxy (hy b hb)

theorem sortBy_pairwise {α : Type _} {le : α → α → Bool}
    (htot : ∀ a b, le a b || le b a)
    (htrans : ∀ a b c, le a b = true → le b c = true → le a c = true)
    (l : List α) : (sortBy le l).Pairwise (fun a b => le a b = true) := by
  induction l with
  | nil => simp [sortBy]
  | cons x xs ih => exact orderedInsert_pairwise htot htrans ih

/-! ### The aggregation operator (translated from the `aggregate` package) -/

/-- Modelled from the spec: one aggregate function (`expr.Aggregator` plus its
`agg.Function` state).  State is modelled freely as the multiset of consumed
contributions; `result`/`resultPart` interpret a state at output time
(`Result`/`ResultAsPartial`), and `decodePart` is the effect of
`ConsumeAsPartial` of one partial value, as a multiset of contributions it
stands for.  The spec's decomposability assumption becomes the hypothesis
`decodePart (resultPart s) = s` where the claims assume it. -/
structure AggFn (τ : Type _) where
  result : Multiset τ → SVal
  resultPart : Multiset τ → SVal
  decodePart : SVal → Multiset τ

/-- The configuration of `NewAggregator` (keyExprs, aggRefs, aggs, limit,
inputDir, partialsIn, partialsOut) with the external evaluator collaborators
modelled as functions:

* `keyExprs i` is `keyExprs[i].Eval` on an input value;
* `keyExpr0Out` is `keyExprs[0].Eval` applied to an output-shaped record
  (the spill paths evaluate the first key expression on spilled records);
* `aggRefs i` is `aggRefs[i].Eval` on an input value (used in partials-in
  mode); on output-shaped records the dotted references select the agg
  fields positionally, which the model does directly;
* `applyRec` is the contribution that `apply` feeds every aggregate state
  from an input record;
* `isQuiet`/`isError` are the value sentinels (type-determined in the
  source). -/
structure Config (ρ τ : Type _) where
  keyExprs : List (ρ → SVal)
  keyExpr0Out : Out → SVal
  aggRefs : List (ρ → SVal)
  aggs : List (AggFn τ)
  applyRec : ρ → τ
  isQuiet : SVal → Bool
  isError : SVal → Bool
  limit : Nat
  inputDir : Int
  partialsIn : Bool
  partialsOut : Bool

/-- `var DefaultLimit = 1000000`. -/
def DefaultLimit : Nat := 1000000

/-- `NewAggregator` replaces a zero limit with `DefaultLimit`. -/
def effLimit (l : Nat) : Nat := if l = 0 then DefaultLimit else l

/-- A group-table row: interned key-type id, primary group value (sorted mode
only), and the per-aggregate states. -/
structure Row (τ : Type _) where
  keyType : Nat
  groupval : Option SVal
  reducers : List (Multiset τ)
deriving DecidableEq

/-- The mutable state of an `Aggregator`: the key-type intern table, the
group table (association list in insertion order — a deterministic refinement
of the Go map), the streaming watermarks, and the spiller (`none` until the
first spill; `some stream` is the remaining k-way merged stream). -/
structure AggState (τ : Type _) where
  keyTypes : List (List Nat)
  table : List (Bytes × Row τ)
  maxTableKey : Option SVal
  maxSpillKey : Option SVal
  spiller : Option (List Out)
deriving DecidableEq

def initState {τ : Type _} : AggState τ := ⟨[], [], none, none, none⟩

/-- Modelled from the spec: `super.TypeVectorTable.Lookup` interns a type
vector, assigning a dense id; equal vectors get equal ids, distinct vectors
distinct ids.  The model keeps the interned vectors in lookup order, the id
being the index. -/
def idxOf (tv : List Nat) : List (List Nat) → Nat
  | [] => 0
  | t :: ts => if t = tv then 0 else idxOf tv ts + 1

def tvtLookup (tbl : List (List Nat)) (tv : List Nat) : Nat × List (List Nat) :=
  if tv ∈ tbl then (idxOf tv tbl, tbl) else (tbl.length, tbl ++ [tv])

/-- `updateMaxTableKey` (bumps the running max of the primary key and returns
the stored max value). -/
def updateMaxTableKey (dir : Int) (mtk : Option SVal) (v : SVal) : SVal :=
  match mtk with
  | none => v
  | some m => if dirCmp dir v m = .gt then v else m

/-- `updateMaxSpillKey`. -/
def updateMaxSpillKey (dir : Int) (msk : Option SVal) (v : SVal) : Option SVal :=
  match msk with
  | none => some v
  | some m => if dirCmp dir v m = .gt then some v else some m

/-- The key-evaluation loop at the top of `Consume`: evaluates the key
expressions left to right; a quiet key aborts the record (second component
`none`), but the max-table-key update made for the first key persists (first
component).  On success it returns the collected type vector, the flat
zcode-appended key bytes, and the primary group value. -/
def scanKeys {ρ τ : Type _} (cfg : Config ρ τ) (r : ρ) :
    List (ρ → SVal) → Nat → Option SVal →
    Option SVal × Option (List Nat × Bytes × Option SVal)
  | [], _, mtk => (mtk, some ([], [], none))
  | e :: es, i, mtk =>
    let key := e r
    if cfg.isQuiet key then (mtk, none)
    else
      let res :=
        if i = 0 ∧ cfg.inputDir ≠ 0 then
          let p := updateMaxTableKey cfg.inputDir mtk key
          (some p, some p)
        else ((none : Option SVal), mtk)
      match scanKeys cfg r es (i + 1) res.2 with
      | (mtkF, none) => (mtkF, none)
      | (mtkF, some (tys, flat, primRest)) =>
        (mtkF, some (key.tid :: tys, zcodeAppendVal key.bytes ++ flat,
          res.1.orElse (fun _ => primRest)))

/-- Group-table lookup. -/
def tblGet {τ : Type _} (t : List (Bytes × Row τ)) (k : Bytes) : Option (Row τ) :=
  match t with
  | [] => none
  | e :: es => if e.1 = k then some e.2 else tblGet es k

/-- In-place row update (the source mutates the `*Row`). -/
def tblUpdate {τ : Type _} (t : List (Bytes × Row τ)) (k : Bytes)
    (f : Row τ → Row τ) : List (Bytes × Row τ) :=
  t.map (fun e => if e.1 = k then (e.1, f e.2) else e)

/-- `newValRow`: fresh (empty) aggregate states, one per configured agg.
Modelled from the spec (the valRow helpers are not among the embedded
sources). -/
def newValRow {ρ τ : Type _} (cfg : Config ρ τ) : List (Multiset τ) :=
  cfg.aggs.map (fun _ => 0)

/-- `valRow.apply` / `valRow.consumeAsPartial`, modelled from the spec: apply
adds the input contribution to every aggregate state; consumeAsPartial gives
each aggregate the decoded value of its output-field reference. -/
def updateReducers {ρ τ : Type _} (cfg : Config ρ τ) (r : ρ)
    (reds : List (Multiset τ)) : List (Multiset τ) :=
  if cfg.partialsIn then
    List.zipWith (fun red fr => red + fr.1.decodePart (fr.2 r)) reds
      (cfg.aggs.zip cfg.aggRefs)
  else reds.map (fun red => red + {cfg.applyRec r})

/-- The full-keys comparator `keysComparator` over output records
(lexicographic over the key fields in the configured direction). -/
def keysCmp (dir : Int) (a b : Out) : Ordering := cmpLex (dirCmp dir) a.keys b.keys

def keysLe (dir : Int) (a b : Out) : Bool :=
  if keysCmp dir a b = .gt then false else true

def keysEqb (dir : Int) (a b : Out) : Bool :=
  if keysCmp dir a b = .eq then true else false

/-- Whether a row survives a `readTable` pass: with `flush` every row is
emitted; otherwise only rows whose `groupval` compares `< maxTableKey` are
emitted (the source skips rows comparing `>= *maxTableKey`). -/
def rowKept {τ : Type _} (dir : Int) (mtk : Option SVal) (flush : Bool)
    (row : Row τ) : Bool :=
  if flush then false
  else if dirCmp dir (row.groupval.getD default) (mtk.getD default) = .lt then false
  else true

/-- Builds the output record for one table row (`readTable` body): the key
values are decoded from the table-key bytes against the interned type vector,
the aggregate fields are `Result` or `ResultAsPartial` of each state. -/
def rowOut {ρ τ : Type _} (cfg : Config ρ τ) (keyTypes : List (List Nat))
    (pOut : Bool) (k : Bytes) (row : Row τ) : Out :=
  let tys := keyTypes.getD row.keyType []
  let flats := (parseFlat tys.length k).1
  { keys := List.zipWith (fun tid b => SVal.mk tid b) tys flats
    aggs := List.zipWith (fun fn red => if pOut then fn.resultPart red else fn.result red)
      cfg.aggs row.reducers }

/-- `readTable(flush, partialsOut)`: emits (and deletes) the flushed rows —
all of them when `flush`, the completed ones (`groupval < maxTableKey`) when
streaming.  Returns `none` when no row is emitted.  (The source panics when
called with `flush=false` on non-sorted input; the driver never does.) -/
def readTable {ρ τ : Type _} (cfg : Config ρ τ) (flush pOut : Bool)
    (st : AggState τ) : Option (List Out) × AggState τ :=
  let emitted := st.table.filter
    (fun e => !rowKept cfg.inputDir st.maxTableKey flush e.2)
  let kept := st.table.filter (fun e => rowKept cfg.inputDir st.maxTableKey flush e.2)
  let recs := emitted.map (fun e => rowOut cfg st.keyTypes pOut e.1 e.2)
  if recs.isEmpty then (none, st) else (some recs, { st with table := kept })

/-- `spillTable(eof)`: drains the whole in-memory table as partials
(`readTable(true, true)`), sorts the run by the full-keys comparator, hands
it to the spiller (modelled from the spec: `spill.MergeSort` merges sorted
runs into one stream ordered by the same comparator), and on a non-EOF
sorted-mode spill bumps `maxSpillKey` with the largest primary key of the
run (the last record of the sorted batch), unless that evaluates to an
error. -/
def spillTable {ρ τ : Type _} (cfg : Config ρ τ) (eof : Bool)
    (st : AggState τ) : AggState τ :=
  match readTable cfg true true st with
  | (none, st1) => st1
  | (some recs, st1) =>
    let sorted := sortBy (keysLe cfg.inputDir) recs
    let st2 := { st1 with
      spiller := some (sortBy (keysLe cfg.inputDir) (st1.spiller.getD [] ++ recs)) }
    if !eof && !(cfg.inputDir == 0) then
      let val := cfg.keyExpr0Out (sorted.getLastD default)
      if cfg.isError val then st2
      else { st2 with
        maxSpillKey := updateMaxSpillKey cfg.inputDir st2.maxSpillKey val }
    else st2

/-- `op.BatchLen` (the batch-size cap of the surrounding `op` package; its
value only bounds how many rows one result batch carries). -/
def opBatchLen : Nat := 100

/-- The per-group output record built by `nextResultFromSpills`: key fields
come from the first record of the equal-key run (via the key references,
which select the key slots of an output record), aggregate fields are the
interpretation of the merged partials. -/
def spillGroupOut {ρ τ : Type _} (cfg : Config ρ τ) (first : Out)
    (grp : List Out) : Out :=
  { keys := first.keys
    aggs := cfg.aggs.enum.map (fun p =>
      let red := (grp.map (fun o => p.2.decodePart (o.aggs.getD p.1 default))).foldl (· + ·) 0
      if cfg.partialsOut then p.2.resultPart red else p.2.result red) }

/-- `nextResultFromSpills`: pulls the maximal run of consecutive spill
records whose full key tuple equals the head's, merges their partials into
fresh states, and builds the output record.  Returns the record and the
remaining stream. -/
def nextResultFromSpills {ρ τ : Type _} (cfg : Config ρ τ) (stream : List Out) :
    Option (Out × List Out) :=
  match stream with
  | [] => none
  | first :: rest =>
    let grp := rest.takeWhile (keysEqb cfg.inputDir first)
    let rest2 := rest.dropWhile (keysEqb cfg.inputDir first)
    some (spillGroupOut cfg first (first :: grp), rest2)

/-- The body of the `readSpills` batch loop.  `fuel` only drives structural
recursion; `stream.length + 1` always suffices since each emitted group
consumes at least one stream record. -/
def readSpillsLoop {ρ τ : Type _} (cfg : Config ρ τ) (eof : Bool)
    (msk : Option SVal) : Nat → List Out → List Out → List Out × List Out
  | 0, stream, acc => (acc.reverse, stream)
  | fuel + 1, stream, acc =>
    if opBatchLen ≤ acc.length then (acc.reverse, stream)
    else
      let stop : Bool :=
        if eof then false
        else if cfg.inputDir == 0 then false
        else match stream with
          | [] => true
          | h :: _ =>
            let kv := cfg.keyExpr0Out h
            if cfg.isError kv then false
            else if dirCmp cfg.inputDir kv (msk.getD default) = .lt then false
            else true
      if stop then (acc.reverse, stream)
      else match nextResultFromSpills cfg stream with
        | none => (acc.reverse, stream)
        | some (out, rest) => readSpillsLoop cfg eof msk fuel rest (out :: acc)

/-- `readSpills(eof)`: refuses to stream on unsorted input before EOF;
otherwise drains up to `opBatchLen` merged groups, stopping (in sorted
streaming mode) at the first record whose primary key evaluates without
error and compares `>= maxSpillKey`. -/
def readSpills {ρ τ : Type _} (cfg : Config ρ τ) (eof : Bool)
    (st : AggState τ) : Option (List Out) × AggState τ :=
  if !eof && cfg.inputDir == 0 then (none, st)
  else
    let stream := st.spiller.getD []
    let res := readSpillsLoop cfg eof st.maxSpillKey (stream.length + 1) stream []
    if res.1.isEmpty then (none, st)
    else (some res.1, { st with spiller := some res.2 })

/-- `nextResult(eof)`: reads the in-memory table while no spill file exists;
at EOF with spills, first spills the remaining table, then reads the merged
spill stream. -/
def nextResult {ρ τ : Type _} (cfg : Config ρ τ) (eof : Bool)
    (st : AggState τ) : Option (List Out) × AggState τ :=
  match st.spiller with
  | none => readTable cfg eof cfg.partialsOut st
  | some _ =>
    let st1 := if eof then spillTable cfg true st else st
    readSpills cfg eof st1

/-- `Consume`: computes the encoded group key (flat key bytes plus the
uvarint of the interned key-type id), spills the full table when a fresh key
arrives at capacity, inserts a fresh row on first sighting, and feeds the
record to the row's aggregate states (`apply`, or `consumeAsPartial` in
partials-in mode). -/
def Consume {ρ τ : Type _} (cfg : Config ρ τ) (st : AggState τ) (r : ρ) :
    AggState τ :=
  match scanKeys cfg r cfg.keyExprs 0 st.maxTableKey with
  | (mtk2, none) => { st with maxTableKey := mtk2 }
  | (mtk2, some (tys, flat, prim)) =>
    let st1 := { st with maxTableKey := mtk2 }
    let lk := tvtLookup st1.keyTypes tys
    let keyBytes := flat ++ uvarint lk.1
    let st2 := { st1 with keyTypes := lk.2 }
    match tblGet st2.table keyBytes with
    | some _ =>
      let upd := fun row => { row with reducers := updateReducers cfg r row.reducers }
      { st2 with table := tblUpdate st2.table keyBytes upd }
    | none =>
      let st3 := if effLimit cfg.limit ≤ st2.table.length
        then spillTable cfg false st2 else st2
      let row : Row τ := ⟨lk.1, prim, updateReducers cfg r (newValRow cfg)⟩
      { st3 with table := st3.table ++ [(keyBytes, row)] }

/-! ### The operator driver (`Op.run`), without the channel plumbing

The producer loop pulls input batches, consumes every value, and in sorted
mode drains completed groups after each batch (each such batch stable-sorted
by the first-key comparator, `slices.SortStableFunc(..., keyCompare)`); at
upstream EOF it drains results by calling `nextResult(true)` until `nil`.
The channel/cancellation side is modelled separately for the cleanup claim. -/

/-- The first-key comparator `keyCompare` as a Boolean `≤` over output
records. -/
def key0Le (dir : Int) (a b : Out) : Bool :=
  if dirCmp dir (a.keys.getD 0 default) (b.keys.getD 0 default) = .gt then false
  else true

/-- Measure used to size the drain fuel. -/
def stMeasure {τ : Type _} (st : AggState τ) : Nat :=
  st.table.length + (st.spiller.getD []).length

/-- The repeated-`nextResult` loop (the sorted early-emit loop when
`eof = false`, `sendResults` when `eof = true`).  Early-emit batches are
sorted by the first-key comparator before delivery. -/
def drainLoop {ρ τ : Type _} (cfg : Config ρ τ) (eof : Bool) :
    Nat → AggState τ → List (List Out) → List (List Out) × AggState τ
  | 0, st, acc => (acc.reverse, st)
  | fuel + 1, st, acc =>
    match nextResult cfg eof st with
    | (none, st1) => (acc.reverse, st1)
    | (some recs, st1) =>
      let b := if eof then recs else sortBy (key0Le cfg.inputDir) recs
      drainLoop cfg eof fuel st1 (b :: acc)

def consumeBatch {ρ τ : Type _} (cfg : Config ρ τ) (st : AggState τ)
    (vals : List ρ) : AggState τ :=
  vals.foldl (Consume cfg) st

/-- The producer loop over a list of upstream batches followed by EOF. -/
def runBatches {ρ τ : Type _} (cfg : Config ρ τ) :
    List (List ρ) → AggState τ → List (List Out) × AggState τ
  | [], st => drainLoop cfg true (stMeasure st + 2) st []
  | b :: bs, st =>
    let st1 := consumeBatch cfg st b
    if cfg.inputDir == 0 then runBatches cfg bs st1
    else
      let res := drainLoop cfg false (stMeasure st1 + 1) st1 []
      let rest := runBatches cfg bs res.2
      (res.1 ++ rest.1, rest.2)

/-- The batches the operator delivers downstream on input `batches`. -/
def opRun {ρ τ : Type _} (cfg : Config ρ τ) (batches : List (List ρ)) :
    List (List Out) :=
  (runBatches cfg batches initState).1

/-- All output records of a run, as one list. -/
def opRunOuts {ρ τ : Type _} (cfg : Config ρ τ) (batches : List (List ρ)) :
    List Out :=
  (opRun cfg batches).flatten

/-! ### Characterization of the key scan -/

/-- The evaluated key tuple of a record. -/
def keyVals {ρ τ : Type _} (cfg : Config ρ τ) (r : ρ) : List SVal :=
  cfg.keyExprs.map (fun e => e r)

/-- A record is skipped when some key expression evaluates to quiet. -/
def skipped {ρ τ : Type _} (cfg : Config ρ τ) (r : ρ) : Prop :=
  ∃ e ∈ cfg.keyExprs, cfg.isQuiet (e r)

instance {ρ τ : Type _} (cfg : Config ρ τ) (r : ρ) : Decidable (skipped cfg r) := by
  unfold skipped; infer_instance

/-- Pure part of the key scan: past the first key the loop neither reads nor
writes the max-table-key, so it reduces to this stateless scan. -/
def scanTail {ρ τ : Type _} (cfg : Config ρ τ) (r : ρ) :
    List (ρ → SVal) → Option (List Nat × Bytes)
  | [] => some ([], [])
  | e :: es =>
    let key := e r
    if cfg.isQuiet key then none
    else match scanTail cfg r es with
      | none => none
      | some (tys, flat) => some (key.tid :: tys, zcodeAppendVal key.bytes ++ flat)

theorem scanKeys_of_ne {ρ τ : Type _} (cfg : Config ρ τ) (r : ρ) :
    ∀ (es : List (ρ → SVal)) (i : Nat) (mtk : Option SVal), i ≠ 0 →
    scanKeys cfg r es i mtk =
      (mtk, (scanTail cfg r es).map (fun p => (p.1, p.2, (none : Option SVal)))) := by
  intro es
  induction es with
  | nil => intro i mtk _; simp [scanKeys, scanTail]
  | cons e es ih =>
    intro i mtk hi
    by_cases hq : cfg.isQuiet (e r)
    · simp [scanKeys, scanTail, hq]
    · simp only [scanKeys, scanTail, if_neg hq,
        if_neg (by tauto : ¬(i = 0 ∧ cfg.inputDir ≠ 0))]
      rw [ih (i + 1) mtk (by omega)]
      cases hrec : scanTail cfg r es with
      | none => simp
      | some p => rcases p with ⟨tys, flat⟩; simp

theorem scanTail_none_iff {ρ τ : Type _} (cfg : Config ρ τ) (r : ρ)
    (es : List (ρ → SVal)) :
    scanTail cfg r es = none ↔ ∃ e ∈ es, cfg.isQuiet (e r) := by
  induction es with
  | nil => simp [scanTail]
  | cons e es ih =>
    by_cases hq : cfg.isQuiet (e r)
    · constructor
      · intro _; exact ⟨e, List.mem_cons_self e es, hq⟩
      · intro _; simp [scanTail, hq]
    · simp only [scanTail, if_neg hq]
      cases hrec : scanTail cfg r es with
      | none =>
        have hex := ih.mp hrec
        refine ⟨fun _ => ?_, fun _ => rfl⟩
        rcases hex with ⟨e2, he2, hq2⟩
        exact ⟨e2, List.mem_cons_of_mem e he2, hq2⟩
      | some p =>
        rcases p with ⟨tys, flat⟩
        constructor
        · intro h; exact absurd h (by simp)
        · intro ⟨e2, he2, hq2⟩
          rcases List.mem_cons.mp he2 with h3 | h3
          · subst h3; exact absurd hq2 hq
          · have hcon := ih.mpr ⟨e2, h3, hq2⟩
            rw [hrec] at hcon
            exact absurd hcon (by simp)

theorem scanTail_some_spec {ρ τ : Type _} (cfg : Config ρ τ) (r : ρ) :
    ∀ (es : List (ρ → SVal)) (tys : List Nat) (flat : Bytes),
    scanTail cfg r es = some (tys, flat) →
    tys = es.map (fun e => (e r).tid) ∧
    flat = encodeFlat (es.map (fun e => (e r).bytes)) := by
  intro es
  induction es with
  | nil =>
    intro tys flat h
    simp only [scanTail, Option.some.injEq, Prod.mk.injEq] at h
    simp [← h.1, ← h.2, encodeFlat]
  | cons e es ih =>
    intro tys flat h
    by_cases hq : cfg.isQuiet (e r)
    · simp [scanTail, hq] at h
    · simp only [scanTail, if_neg hq] at h
      cases hrec : scanTail cfg r es with
      | none => rw [hrec] at h; exact absurd h (by simp)
      | some p =>
        rcases p with ⟨tys2, flat2⟩
        rw [hrec] at h
        simp only [Option.some.injEq, Prod.mk.injEq] at h
        obtain ⟨ht, hf⟩ := ih tys2 flat2 hrec
        constructor
        · rw [← h.1, ht]; simp
        · rw [← h.2, hf]; simp [encodeFlat]

theorem scanKeys_zero {ρ τ : Type _} (cfg : Config ρ τ) (r : ρ) (e : ρ → SVal)
    (es : List (ρ → SVal)) (mtk : Option SVal) :
    scanKeys cfg r (e :: es) 0 mtk =
      if cfg.isQuiet (e r) then (mtk, none)
      else
        ((if cfg.inputDir ≠ 0 then some (updateMaxTableKey cfg.inputDir mtk (e r)) else mtk),
         (scanTail cfg r es).map (fun q =>
           ((e r).tid :: q.1, zcodeAppendVal (e r).bytes ++ q.2,
            if cfg.inputDir ≠ 0 then some (updateMaxTableKey cfg.inputDir mtk (e r)) else none))) := by
  by_cases hq : cfg.isQuiet (e r)
  · simp [scanKeys, hq]
  · rw [if_neg hq]
    by_cases hd : cfg.inputDir ≠ 0
    · simp only [scanKeys, if_neg hq, if_pos (show (0 = 0 ∧ cfg.inputDir ≠ 0) from ⟨rfl, hd⟩)]
      rw [scanKeys_of_ne cfg r es 1 _ (by omega)]
      cases scanTail cfg r es with
      | none => simp [hd]
      | some p => rcases p with ⟨tys, flat⟩; simp [hd, Option.orElse]
    · simp only [scanKeys, if_neg hq, if_neg (by tauto : ¬(0 = 0 ∧ cfg.inputDir ≠ 0))]
      rw [scanKeys_of_ne cfg r es 1 _ (by omega)]
      cases scanTail cfg r es with
      | none => simp [hd]
      | some p => rcases p with ⟨tys, flat⟩; simp [hd, Option.orElse]

theorem scanKeys_none_of_skipped {ρ τ : Type _} (cfg : Config ρ τ) (r : ρ)
    (mtk : Option SVal) (h : skipped cfg r) :
    (scanKeys cfg r cfg.keyExprs 0 mtk).2 = none := by
  rcases h with ⟨e2, he2, hq2⟩
  cases hk : cfg.keyExprs with
  | nil => rw [hk] at he2; exact absurd he2 (by simp)
  | cons e es =>
    rw [scanKeys_zero]
    rw [hk] at he2
    by_cases hq : cfg.isQuiet (e r)
    · rw [if_pos hq]
    · rw [if_neg hq]
      rcases List.mem_cons.mp he2 with h3 | h3
      · subst h3; exact absurd hq2 hq
      · rw [(scanTail_none_iff cfg r es).mpr ⟨e2, h3, hq2⟩]
        rfl

/-! ### Interning and Consume characterization -/

theorem idxOf_get {tv : List Nat} : ∀ {tbl : List (List Nat)}, tv ∈ tbl →
    tbl.get? (idxOf tv tbl) = some tv := by
  intro tbl
  induction tbl with
  | nil => intro h; exact absurd h (by simp)
  | cons t ts ih =>
    intro h
    by_cases ht : t = tv
    · simp [idxOf, ht]
    · rcases List.mem_cons.mp h with h2 | h2
      · exact absurd h2.symm ht
      · simp only [idxOf, if_neg ht, List.get?_cons_succ]
        exact ih h2

theorem idxOf_lt_length {tv : List Nat} {tbl : List (List Nat)}
    (h : tv ∈ tbl) : idxOf tv tbl < tbl.length := by
  have := idxOf_get h
  by_contra hlt
  rw [List.get?_eq_none.mpr (by omega)] at this
  exact absurd this (by simp)

theorem idxOf_append {tv : List Nat} {tbl l2 : List (List Nat)}
    (h : tv ∈ tbl) : idxOf tv (tbl ++ l2) = idxOf tv tbl := by
  induction tbl with
  | nil => exact absurd h (by simp)
  | cons t ts ih =>
    by_cases ht : t = tv
    · simp [idxOf, ht]
    · rcases List.mem_cons.mp h with h2 | h2
      · exact absurd h2.symm ht
      · simp only [List.cons_append, idxOf, if_neg ht]
        have hh := ih h2
        simp only [List.append_eq] at hh ⊢
        omega

theorem idxOf_inj {tv1 tv2 : List Nat} {tbl : List (List Nat)}
    (h1 : tv1 ∈ tbl) (h2 : tv2 ∈ tbl) (h : idxOf tv1 tbl = idxOf tv2 tbl) :
    tv1 = tv2 := by
  have g1 := idxOf_get h1
  have g2 := idxOf_get h2
  rw [h, g2] at g1
  exact (Option.some.injEq _ _ ▸ g1.symm)

/-- The interned id table only grows. -/
theorem tvtLookup_get {tbl : List (List Nat)} {tv : List Nat} :
    ((tvtLookup tbl tv).2).get? (tvtLookup tbl tv).1 = some tv := by
  unfold tvtLookup
  by_cases h : tv ∈ tbl
  · simp only [if_pos h]
    exact idxOf_get h
  · simp only [if_neg h]
    rw [List.get?_append_right (by omega)]
    simp

/-- Distinct type vectors are interned under distinct ids, also across an
intervening lookup. -/
theorem tvtLookup_ne {tbl : List (List Nat)} {tv1 tv2 : List Nat}
    (h : tv1 ≠ tv2) :
    (tvtLookup tbl tv1).1 ≠ (tvtLookup (tvtLookup tbl tv1).2 tv2).1 := by
  unfold tvtLookup
  by_cases h1 : tv1 ∈ tbl
  · simp only [if_pos h1]
    by_cases h2 : tv2 ∈ tbl
    · simp only [if_pos h2]
      intro heq
      exact h (idxOf_inj h1 h2 heq)
    · simp only [if_neg h2]
      have := idxOf_lt_length h1
      omega
  · simp only [if_neg h1]
    by_cases h2 : tv2 ∈ tbl ++ [tv1]
    · simp only [if_pos h2]
      have h2b : tv2 ∈ tbl := by
        rcases List.mem_append.mp h2 with hh | hh
        · exact hh
        · simp only [List.mem_singleton] at hh
          exact absurd hh.symm h
      rw [idxOf_append h2b]
      have := idxOf_lt_length h2b
      omega
    · simp only [if_neg h2]
      simp

/-- Fresh row for a first-sighted key, already fed the creating record. -/
def freshRow {ρ τ : Type _} (cfg : Config ρ τ) (r : ρ) (id : Nat)
    (prim : Option SVal) : Row τ :=
  ⟨id, prim, updateReducers cfg r (newValRow cfg)⟩

/-- One record's update of an existing row's aggregate states. -/
def bumpRow {ρ τ : Type _} (cfg : Config ρ τ) (r : ρ) (row : Row τ) : Row τ :=
  { row with reducers := updateReducers cfg r row.reducers }

/-- The body of `Consume` after a successful key scan, as an explicit
function of the scan results (used to trace `Consume` in proofs). -/
def consumeStep {ρ τ : Type _} (cfg : Config ρ τ) (st : AggState τ) (r : ρ)
    (mtk2 : Option SVal) (tys : List Nat) (flat : Bytes) (prim : Option SVal) :
    AggState τ :=
  match tblGet st.table (flat ++ uvarint (tvtLookup st.keyTypes tys).1) with
  | some _ =>
    { st with maxTableKey := mtk2, keyTypes := (tvtLookup st.keyTypes tys).2, table := tblUpdate st.table (flat ++ uvarint (tvtLookup st.keyTypes tys).1) (bumpRow cfg r) }
  | none =>
    if effLimit cfg.limit ≤ st.table.length then
      let stSp := spillTable cfg false { st with maxTableKey := mtk2, keyTypes := (tvtLookup st.keyTypes tys).2 }
      { stSp with table := stSp.table ++ [(flat ++ uvarint (tvtLookup st.keyTypes tys).1, freshRow cfg r (tvtLookup st.keyTypes tys).1 prim)] }
    else
      { st with maxTableKey := mtk2, keyTypes := (tvtLookup st.keyTypes tys).2, table := st.table ++ [(flat ++ uvarint (tvtLookup st.keyTypes tys).1, freshRow cfg r (tvtLookup st.keyTypes tys).1 prim)] }

theorem Consume_eq_step {ρ τ : Type _} {cfg : Config ρ τ} {st : AggState τ}
    {r : ρ} {mtk2 : Option SVal} {tys : List Nat} {flat : Bytes}
    {prim : Option SVal}
    (hsk : scanKeys cfg r cfg.keyExprs 0 st.maxTableKey = (mtk2, some (tys, flat, prim))) :
    Consume cfg st r = consumeStep cfg st r mtk2 tys flat prim := by
  unfold Consume consumeStep
  rw [hsk]
  cases h : tblGet st.table (flat ++ uvarint (tvtLookup st.keyTypes tys).1) with
  | none =>
    simp only [h, freshRow]
    by_cases hl : effLimit cfg.limit ≤ st.table.length <;> simp [hl]
  | some v =>
    simp only [h]
    rfl

theorem scanKeys_of_not_skipped {ρ τ : Type _} (cfg : Config ρ τ) (r : ρ)
    (mtk : Option SVal) (h : ¬skipped cfg r) :
    ∃ prim, scanKeys cfg r cfg.keyExprs 0 mtk =
      ((scanKeys cfg r cfg.keyExprs 0 mtk).1,
       some (cfg.keyExprs.map (fun e => (e r).tid),
             encodeFlat (cfg.keyExprs.map (fun e => (e r).bytes)), prim)) := by
  cases hk : cfg.keyExprs with
  | nil => exact ⟨none, by simp [scanKeys, encodeFlat]⟩
  | cons e es =>
    have hq : ¬cfg.isQuiet (e r) := by
      intro hqq
      exact h ⟨e, by rw [hk]; exact List.mem_cons_self e es, hqq⟩
    cases hrec : scanTail cfg r es with
    | none =>
      rcases (scanTail_none_iff cfg r es).mp hrec with ⟨e2, he2, hq2⟩
      exact absurd ⟨e2, by rw [hk]; exact List.mem_cons_of_mem e he2, hq2⟩ h
    | some p =>
      rcases p with ⟨tys2, flat2⟩
      obtain ⟨ht2, hf2⟩ := scanTail_some_spec cfg r es tys2 flat2 hrec
      refine ⟨if cfg.inputDir ≠ 0 then some (updateMaxTableKey cfg.inputDir mtk (e r)) else none, ?_⟩
      rw [scanKeys_zero, if_neg hq, hrec]
      simp only [Option.map_some]
      refine Prod.ext rfl ?_
      simp only [Option.some.injEq, Prod.mk.injEq]
      rw [ht2, hf2]
      simp [encodeFlat]

theorem effLimit_pos (l : Nat) : 0 < effLimit l := by
  unfold effLimit DefaultLimit
  split <;> omega

/-- `readTable` with `flush` on a non-empty table: the whole table is
emitted, in table order, and the table is emptied. -/
theorem readTable_flush_of_ne {ρ τ : Type _} (cfg : Config ρ τ) (pOut : Bool)
    (st : AggState τ) (hne : st.table ≠ []) :
    readTable cfg true pOut st =
      (some (st.table.map (fun e => rowOut cfg st.keyTypes pOut e.1 e.2)),
       { st with table := [] }) := by
  unfold readTable rowKept
  simp only [if_pos (by rfl : (true : Bool) = true)]
  cases htbl : st.table with
  | nil => exact absurd htbl hne
  | cons e es => simp

theorem readTable_flush_of_empty {ρ τ : Type _} (cfg : Config ρ τ) (pOut : Bool)
    (st : AggState τ) (he : st.table = []) :
    readTable cfg true pOut st = (none, st) := by
  unfold readTable rowKept
  rw [he]
  simp

/-- `spillTable` on a non-empty table: the table is drained into the spiller
as partials, everything else except the spill watermark is untouched. -/
theorem spillTable_spec {ρ τ : Type _} (cfg : Config ρ τ) (eof : Bool)
    (st : AggState τ) (hne : st.table ≠ []) :
    (spillTable cfg eof st).table = [] ∧
    (spillTable cfg eof st).spiller = some (sortBy (keysLe cfg.inputDir)
      (st.spiller.getD [] ++ st.table.map (fun e => rowOut cfg st.keyTypes true e.1 e.2))) ∧
    (spillTable cfg eof st).keyTypes = st.keyTypes ∧
    (spillTable cfg eof st).maxTableKey = st.maxTableKey := by
  unfold spillTable
  rw [readTable_flush_of_ne cfg true st hne]
  simp only
  split
  · split <;> simp
  · simp

theorem consumeStep_fresh {ρ τ : Type _} (cfg : Config ρ τ) (st : AggState τ)
    (r : ρ) (mtk2 : Option SVal) (tys : List Nat) (flat : Bytes)
    (prim : Option SVal)
    (habs : tblGet st.table (flat ++ uvarint (tvtLookup st.keyTypes tys).1) = none)
    (hlen : st.table.length < effLimit cfg.limit) :
    consumeStep cfg st r mtk2 tys flat prim =
      { st with maxTableKey := mtk2, keyTypes := (tvtLookup st.keyTypes tys).2, table := st.table ++ [(flat ++ uvarint (tvtLookup st.keyTypes tys).1, freshRow cfg r (tvtLookup st.keyTypes tys).1 prim)] } := by
  unfold consumeStep
  rw [habs, if_neg (by omega)]

theorem consumeStep_spill {ρ τ : Type _} (cfg : Config ρ τ) (st : AggState τ)
    (r : ρ) (mtk2 : Option SVal) (tys : List Nat) (flat : Bytes)
    (prim : Option SVal)
    (habs : tblGet st.table (flat ++ uvarint (tvtLookup st.keyTypes tys).1) = none)
    (hlen : effLimit cfg.limit ≤ st.table.length) :
    consumeStep cfg st r mtk2 tys flat prim =
      { spillTable cfg false { st with maxTableKey := mtk2, keyTypes := (tvtLookup st.keyTypes tys).2 } with table := (spillTable cfg false { st with maxTableKey := mtk2, keyTypes := (tvtLookup st.keyTypes tys).2 }).table ++ [(flat ++ uvarint (tvtLookup st.keyTypes tys).1, freshRow cfg r (tvtLookup st.keyTypes tys).1 prim)] } := by
  unfold consumeStep
  rw [habs, if_pos hlen]

theorem consumeStep_present {ρ τ : Type _} (cfg : Config ρ τ) (st : AggState τ)
    (r : ρ) (mtk2 : Option SVal) (tys : List Nat) (flat : Bytes)
    (prim : Option SVal) (row0 : Row τ)
    (hpres : tblGet st.table (flat ++ uvarint (tvtLookup st.keyTypes tys).1) = some row0) :
    consumeStep cfg st r mtk2 tys flat prim =
      { st with maxTableKey := mtk2, keyTypes := (tvtLookup st.keyTypes tys).2, table := tblUpdate st.table (flat ++ uvarint (tvtLookup st.keyTypes tys).1) (bumpRow cfg r) } := by
  unfold consumeStep
  rw [hpres]

theorem getD_of_get? {α : Type _} {l : List α} {i : Nat} {v d : α}
    (h : l.get? i = some v) : l.getD i d = v := by
  induction l generalizing i with
  | nil => simp at h
  | cons x xs ih =>
    cases i with
    | zero => simp at h; simp [List.getD, h]
    | succ n =>
      simp only [List.get?_cons_succ] at h
      simpa [List.getD] using ih h

theorem tvt_get_preserve {tbl : List (List Nat)} {tv : List Nat} {i : Nat}
    {v : List Nat} (h : tbl.get? i = some v) :
    ((tvtLookup tbl tv).2).get? i = some v := by
  unfold tvtLookup
  by_cases hm : tv ∈ tbl
  · rw [if_pos hm]
    exact h
  · simp only [if_neg hm]
    have hi : i < tbl.length := by
      by_contra hh
      rw [List.get?_eq_none.mpr (by omega)] at h
      simp at h
    rw [List.get?_append hi]
    exact h

theorem zipWith_mk_tid : ∀ (ts : List Nat) (bs : List (Option Bytes)),
    ts.length = bs.length →
    (List.zipWith SVal.mk ts bs).map (fun v => v.tid) = ts := by
  intro ts
  induction ts with
  | nil => intro bs _; simp
  | cons t ts ih =>
    intro bs hlen
    cases bs with
    | nil => simp at hlen
    | cons b bs =>
      simp only [List.zipWith_cons_cons, List.map_cons, List.cons.injEq, true_and]
      exact ih bs (by simpa using hlen)

/-- Flushing a two-row table whose keys decode to different type vectors
yields two output rows with distinct key-field lists. -/
theorem readTable_two_rows_distinct {ρ τ : Type _} (cfg : Config ρ τ)
    (pOut : Bool) (st : AggState τ) (k1 k2 : Bytes) (row1 row2 : Row τ)
    (tys1 tys2 : List Nat) (bl1 bl2 : List (Option Bytes)) (id1 id2 : Nat)
    (htbl : st.table = [(k1, row1), (k2, row2)])
    (hk1 : k1 = encodeFlat bl1 ++ uvarint id1)
    (hk2 : k2 = encodeFlat bl2 ++ uvarint id2)
    (hr1 : row1.keyType = id1) (hr2 : row2.keyType = id2)
    (hg1 : st.keyTypes.get? id1 = some tys1)
    (hg2 : st.keyTypes.get? id2 = some tys2)
    (hlen1 : tys1.length = bl1.length) (hlen2 : tys2.length = bl2.length)
    (htys : tys1 ≠ tys2) :
    ∃ o1 o2, (readTable cfg true pOut st).1 = some [o1, o2] ∧
      o1.keys ≠ o2.keys := by
  have hne : st.table ≠ [] := by rw [htbl]; simp
  rw [readTable_flush_of_ne cfg pOut st hne, htbl]
  refine ⟨rowOut cfg st.keyTypes pOut k1 row1, rowOut cfg st.keyTypes pOut k2 row2,
    by simp, ?_⟩
  unfold rowOut
  simp only [hr1, hr2, getD_of_get? hg1, getD_of_get? hg2, hk1, hk2, hlen1, hlen2,
    parseFlat_encodeFlat]
  intro hkeys
  apply htys
  have h1 := zipWith_mk_tid tys1 bl1 hlen1
  have h2 := zipWith_mk_tid tys2 bl2 hlen2
  rw [← h1, ← h2, hkeys]

/-! ### C2 — type separation of identically-encoded keys -/

/-- C2: two non-skipped records whose evaluated key tuples have byte-identical
flat payloads but different type vectors are assigned distinct group-table
entries — the table key is the flat payload suffixed with the uvarint of the
interned type-vector id and interning is injective — and flushing the table
yields two distinct output rows, each built from only its own record's
contribution. -/
theorem C2_type_separation {ρ τ : Type _} (cfg : Config ρ τ)
    (st : AggState τ) (r1 r2 : ρ)
    (hq1 : ¬skipped cfg r1) (hq2 : ¬skipped cfg r2)
    (hbytes : cfg.keyExprs.map (fun e => (e r1).bytes) =
      cfg.keyExprs.map (fun e => (e r2).bytes))
    (htids : cfg.keyExprs.map (fun e => (e r1).tid) ≠
      cfg.keyExprs.map (fun e => (e r2).tid))
    (htbl : st.table = [])
    (hlim : 2 ≤ effLimit cfg.limit) :
    ∃ k1 k2 row1 row2,
      (Consume cfg (Consume cfg st r1) r2).table = [(k1, row1), (k2, row2)] ∧
      k1 ≠ k2 ∧
      row1.reducers = updateReducers cfg r1 (newValRow cfg) ∧
      row2.reducers = updateReducers cfg r2 (newValRow cfg) ∧
      ∀ pOut, ∃ o1 o2,
        (readTable cfg true pOut (Consume cfg (Consume cfg st r1) r2)).1 =
          some [o1, o2] ∧ o1.keys ≠ o2.keys := by
  obtain ⟨prim1, hsk1⟩ := scanKeys_of_not_skipped cfg r1 st.maxTableKey hq1
  have habs1 : tblGet st.table
      (encodeFlat (cfg.keyExprs.map (fun e => (e r1).bytes)) ++
        uvarint (tvtLookup st.keyTypes (cfg.keyExprs.map (fun e => (e r1).tid))).1) = none := by
    rw [htbl]; rfl
  have hlen1 : st.table.length < effLimit cfg.limit := by
    rw [htbl]
    simpa using effLimit_pos cfg.limit
  have hc1 : Consume cfg st r1 =
      { st with
        maxTableKey := (scanKeys cfg r1 cfg.keyExprs 0 st.maxTableKey).1,
        keyTypes := (tvtLookup st.keyTypes (cfg.keyExprs.map (fun e => (e r1).tid))).2,
        table := [(encodeFlat (cfg.keyExprs.map (fun e => (e r1).bytes)) ++
          uvarint (tvtLookup st.keyTypes (cfg.keyExprs.map (fun e => (e r1).tid))).1,
          freshRow cfg r1 (tvtLookup st.keyTypes (cfg.keyExprs.map (fun e => (e r1).tid))).1 prim1)] } := by
    rw [Consume_eq_step hsk1,
      consumeStep_fresh cfg st r1 _ _ _ _ habs1 hlen1, htbl]
    simp
  obtain ⟨prim2, hsk2⟩ := scanKeys_of_not_skipped cfg r2
    (Consume cfg st r1).maxTableKey hq2
  have hid : (tvtLookup st.keyTypes (cfg.keyExprs.map (fun e => (e r1).tid))).1 ≠
      (tvtLookup (tvtLookup st.keyTypes (cfg.keyExprs.map (fun e => (e r1).tid))).2
        (cfg.keyExprs.map (fun e => (e r2).tid))).1 :=
    tvtLookup_ne htids
  have hne : encodeFlat (cfg.keyExprs.map (fun e => (e r1).bytes)) ++
        uvarint (tvtLookup st.keyTypes (cfg.keyExprs.map (fun e => (e r1).tid))).1 ≠
      encodeFlat (cfg.keyExprs.map (fun e => (e r2).bytes)) ++
        uvarint (tvtLookup (tvtLookup st.keyTypes (cfg.keyExprs.map (fun e => (e r1).tid))).2
          (cfg.keyExprs.map (fun e => (e r2).tid))).1 := by
    rw [← hbytes]
    intro he
    exact hid (uvarint_inj (List.append_cancel_left he))
  -- the second consume sees the one-row table, under the key for r2
  have hmtk1 : (Consume cfg st r1).maxTableKey =
      (scanKeys cfg r1 cfg.keyExprs 0 st.maxTableKey).1 := by rw [hc1]
  have hkt1 : (Consume cfg st r1).keyTypes =
      (tvtLookup st.keyTypes (cfg.keyExprs.map (fun e => (e r1).tid))).2 := by rw [hc1]
  have htbl1 : (Consume cfg st r1).table =
      [(encodeFlat (cfg.keyExprs.map (fun e => (e r1).bytes)) ++
        uvarint (tvtLookup st.keyTypes (cfg.keyExprs.map (fun e => (e r1).tid))).1,
        freshRow cfg r1 (tvtLookup st.keyTypes (cfg.keyExprs.map (fun e => (e r1).tid))).1 prim1)] := by
    rw [hc1]
  have habs2 : tblGet (Consume cfg st r1).table
      (encodeFlat (cfg.keyExprs.map (fun e => (e r2).bytes)) ++
        uvarint (tvtLookup (Consume cfg st r1).keyTypes
          (cfg.keyExprs.map (fun e => (e r2).tid))).1) = none := by
    rw [htbl1, hkt1]
    unfold tblGet
    rw [if_neg hne]
    rfl
  have hlen2 : (Consume cfg st r1).table.length < effLimit cfg.limit := by
    rw [htbl1]
    simpa using hlim
  have hc2 := Consume_eq_step hsk2
  rw [consumeStep_fresh cfg (Consume cfg st r1) r2 _ _ _ _ habs2 hlen2] at hc2
  rw [hc2, htbl1, hkt1]
  refine ⟨_, _, _, _, rfl, ?_, rfl, rfl, ?_⟩
  · exact hne
  · intro pOut
    set TY1 := cfg.keyExprs.map (fun e => (e r1).tid) with hTY1
    set TY2 := cfg.keyExprs.map (fun e => (e r2).tid) with hTY2
    set BL1 := cfg.keyExprs.map (fun e => (e r1).bytes) with hBL1
    set BL2 := cfg.keyExprs.map (fun e => (e r2).bytes) with hBL2
    set I1 := (tvtLookup st.keyTypes TY1).1 with hI1
    set KT1 := (tvtLookup st.keyTypes TY1).2 with hKT1
    set I2 := (tvtLookup KT1 TY2).1 with hI2
    apply readTable_two_rows_distinct cfg pOut _
      (encodeFlat BL1 ++ uvarint I1) (encodeFlat BL2 ++ uvarint I2)
      (freshRow cfg r1 I1 prim1) (freshRow cfg r2 I2 prim2)
      TY1 TY2 BL1 BL2 I1 I2
      (by simp) rfl rfl rfl rfl
      (tvt_get_preserve tvtLookup_get) tvtLookup_get
      (by rw [hTY1, hBL1]; simp) (by rw [hTY2, hBL2]; simp) htids

/-! ### C7 — the spill trigger empties the table before the insert -/

/-- C7: when `Consume` meets a key absent from the table and the table holds
at least `limit` rows, the entire table is spilled as one sorted run and
emptied before the new row is inserted, so the table then holds exactly the
one new row; and a configured limit of 0 means an effective limit of
1,000,000 rows. -/
theorem C7_spill_trigger {ρ τ : Type _} (cfg : Config ρ τ) (st : AggState τ)
    (r : ρ) (mtk2 : Option SVal) (tys : List Nat) (flat : Bytes)
    (prim : Option SVal)
    (hsk : scanKeys cfg r cfg.keyExprs 0 st.maxTableKey = (mtk2, some (tys, flat, prim)))
    (habs : tblGet st.table (flat ++ uvarint (tvtLookup st.keyTypes tys).1) = none)
    (hlen : effLimit cfg.limit ≤ st.table.length) :
    (Consume cfg st r).table =
      [(flat ++ uvarint (tvtLookup st.keyTypes tys).1,
        freshRow cfg r (tvtLookup st.keyTypes tys).1 prim)] ∧
    (Consume cfg st r).spiller = some (sortBy (keysLe cfg.inputDir)
      (st.spiller.getD [] ++ st.table.map
        (fun e => rowOut cfg (tvtLookup st.keyTypes tys).2 true e.1 e.2))) ∧
    effLimit 0 = 1000000 := by
  have htblne : st.table ≠ [] := by
    intro he
    rw [he] at hlen
    have := effLimit_pos cfg.limit
    simp at hlen
    omega
  rw [Consume_eq_step hsk, consumeStep_spill cfg st r _ _ _ _ habs hlen]
  have hsp := spillTable_spec cfg false
    { st with maxTableKey := mtk2, keyTypes := (tvtLookup st.keyTypes tys).2 }
    (by simpa using htblne)
  refine ⟨?_, ?_, rfl⟩
  · simp [hsp.1]
  · simp [hsp.2.1]

/-! ### Concrete fixtures used by witnesses and counterexamples

Records are pairs `(a, b)` of naturals; the group key is `a` (type id 1);
the aggregate is a count whose partial encodes the cardinality and decodes to
that many placeholder contributions (a decomposable aggregate). -/

abbrev WRec := Nat × Nat

def wCount : AggFn WRec where
  result := fun s => ⟨9, some [s.card]⟩
  resultPart := fun s => ⟨8, some [s.card]⟩
  decodePart := fun v => match v.bytes with
    | some bs => Multiset.replicate (bs.headD 0) ((0, 0) : WRec)
    | none => 0

def wKeyA : WRec → SVal := fun r => ⟨1, some [r.1]⟩

/-- Second key used by the quiet-skip fixtures: quiet (type id 7) whenever
the record's second field is zero. -/
def wKeyQ : WRec → SVal := fun r => ⟨if r.2 = 0 then 7 else 2, some [r.2]⟩

def wCfg (dir : Int) (lim : Nat) (pIn pOut : Bool) : Config WRec WRec where
  keyExprs := [wKeyA]
  keyExpr0Out := fun o => o.keys.getD 0 default
  aggRefs := [fun r => ⟨8, some [r.2]⟩]
  aggs := [wCount]
  applyRec := id
  isQuiet := fun v => v.tid == 7
  isError := fun _ => false
  limit := lim
  inputDir := dir
  partialsIn := pIn
  partialsOut := pOut

/-- Two-key variant (primary key `a`, secondary possibly-quiet key). -/
def wCfg2 : Config WRec WRec :=
  { wCfg 1 0 false false with keyExprs := [wKeyA, wKeyQ] }

/-- Key whose type id varies with the record: same payload bytes, different
types (used by the type-separation witness). -/
def wKeyT : WRec → SVal := fun r => ⟨r.2, some [r.1]⟩

def wCfgT : Config WRec WRec := { wCfg 0 0 false false with keyExprs := [wKeyT] }

theorem C2_type_separation_witness :
    (¬skipped wCfgT ((1, 5) : WRec) ∧ ¬skipped wCfgT ((1, 6) : WRec) ∧
     wCfgT.keyExprs.map (fun e => (e (1, 5)).bytes) =
       wCfgT.keyExprs.map (fun e => (e (1, 6)).bytes) ∧
     wCfgT.keyExprs.map (fun e => (e (1, 5)).tid) ≠
       wCfgT.keyExprs.map (fun e => (e (1, 6)).tid) ∧
     (initState : AggState WRec).table = [] ∧ 2 ≤ effLimit wCfgT.limit) ∧
    (∃ k1 k2 row1 row2,
      (Consume wCfgT (Consume wCfgT initState (1, 5)) (1, 6)).table = [(k1, row1), (k2, row2)] ∧
      k1 ≠ k2 ∧
      row1.reducers = updateReducers wCfgT (1, 5) (newValRow wCfgT) ∧
      row2.reducers = updateReducers wCfgT (1, 6) (newValRow wCfgT) ∧
      ∀ pOut, ∃ o1 o2,
        (readTable wCfgT true pOut (Consume wCfgT (Consume wCfgT initState (1, 5)) (1, 6))).1 =
          some [o1, o2] ∧ o1.keys ≠ o2.keys) := by
  refine ⟨⟨by decide, by decide, by decide, by decide, rfl, by decide⟩, ?_⟩
  exact C2_type_separation wCfgT initState (1, 5) (1, 6) (by decide) (by decide)
    (by decide) (by decide) rfl (by decide)

def c7cfg : Config WRec WRec := wCfg 0 1 false false

def c7st : AggState WRec := Consume c7cfg initState ((1, 0) : WRec)

theorem C7_spill_trigger_witness :
    (scanKeys c7cfg ((2, 0) : WRec) c7cfg.keyExprs 0 c7st.maxTableKey =
       (none, some ([1], [2, 2], none)) ∧
     tblGet c7st.table ([2, 2] ++ uvarint (tvtLookup c7st.keyTypes [1]).1) = none ∧
     effLimit c7cfg.limit ≤ c7st.table.length) ∧
    ((Consume c7cfg c7st ((2, 0) : WRec)).table =
      [([2, 2] ++ uvarint (tvtLookup c7st.keyTypes [1]).1,
        freshRow c7cfg (2, 0) (tvtLookup c7st.keyTypes [1]).1 none)] ∧
     (Consume c7cfg c7st ((2, 0) : WRec)).spiller = some (sortBy (keysLe c7cfg.inputDir)
       (c7st.spiller.getD [] ++ c7st.table.map
         (fun e => rowOut c7cfg (tvtLookup c7st.keyTypes [1]).2 true e.1 e.2))) ∧
     effLimit 0 = 1000000) := by
  exact ⟨⟨by decide, by decide, by decide⟩,
    C7_spill_trigger c7cfg c7st (2, 0) none [1] [2, 2] none
      (by decide) (by decide) (by decide)⟩

/-! ### C8 — quiet keys skip the record without any group update -/

/-- C8: if some key expression evaluates to quiet on a record, `Consume`
performs no group update: the group table, the key-type intern table, the
spiller and the spill watermark are all unchanged, so no entry is created or
modified and no aggregate state receives the record.  (`Consume` returns nil
in the source on this path; the model's `Consume` is total and error-free, so
the nil-error part is the absence of any other effect.) -/
theorem C8_quiet_skip {ρ τ : Type _} (cfg : Config ρ τ) (st : AggState τ)
    (r : ρ) (h : skipped cfg r) :
    (Consume cfg st r).table = st.table ∧
    (Consume cfg st r).keyTypes = st.keyTypes ∧
    (Consume cfg st r).spiller = st.spiller ∧
    (Consume cfg st r).maxSpillKey = st.maxSpillKey := by
  have hnone := scanKeys_none_of_skipped cfg r st.maxTableKey h
  unfold Consume
  rcases hsk : scanKeys cfg r cfg.keyExprs 0 st.maxTableKey with ⟨mtk2, o⟩
  rw [hsk] at hnone
  simp only at hnone
  subst hnone
  simp

theorem C8_quiet_skip_witness :
    skipped wCfg2 ((5, 0) : WRec) ∧
    ((Consume wCfg2 initState ((5, 0) : WRec)).table = (initState : AggState WRec).table ∧
     (Consume wCfg2 initState ((5, 0) : WRec)).keyTypes = (initState : AggState WRec).keyTypes ∧
     (Consume wCfg2 initState ((5, 0) : WRec)).spiller = (initState : AggState WRec).spiller ∧
     (Consume wCfg2 initState ((5, 0) : WRec)).maxSpillKey = (initState : AggState WRec).maxSpillKey) := by
  have hsk : skipped wCfg2 ((5, 0) : WRec) := by
    refine ⟨wKeyQ, ?_, ?_⟩
    · simp [wCfg2, wCfg]
    · decide
  exact ⟨hsk, C8_quiet_skip wCfg2 initState (5, 0) hsk⟩

/-! ### C10 — a later-key quiet skip still advances `max_table_key` -/

/-- C10: in sorted mode, when the first key evaluates non-quiet but a later
key evaluates quiet, `Consume` skips the record yet the whole state change is
exactly the `updateMaxTableKey` made for the first key's value: the group
table (and everything else) is untouched while `max_table_key` advances. -/
theorem C10_quiet_advances_mtk {ρ τ : Type _} (cfg : Config ρ τ)
    (st : AggState τ) (r : ρ) (e0 : ρ → SVal) (rest : List (ρ → SVal))
    (hk : cfg.keyExprs = e0 :: rest)
    (hd : cfg.inputDir ≠ 0)
    (h0 : ¬cfg.isQuiet (e0 r))
    (hq : ∃ e ∈ rest, cfg.isQuiet (e r)) :
    Consume cfg st r =
      { st with maxTableKey := some (updateMaxTableKey cfg.inputDir st.maxTableKey (e0 r)) } := by
  unfold Consume
  rw [hk, scanKeys_zero, if_neg h0, (scanTail_none_iff cfg r rest).mpr hq]
  simp [hd]

theorem C10_quiet_advances_mtk_witness :
    (wCfg2.keyExprs = wKeyA :: [wKeyQ] ∧ wCfg2.inputDir ≠ 0 ∧
      ¬wCfg2.isQuiet (wKeyA (5, 0)) ∧ wCfg2.isQuiet (wKeyQ (5, 0))) ∧
    Consume wCfg2 { initState with maxTableKey := some ⟨1, some [3]⟩ } ((5, 0) : WRec) =
      { (initState : AggState WRec) with maxTableKey := some ⟨1, some [5]⟩ } ∧
    (⟨1, some [5]⟩ : SVal) ≠ (⟨1, some [3]⟩ : SVal) := by
  refine ⟨⟨by simp [wCfg2, wCfg], by decide, by decide, by decide⟩, ?_, by decide⟩
  have h := C10_quiet_advances_mtk wCfg2
    { initState with maxTableKey := some ⟨1, some [3]⟩ } ((5, 0) : WRec)
    wKeyA [wKeyQ] (by simp [wCfg2, wCfg]) (by decide) (by decide)
    ⟨wKeyQ, by simp, by decide⟩
  rw [h]
  decide

/-! ### C4 — early-emit eligibility of the in-memory table -/

theorem rowKept_false_iff {τ : Type _} (dir : Int) (mtk : Option SVal)
    (row : Row τ) :
    rowKept dir mtk false row =
      !decide (dirCmp dir (row.groupval.getD default) (mtk.getD default) = .lt) := by
  unfold rowKept
  split
  · simp_all
  · split <;> simp_all

/-- C4: in sorted mode, a non-flush result request against the in-memory
table returns exactly the rows whose primary group value compares strictly
below the current max-table-key (in table order), and deletes them; rows
comparing greater or equal remain in the table untouched, and no other state
component changes. -/
theorem C4_early_emit {ρ τ : Type _} (cfg : Config ρ τ) (st : AggState τ)
    (pOut : Bool) (hdir : cfg.inputDir ≠ 0) :
    (readTable cfg false pOut st).1.getD [] =
      (st.table.filter (fun e =>
        decide (dirCmp cfg.inputDir (e.2.groupval.getD default)
          (st.maxTableKey.getD default) = .lt))).map
        (fun e => rowOut cfg st.keyTypes pOut e.1 e.2) ∧
    (readTable cfg false pOut st).2.table =
      st.table.filter (fun e =>
        !decide (dirCmp cfg.inputDir (e.2.groupval.getD default)
          (st.maxTableKey.getD default) = .lt)) ∧
    (readTable cfg false pOut st).2.keyTypes = st.keyTypes ∧
    (readTable cfg false pOut st).2.spiller = st.spiller ∧
    (readTable cfg false pOut st).2.maxTableKey = st.maxTableKey ∧
    (readTable cfg false pOut st).2.maxSpillKey = st.maxSpillKey := by
  unfold readTable
  simp only [rowKept_false_iff, Bool.not_not]
  by_cases hemp : (st.table.filter (fun e =>
      decide (dirCmp cfg.inputDir (e.2.groupval.getD default)
        (st.maxTableKey.getD default) = .lt))).isEmpty
  · rw [List.isEmpty_iff] at hemp
    simp [hemp]
    rw [eq_comm, List.filter_eq_self]
    intro e he
    by_contra hlt
    have : e ∈ st.table.filter (fun e =>
        decide (dirCmp cfg.inputDir (e.2.groupval.getD default)
          (st.maxTableKey.getD default) = .lt)) := by
      rw [List.mem_filter]
      exact ⟨he, by simpa using hlt⟩
    rw [hemp] at this
    simp at this
  · have : ¬((st.table.filter (fun e =>
        decide (dirCmp cfg.inputDir (e.2.groupval.getD default)
          (st.maxTableKey.getD default) = .lt))).map
        (fun e => rowOut cfg st.keyTypes pOut e.1 e.2)).isEmpty := by
      simpa using hemp
    simp [this]

/-- Concrete sorted-mode state for the C4 witness: two rows, one completed
(primary 1 below the watermark 3), one not. -/
def c4st : AggState WRec :=
  ⟨[[1]],
   [([2, 1, 0], ⟨0, some ⟨1, some [1]⟩, [{((1, 0) : WRec)}]⟩),
    ([2, 3, 0], ⟨0, some ⟨1, some [3]⟩, [{((3, 0) : WRec)}]⟩)],
   some ⟨1, some [3]⟩, none, none⟩

theorem C4_early_emit_witness :
    ((wCfg 1 0 false false).inputDir ≠ 0) ∧
    ((readTable (wCfg 1 0 false false) false false c4st).1.getD [] =
      (c4st.table.filter (fun e =>
        decide (dirCmp (wCfg 1 0 false false).inputDir (e.2.groupval.getD default)
          (c4st.maxTableKey.getD default) = .lt))).map
        (fun e => rowOut (wCfg 1 0 false false) c4st.keyTypes false e.1 e.2) ∧
    (readTable (wCfg 1 0 false false) false false c4st).2.table =
      c4st.table.filter (fun e =>
        !decide (dirCmp (wCfg 1 0 false false).inputDir (e.2.groupval.getD default)
          (c4st.maxTableKey.getD default) = .lt)) ∧
    (readTable (wCfg 1 0 false false) false false c4st).2.keyTypes = c4st.keyTypes ∧
    (readTable (wCfg 1 0 false false) false false c4st).2.spiller = c4st.spiller ∧
    (readTable (wCfg 1 0 false false) false false c4st).2.maxTableKey = c4st.maxTableKey ∧
    (readTable (wCfg 1 0 false false) false false c4st).2.maxSpillKey = c4st.maxSpillKey) :=
  ⟨by decide, C4_early_emit (wCfg 1 0 false false) c4st false (by decide)⟩

/-! ### Primary keys, spill watermarks and sortedness facts -/

/-- The primary key of an output record: its first key field (what the key
references read back; `keyExprs[0]` evaluates to it on output records when
the keys are field references). -/
def primOf (o : Out) : SVal := o.keys.getD 0 default

/-- Running largest-so-far of a list of primary keys under the configured
direction (the semantics the spec assigns to `max_spill_key`). -/
def maxKeyOf (dir : Int) (l : List SVal) : Option SVal :=
  l.foldl (updateMaxSpillKey dir) none

theorem dirCmp_eq_of_not_gt_not_lt {dir : Int} {a b : SVal}
    (h1 : dirCmp dir a b ≠ .gt) (h2 : dirCmp dir a b ≠ .lt) : a = b := by
  have := cmpFacts_dirCmp dir
  rcases hc : dirCmp dir a b with _ | _ | _
  · exact absurd hc h2
  · exact (this.eq_iff a b).mp hc
  · exact absurd hc h1

theorem dirCmp_not_gt_trans {dir : Int} {a b c : SVal}
    (h1 : dirCmp dir a b ≠ .gt) (h2 : dirCmp dir b c ≠ .gt) :
    dirCmp dir a c ≠ .gt := by
  have hf := cmpFacts_dirCmp dir
  intro hac
  have hca : dirCmp dir c a = .lt := hf.gt_iff.mp hac
  rcases hab : dirCmp dir a b with _ | _ | _
  · have : dirCmp dir c b = .lt := hf.lt_trans c a b hca hab
    exact h2 (hf.gt_iff.mpr this)
  · rw [(hf.eq_iff a b).mp hab] at hca
    exact h2 (hf.gt_iff.mpr hca)
  · exact h1 hab

theorem updateMaxSpillKey_none (dir : Int) (v : SVal) :
    updateMaxSpillKey dir none v = some v := rfl

theorem updateMaxSpillKey_some (dir : Int) (m v : SVal) :
    updateMaxSpillKey dir (some m) v =
      if dirCmp dir v m = .gt then some v else some m := rfl

theorem updateMaxSpillKey_noop {dir : Int} {c u : SVal}
    (h : dirCmp dir u c ≠ .gt) :
    updateMaxSpillKey dir (some c) u = some c := by
  rw [updateMaxSpillKey_some, if_neg h]

theorem updateMaxSpillKey_absorb {dir : Int} (m : Option SVal) {x v : SVal}
    (h : dirCmp dir x v ≠ .gt) :
    updateMaxSpillKey dir (updateMaxSpillKey dir m x) v =
      updateMaxSpillKey dir m v := by
  have hf := cmpFacts_dirCmp dir
  cases m with
  | none =>
    rw [updateMaxSpillKey_none, updateMaxSpillKey_none, updateMaxSpillKey_some]
    split
    · rfl
    · rename_i hvx
      have hxv : x = v := dirCmp_eq_of_not_gt_not_lt h (fun hlt => hvx (hf.gt_iff.mpr hlt))
      rw [hxv]
  | some c =>
    rw [updateMaxSpillKey_some dir c x]
    by_cases hxc : dirCmp dir x c = .gt
    · rw [if_pos hxc, updateMaxSpillKey_some, updateMaxSpillKey_some]
      by_cases hvx : dirCmp dir v x = .gt
      · rw [if_pos hvx, if_pos (hf.gt_iff.mpr (hf.lt_trans c x v (hf.gt_iff.mp hxc) (hf.gt_iff.mp hvx)))]
      · have hxv : x = v := dirCmp_eq_of_not_gt_not_lt h (fun hlt => hvx (hf.gt_iff.mpr hlt))
        rw [if_neg hvx, ← hxv, if_pos hxc]
    · rw [if_neg hxc]

theorem foldl_updateMaxSpillKey_absorb {dir : Int} {v : SVal} :
    ∀ (l : List SVal) (m : Option SVal),
    (∀ u ∈ l, dirCmp dir u v ≠ .gt) →
    l.foldl (updateMaxSpillKey dir) (updateMaxSpillKey dir m v) =
      updateMaxSpillKey dir m v := by
  intro l
  induction l with
  | nil => intro m _; rfl
  | cons u us ih =>
    intro m hall
    have hu : dirCmp dir u v ≠ .gt := hall u (List.mem_cons_self u us)
    have hstep : updateMaxSpillKey dir (updateMaxSpillKey dir m v) u =
        updateMaxSpillKey dir m v := by
      cases m with
      | none =>
        rw [updateMaxSpillKey_none]
        exact updateMaxSpillKey_noop hu
      | some c =>
        rw [updateMaxSpillKey_some]
        by_cases hvc : dirCmp dir v c = .gt
        · rw [if_pos hvc]
          exact updateMaxSpillKey_noop hu
        · rw [if_neg hvc]
          exact updateMaxSpillKey_noop (dirCmp_not_gt_trans hu hvc)
    simp only [List.foldl_cons, hstep]
    exact ih m (fun u2 hu2 => hall u2 (List.mem_cons_of_mem u hu2))

/-- Folding the spill-watermark update over a batch that contains a maximal
element is one update with that element. -/
theorem foldl_updateMaxSpillKey_max {dir : Int} {v : SVal} :
    ∀ (l : List SVal) (m : Option SVal), v ∈ l →
    (∀ u ∈ l, dirCmp dir u v ≠ .gt) →
    l.foldl (updateMaxSpillKey dir) m = updateMaxSpillKey dir m v := by
  intro l
  induction l with
  | nil => intro m hv _; exact absurd hv (by simp)
  | cons x xs ih =>
    intro m hv hall
    rcases List.mem_cons.mp hv with hx | hx
    · subst hx
      simp only [List.foldl_cons]
      exact foldl_updateMaxSpillKey_absorb xs m
        (fun u hu => hall u (List.mem_cons_of_mem v hu))
    · simp only [List.foldl_cons]
      rw [ih (updateMaxSpillKey dir m x) hx
        (fun u hu => hall u (List.mem_cons_of_mem x hu))]
      exact updateMaxSpillKey_absorb m (hall x (List.mem_cons_self x xs))

theorem last_mem {α : Type _} : ∀ (l : List α) (d : α), l ≠ [] →
    l.getLastD d ∈ l := by
  intro l
  induction l with
  | nil => intro d h; exact absurd rfl h
  | cons x xs ih =>
    intro d _
    cases hxs : xs with
    | nil => simp [hxs, List.getLastD]
    | cons y ys =>
      rw [List.getLastD_cons]
      rw [← hxs]
      exact List.mem_cons_of_mem x (ih x (by simp [hxs]))

theorem pairwise_le_getLastD {α : Type _} {le : α → α → Bool}
    (hrefl : ∀ a, le a a = true) :
    ∀ (l : List α), l.Pairwise (fun a b => le a b = true) →
    ∀ (d : α), ∀ u ∈ l, le u (l.getLastD d) = true := by
  intro l
  induction l with
  | nil => intro _ d u hu; exact absurd hu (by simp)
  | cons x xs ih =>
    intro hpw d u hu
    rcases List.pairwise_cons.mp hpw with ⟨hx, hxs⟩
    cases hxsnil : xs with
    | nil =>
      rcases List.mem_cons.mp hu with h2 | h2
      · subst h2; simp [hxsnil, List.getLastD, hrefl]
      · rw [hxsnil] at h2; exact absurd h2 (by simp)
    | cons y ys =>
      rw [List.getLastD_cons, ← hxsnil]
      rcases List.mem_cons.mp hu with h2 | h2
      · rw [h2]
        exact hx _ (last_mem xs x (by simp [hxsnil]))
      · have := ih hxs x u h2
        exact this

theorem keysLe_iff {dir : Int} {a b : Out} :
    keysLe dir a b = true ↔ keysCmp dir a b ≠ .gt := by
  unfold keysLe
  split <;> simp_all

theorem keysEqb_iff {dir : Int} {a b : Out} :
    keysEqb dir a b = true ↔ a.keys = b.keys := by
  unfold keysEqb
  have hf := cmpFacts_cmpLex (cmpFacts_dirCmp dir)
  split
  · rename_i h
    constructor
    · intro _; exact (hf.eq_iff _ _).mp h
    · intro _; rfl
  · rename_i h
    constructor
    · intro hh; exact absurd hh (by decide)
    · intro hk; exact absurd ((hf.eq_iff _ _).mpr hk) h

theorem keysLe_refl (dir : Int) (a : Out) : keysLe dir a a = true := by
  rw [keysLe_iff]
  have hf := cmpFacts_cmpLex (cmpFacts_dirCmp dir)
  rw [show keysCmp dir a a = cmpLex (dirCmp dir) a.keys a.keys from rfl, hf.refl]
  decide

theorem keysLe_total (dir : Int) (a b : Out) :
    keysLe dir a b || keysLe dir b a := by
  have hf := cmpFacts_cmpLex (cmpFacts_dirCmp dir)
  rw [Bool.or_eq_true, keysLe_iff, keysLe_iff]
  by_cases h : keysCmp dir a b = .gt
  · right
    intro h2
    have hs := hf.swap_eq a.keys b.keys
    rw [show keysCmp dir a b = cmpLex (dirCmp dir) a.keys b.keys from rfl] at h
    rw [show keysCmp dir b a = cmpLex (dirCmp dir) b.keys a.keys from rfl] at h2
    rw [h, h2] at hs
    simp [Ordering.swap] at hs
  · left; exact h

theorem keysLe_trans (dir : Int) (a b c : Out) (h1 : keysLe dir a b = true)
    (h2 : keysLe dir b c = true) : keysLe dir a c = true := by
  have hf := cmpFacts_cmpLex (cmpFacts_dirCmp dir)
  rw [keysLe_iff] at h1 h2 ⊢
  intro hac
  have hca : cmpLex (dirCmp dir) c.keys a.keys = .lt := by
    have := hf.swap_eq a.keys c.keys
    rw [show keysCmp dir a c = cmpLex (dirCmp dir) a.keys c.keys from rfl] at hac
    rw [hac] at this
    cases hcb : cmpLex (dirCmp dir) c.keys a.keys <;> simp_all [Ordering.swap]
  rcases hab : cmpLex (dirCmp dir) a.keys b.keys with _ | _ | _
  · have : cmpLex (dirCmp dir) c.keys b.keys = .lt := hf.lt_trans _ _ _ hca hab
    apply h2
    rw [show keysCmp dir b c = cmpLex (dirCmp dir) b.keys c.keys from rfl]
    rw [← hf.swap_eq c.keys b.keys, this]
    rfl
  · rw [(hf.eq_iff _ _).mp hab] at hca
    apply h2
    rw [show keysCmp dir b c = cmpLex (dirCmp dir) b.keys c.keys from rfl]
    rw [← hf.swap_eq c.keys b.keys, hca]
    rfl
  · exact h1 hab

theorem keysLe_prim {dir : Int} {a b : Out} (ha : a.keys ≠ []) (hb : b.keys ≠ [])
    (h : keysLe dir a b = true) :
    dirCmp dir (primOf a) (primOf b) ≠ .gt := by
  rw [keysLe_iff] at h
  cases hak : a.keys with
  | nil => exact absurd hak ha
  | cons x xs =>
    cases hbk : b.keys with
    | nil => exact absurd hbk hb
    | cons y ys =>
      intro hgt
      apply h
      rw [show keysCmp dir a b = cmpLex (dirCmp dir) a.keys b.keys from rfl, hak, hbk]
      show (dirCmp dir x y).then (cmpLex (dirCmp dir) xs ys) = .gt
      have : dirCmp dir x y = .gt := by
        have : primOf a = x := by rw [primOf, hak]; rfl
        have hby : primOf b = y := by rw [primOf, hbk]; rfl
        rw [← this, ← hby]
        exact hgt
      rw [this]
      rfl

theorem keysEqb_prim {dir : Int} {a b : Out} (h : keysEqb dir a b = true) :
    primOf a = primOf b := by
  rw [keysEqb_iff] at h
  rw [primOf, primOf, h]

theorem mem_takeWhile {α : Type _} {p : α → Bool} :
    ∀ {l : List α} {a : α}, a ∈ l.takeWhile p → a ∈ l ∧ p a = true := by
  intro l
  induction l with
  | nil => intro a h; simp [List.takeWhile] at h
  | cons x xs ih =>
    intro a h
    rw [List.takeWhile_cons] at h
    by_cases hx : p x
    · rw [if_pos hx] at h
      rcases List.mem_cons.mp h with h2 | h2
      · subst h2; exact ⟨List.mem_cons_self a xs, hx⟩
      · obtain ⟨hm, hp⟩ := ih h2
        exact ⟨List.mem_cons_of_mem x hm, hp⟩
    · rw [if_neg hx] at h
      simp at h

theorem dropWhile_append_of_all {α : Type _} {p : α → Bool} :
    ∀ {l1 : List α} (l2 : List α), (∀ a ∈ l1, p a = true) →
    (l1 ++ l2).dropWhile p = l2.dropWhile p := by
  intro l1
  induction l1 with
  | nil => intro l2 _; rfl
  | cons x xs ih =>
    intro l2 hall
    rw [List.cons_append, List.dropWhile_cons,
      if_pos (hall x (List.mem_cons_self x xs))]
    exact ih l2 (fun a ha => hall a (List.mem_cons_of_mem x ha))

/-! ### The spill drain -/

theorem readSpillsLoop_zero {ρ τ : Type _} (cfg : Config ρ τ) (eof : Bool)
    (msk : Option SVal) (stream acc : List Out) :
    readSpillsLoop cfg eof msk 0 stream acc = (acc.reverse, stream) := rfl

theorem readSpillsLoop_cap {ρ τ : Type _} (cfg : Config ρ τ) (eof : Bool)
    (msk : Option SVal) (fuel : Nat) (stream acc : List Out)
    (hcap : opBatchLen ≤ acc.length) :
    readSpillsLoop cfg eof msk (fuel + 1) stream acc = (acc.reverse, stream) := by
  simp only [readSpillsLoop, if_pos hcap]

theorem readSpillsLoop_nil {ρ τ : Type _} (cfg : Config ρ τ) (eof : Bool)
    (msk : Option SVal) (fuel : Nat) (acc : List Out)
    (hcap : ¬opBatchLen ≤ acc.length) :
    readSpillsLoop cfg eof msk (fuel + 1) [] acc = (acc.reverse, []) := by
  simp only [readSpillsLoop, if_neg hcap]
  cases eof with
  | true => simp [nextResultFromSpills]
  | false =>
    by_cases hd : cfg.inputDir == 0 <;> simp [hd, nextResultFromSpills]

theorem readSpillsLoop_stop {ρ τ : Type _} (cfg : Config ρ τ)
    (msk : Option SVal) (fuel : Nat) (h : Out) (t acc : List Out)
    (hcap : ¬opBatchLen ≤ acc.length)
    (hdir : cfg.inputDir ≠ 0)
    (herrh : cfg.isError (cfg.keyExpr0Out h) = false)
    (hge : ¬dirCmp cfg.inputDir (cfg.keyExpr0Out h) (msk.getD default) = .lt) :
    readSpillsLoop cfg false msk (fuel + 1) (h :: t) acc = (acc.reverse, h :: t) := by
  simp only [readSpillsLoop, if_neg hcap]
  have hd : (cfg.inputDir == 0) = false := by simp [hdir]
  simp [hd, herrh, hge]

theorem readSpillsLoop_go {ρ τ : Type _} (cfg : Config ρ τ)
    (msk : Option SVal) (fuel : Nat) (h : Out) (t acc : List Out)
    (hcap : ¬opBatchLen ≤ acc.length)
    (hdir : cfg.inputDir ≠ 0)
    (herrh : cfg.isError (cfg.keyExpr0Out h) = false)
    (hlt : dirCmp cfg.inputDir (cfg.keyExpr0Out h) (msk.getD default) = .lt) :
    readSpillsLoop cfg false msk (fuel + 1) (h :: t) acc =
      readSpillsLoop cfg false msk fuel (t.dropWhile (keysEqb cfg.inputDir h))
        (spillGroupOut cfg h (h :: t.takeWhile (keysEqb cfg.inputDir h)) :: acc) := by
  simp only [readSpillsLoop, if_neg hcap]
  have hd : (cfg.inputDir == 0) = false := by simp [hdir]
  simp [hd, herrh, hlt, nextResultFromSpills]

theorem readSpillsLoop_eof_go {ρ τ : Type _} (cfg : Config ρ τ)
    (msk : Option SVal) (fuel : Nat) (h : Out) (t acc : List Out)
    (hcap : ¬opBatchLen ≤ acc.length) :
    readSpillsLoop cfg true msk (fuel + 1) (h :: t) acc =
      readSpillsLoop cfg true msk fuel (t.dropWhile (keysEqb cfg.inputDir h))
        (spillGroupOut cfg h (h :: t.takeWhile (keysEqb cfg.inputDir h)) :: acc) := by
  simp only [readSpillsLoop, if_neg hcap]
  simp [nextResultFromSpills]

/-- Characterization of one `readSpills` batch loop before EOF in sorted
mode: it pops whole equal-key groups off the sorted stream while the head's
primary key is below `max_spill_key`, stopping at the first record comparing
greater or equal (or at the batch cap / end of stream).  Every emitted
record's primary key is below the watermark. -/
theorem readSpillsLoop_spec {ρ τ : Type _} (cfg : Config ρ τ)
    (hdir : cfg.inputDir ≠ 0)
    (hko : ∀ o : Out, cfg.keyExpr0Out o = primOf o) (mk : SVal) :
    ∀ (fuel : Nat) (stream acc : List Out),
    stream.length < fuel →
    stream.Pairwise (fun a b => keysLe cfg.inputDir a b = true) →
    (∀ o ∈ stream, ¬cfg.isError (primOf o)) →
    ∃ outs consumed rest,
      readSpillsLoop cfg false (some mk) fuel stream acc =
        (acc.reverse ++ outs, rest) ∧
      stream = consumed ++ rest ∧
      (∀ o ∈ outs, dirCmp cfg.inputDir (primOf o) mk = .lt) ∧
      (∀ o ∈ consumed, dirCmp cfg.inputDir (primOf o) mk = .lt) ∧
      outs.length ≤ consumed.length ∧
      (outs = [] → consumed = []) ∧
      (rest = stream.dropWhile
          (fun o => decide (dirCmp cfg.inputDir (primOf o) mk = .lt)) ∨
        opBatchLen ≤ acc.length + outs.length) := by
  intro fuel
  induction fuel with
  | zero =>
    intro stream acc hlen
    omega
  | succ fuel ih =>
    intro stream acc hlen hsort herr
    by_cases hcap : opBatchLen ≤ acc.length
    · rw [readSpillsLoop_cap cfg false (some mk) fuel stream acc hcap]
      refine ⟨[], [], stream, by simp, by simp, by simp, by simp, by simp,
        fun _ => rfl, Or.inr (by simpa using hcap)⟩
    · cases stream with
      | nil =>
        rw [readSpillsLoop_nil cfg false (some mk) fuel acc hcap]
        refine ⟨[], [], [], by simp, by simp, by simp, by simp, by simp,
          fun _ => rfl, Or.inl (by simp)⟩
      | cons h t =>
        have herrh : cfg.isError (cfg.keyExpr0Out h) = false := by
          rw [hko h]
          have := herr h (List.mem_cons_self h t)
          simpa using this
        by_cases hlt : dirCmp cfg.inputDir (primOf h) mk = .lt
        · rw [readSpillsLoop_go cfg (some mk) fuel h t acc hcap hdir herrh
            (by rw [hko h]; simpa using hlt)]
          have hgrpeq : ∀ o ∈ t.takeWhile (keysEqb cfg.inputDir h), primOf o = primOf h := by
            intro o ho
            obtain ⟨_, hp⟩ := mem_takeWhile ho
            exact (keysEqb_prim hp).symm
          have hrest2sub : (t.dropWhile (keysEqb cfg.inputDir h)).Sublist (h :: t) :=
            (List.dropWhile_sublist _).trans (List.sublist_cons_self h t)
          obtain ⟨outs2, consumed2, rest2, heq2, hsplit2, houts2, hcons2, hlen2, hnil2, hdisj2⟩ :=
            ih (t.dropWhile (keysEqb cfg.inputDir h))
              (spillGroupOut cfg h (h :: t.takeWhile (keysEqb cfg.inputDir h)) :: acc)
              (by
                have := (@List.dropWhile_sublist _ t (keysEqb cfg.inputDir h)).length_le
                simp only [List.length_cons] at hlen
                omega)
              (hsort.sublist hrest2sub)
              (fun o ho => herr o (hrest2sub.mem ho))
          refine ⟨spillGroupOut cfg h (h :: t.takeWhile (keysEqb cfg.inputDir h)) :: outs2,
            (h :: t.takeWhile (keysEqb cfg.inputDir h)) ++ consumed2, rest2, ?_, ?_, ?_, ?_, ?_, ?_, ?_⟩
          · rw [heq2]
            simp
          · conv_rhs => rw [List.append_assoc]
            rw [← hsplit2, List.cons_append, List.takeWhile_append_dropWhile]
          · intro o ho
            rcases List.mem_cons.mp ho with h2 | h2
            · rw [h2]
              exact hlt
            · exact houts2 o h2
          · intro o ho
            rcases List.mem_append.mp ho with h2 | h2
            · rcases List.mem_cons.mp h2 with h3 | h3
              · rw [h3]; exact hlt
              · rw [hgrpeq o h3]; exact hlt
            · exact hcons2 o h2
          · simp only [List.length_cons, List.length_append]
            omega
          · intro hfalse
            exact absurd hfalse (by simp)
          · rcases hdisj2 with hl | hr
            · left
              rw [hl]
              rw [show h :: t = (h :: t.takeWhile (keysEqb cfg.inputDir h)) ++
                t.dropWhile (keysEqb cfg.inputDir h) by
                  rw [List.cons_append, List.takeWhile_append_dropWhile]]
              rw [dropWhile_append_of_all _ ?hall]
              case hall =>
                intro o ho
                rcases List.mem_cons.mp ho with h2 | h2
                · rw [h2]; simpa using hlt
                · show decide (dirCmp cfg.inputDir (primOf o) mk = .lt) = true
                  rw [hgrpeq o h2]
                  simpa using hlt
            · right
              simp only [List.length_cons] at hr ⊢
              omega
        · rw [readSpillsLoop_stop cfg (some mk) fuel h t acc hcap hdir herrh
            (by rw [hko h]; simpa using hlt)]
          refine ⟨[], [], h :: t, by simp, by simp, by simp, by simp, by simp,
            fun _ => rfl, Or.inl ?_⟩
          rw [List.dropWhile_cons, if_neg (by simpa using hlt)]

/-- The driver's early-emit loop over the spiller: repeated `nextResult`
calls drain exactly the maximal prefix of the merged stream whose primary
keys compare below `max_spill_key`; the suffix from the first record
comparing greater or equal stays in the spiller, unemitted. -/
theorem drainLoop_early_spec {ρ τ : Type _} (cfg : Config ρ τ)
    (hdir : cfg.inputDir ≠ 0) (hko : ∀ o : Out, cfg.keyExpr0Out o = primOf o)
    (mk : SVal) :
    ∀ (fuel : Nat) (st : AggState τ) (acc : List (List Out)) (stream : List Out),
    st.spiller = some stream →
    st.maxSpillKey = some mk →
    stream.length < fuel →
    stream.Pairwise (fun a b => keysLe cfg.inputDir a b = true) →
    (∀ o ∈ stream, ¬cfg.isError (primOf o)) →
    ∃ batches,
      drainLoop cfg false fuel st acc =
        (acc.reverse ++ batches,
         { st with spiller := some (stream.dropWhile
             (fun o => decide (dirCmp cfg.inputDir (primOf o) mk = .lt))) }) ∧
      ∀ o ∈ batches.flatten, dirCmp cfg.inputDir (primOf o) mk = .lt := by
  intro fuel
  induction fuel with
  | zero =>
    intro st acc stream _ _ hlen
    omega
  | succ fuel ih =>
    intro st acc stream hsp hmsk hlen hsort herr
    obtain ⟨outs, consumed, rest, heq, hsplit, houts, hcons, hcnt, hnil, hdisj⟩ :=
      readSpillsLoop_spec cfg hdir hko mk (stream.length + 1) stream []
        (by omega) hsort herr
    have hrs : readSpills cfg false st =
        (if outs.isEmpty then (none, st)
         else (some outs, { st with spiller := some rest })) := by
      unfold readSpills
      have hd : (cfg.inputDir == 0) = false := by simp [hdir]
      rw [hsp, hmsk]
      simp only [hd, Bool.not_false, Bool.true_and, Bool.false_eq_true, if_false,
        Option.getD_some]
      rw [heq]
      simp
    have hnr : nextResult cfg false st = readSpills cfg false st := by
      unfold nextResult
      rw [hsp]
      rfl
    have hstep : drainLoop cfg false (fuel + 1) st acc =
        (match nextResult cfg false st with
         | (none, st1) => (acc.reverse, st1)
         | (some recs, st1) =>
           drainLoop cfg false fuel st1 (sortBy (key0Le cfg.inputDir) recs :: acc)) := rfl
    cases houtnil : outs with
    | nil =>
      have hconsnil := hnil houtnil
      rw [hconsnil, List.nil_append] at hsplit
      have hrest : stream.dropWhile
          (fun o => decide (dirCmp cfg.inputDir (primOf o) mk = .lt)) = stream := by
        rcases hdisj with hl | hr
        · rw [← hl, ← hsplit]
        · rw [houtnil] at hr
          simp [opBatchLen] at hr
      have hsteq : ({ st with spiller := some stream } : AggState τ) = st := by
        cases st with
        | mk a b c d e =>
          simp only at hsp
          rw [← hsp]
      refine ⟨[], ?_, by simp⟩
      rw [hstep, hnr, hrs, houtnil]
      simp only [List.isEmpty_nil, if_true]
      rw [hrest, hsteq]
      simp
    | cons o1 os1 =>
      have houtsne : outs.isEmpty = false := by rw [houtnil]; rfl
      have hconsne : consumed ≠ [] := by
        intro hc
        rw [hc] at hcnt
        rw [houtnil] at hcnt
        simp at hcnt
      have hrestlen : rest.length < stream.length := by
        rw [hsplit, List.length_append]
        cases hc : consumed with
        | nil => exact absurd hc hconsne
        | cons c cs => simp [hc]
      have hrestsub : rest.Sublist stream := by
        rw [hsplit]
        exact List.sublist_append_right consumed rest
      obtain ⟨batches2, heq2, hb2⟩ := ih { st with spiller := some rest }
        ((sortBy (key0Le cfg.inputDir) outs) :: acc) rest rfl (by simpa using hmsk)
        (by omega) (hsort.sublist hrestsub) (fun o ho => herr o (hrestsub.mem ho))
      have hdw : stream.dropWhile
          (fun o => decide (dirCmp cfg.inputDir (primOf o) mk = .lt)) =
          rest.dropWhile (fun o => decide (dirCmp cfg.inputDir (primOf o) mk = .lt)) := by
        rw [hsplit]
        exact dropWhile_append_of_all rest (fun a ha => by simpa using hcons a ha)
      have hstep2 : drainLoop cfg false (fuel + 1) st acc =
          drainLoop cfg false fuel { st with spiller := some rest }
            (sortBy (key0Le cfg.inputDir) outs :: acc) := by
        rw [hstep, hnr, hrs, if_neg (by rw [houtsne]; simp)]
      refine ⟨sortBy (key0Le cfg.inputDir) outs :: batches2, ?_, ?_⟩
      · rw [hstep2, heq2, hdw]
        simp
      · intro o ho
        rw [List.flatten_cons] at ho
        rcases List.mem_append.mp ho with h2 | h2
        · exact houts o ((sortBy_perm (key0Le cfg.inputDir) outs).mem_iff.mp h2)
        · exact hb2 o h2

/-- A non-EOF sorted-mode spill folds every primary key of the spilled run
into the watermark: a watermark equal to the running maximum of the keys
spilled so far becomes the running maximum including the new run.  (The
source only bumps with the last record of the sorted run; that record's
primary key dominates the whole run.) -/
theorem spillTable_watermark {ρ τ : Type _} (cfg : Config ρ τ)
    (hdir : cfg.inputDir ≠ 0) (hko : ∀ o : Out, cfg.keyExpr0Out o = primOf o)
    (st : AggState τ) (prev : List SVal) (hne : st.table ≠ [])
    (hkeys : ∀ o ∈ st.table.map (fun e => rowOut cfg st.keyTypes true e.1 e.2),
      o.keys ≠ [])
    (herr : ¬cfg.isError (primOf ((sortBy (keysLe cfg.inputDir)
      (st.table.map (fun e => rowOut cfg st.keyTypes true e.1 e.2))).getLastD
        default)))
    (hmsk : st.maxSpillKey = maxKeyOf cfg.inputDir prev) :
    (spillTable cfg false st).maxSpillKey =
      maxKeyOf cfg.inputDir (prev ++
        (st.table.map (fun e => rowOut cfg st.keyTypes true e.1 e.2)).map primOf) := by
  have hbne : st.table.map (fun e => rowOut cfg st.keyTypes true e.1 e.2) ≠ [] := by
    intro h
    cases htbl : st.table with
    | nil => exact hne htbl
    | cons e es => rw [htbl] at h; simp at h
  have hperm := sortBy_perm (keysLe cfg.inputDir)
    (st.table.map (fun e => rowOut cfg st.keyTypes true e.1 e.2))
  have hsne : sortBy (keysLe cfg.inputDir)
      (st.table.map (fun e => rowOut cfg st.keyTypes true e.1 e.2)) ≠ [] := by
    intro h
    rw [h] at hperm
    have hlen := hperm.length_eq
    simp at hlen
    exact hne (List.length_eq_zero.mp hlen.symm)
  have hpw := sortBy_pairwise (keysLe_total cfg.inputDir) (keysLe_trans cfg.inputDir)
    (st.table.map (fun e => rowOut cfg st.keyTypes true e.1 e.2))
  have hmmem := last_mem (sortBy (keysLe cfg.inputDir)
    (st.table.map (fun e => rowOut cfg st.keyTypes true e.1 e.2))) default hsne
  have hmb : (sortBy (keysLe cfg.inputDir)
      (st.table.map (fun e => rowOut cfg st.keyTypes true e.1 e.2))).getLastD default ∈
      st.table.map (fun e => rowOut cfg st.keyTypes true e.1 e.2) :=
    hperm.mem_iff.mp hmmem
  have hle := pairwise_le_getLastD (keysLe_refl cfg.inputDir)
    (sortBy (keysLe cfg.inputDir)
      (st.table.map (fun e => rowOut cfg st.keyTypes true e.1 e.2))) hpw default
  have hdom : ∀ p ∈ (st.table.map (fun e => rowOut cfg st.keyTypes true e.1 e.2)).map primOf,
      dirCmp cfg.inputDir p (primOf ((sortBy (keysLe cfg.inputDir)
        (st.table.map (fun e => rowOut cfg st.keyTypes true e.1 e.2))).getLastD default)) ≠ .gt := by
    intro p hp
    obtain ⟨u, hu, hup⟩ := List.mem_map.mp hp
    rw [← hup]
    exact keysLe_prim (hkeys u hu) (hkeys _ hmb) (hle u (hperm.mem_iff.mpr hu))
  have hvmem : primOf ((sortBy (keysLe cfg.inputDir)
      (st.table.map (fun e => rowOut cfg st.keyTypes true e.1 e.2))).getLastD default) ∈
      (st.table.map (fun e => rowOut cfg st.keyTypes true e.1 e.2)).map primOf :=
    List.mem_map_of_mem primOf hmb
  have hfold := foldl_updateMaxSpillKey_max
    ((st.table.map (fun e => rowOut cfg st.keyTypes true e.1 e.2)).map primOf)
    st.maxSpillKey hvmem hdom
  have hspill : (spillTable cfg false st).maxSpillKey =
      updateMaxSpillKey cfg.inputDir st.maxSpillKey
        (primOf ((sortBy (keysLe cfg.inputDir)
          (st.table.map (fun e => rowOut cfg st.keyTypes true e.1 e.2))).getLastD default)) := by
    unfold spillTable
    rw [readTable_flush_of_ne cfg true st hne]
    have hd : (cfg.inputDir == 0) = false := by simp [hdir]
    simp only [hd, Bool.not_false, Bool.not_true, Bool.true_and, Bool.and_true, if_true, hko]
    rw [if_neg herr]
  rw [hspill, ← hfold, hmsk]
  simp [maxKeyOf, List.foldl_append]

/-- C5: (a) before EOF in sorted mode, the repeated spill-drain loop emits
exactly the merged records whose primary key compares below `maxSpillKey`
under the configured direction, stopping at — and leaving in the spiller,
unemitted — the suffix that starts at the first merged record comparing
greater or equal; (b) a non-EOF spill of a non-empty table updates
`maxSpillKey` to the running maximum of every primary key spilled so far
(the fold of the new run's keys over the previous watermark). -/
theorem C5_spill_drain_stop {ρ τ : Type _} (cfg : Config ρ τ)
    (hdir : cfg.inputDir ≠ 0) (hko : ∀ o : Out, cfg.keyExpr0Out o = primOf o) :
    (∀ (mk : SVal) (fuel : Nat) (st : AggState τ) (stream : List Out),
      st.spiller = some stream →
      st.maxSpillKey = some mk →
      stream.length < fuel →
      stream.Pairwise (fun a b => keysLe cfg.inputDir a b = true) →
      (∀ o ∈ stream, ¬cfg.isError (primOf o)) →
      ∃ batches,
        drainLoop cfg false fuel st [] =
          (batches,
           { st with spiller := some (stream.dropWhile
               (fun o => decide (dirCmp cfg.inputDir (primOf o) mk = .lt))) }) ∧
        ∀ o ∈ batches.flatten, dirCmp cfg.inputDir (primOf o) mk = .lt)
    ∧
    (∀ (st : AggState τ) (prev : List SVal), st.table ≠ [] →
      (∀ o ∈ st.table.map (fun e => rowOut cfg st.keyTypes true e.1 e.2), o.keys ≠ []) →
      ¬cfg.isError (primOf ((sortBy (keysLe cfg.inputDir)
        (st.table.map (fun e => rowOut cfg st.keyTypes true e.1 e.2))).getLastD default)) →
      st.maxSpillKey = maxKeyOf cfg.inputDir prev →
      (spillTable cfg false st).maxSpillKey =
        maxKeyOf cfg.inputDir (prev ++
          (st.table.map (fun e => rowOut cfg st.keyTypes true e.1 e.2)).map primOf)) := by
  constructor
  · intro mk fuel st stream hsp hmsk hlen hsort herr
    obtain ⟨batches, heq, hb⟩ :=
      drainLoop_early_spec cfg hdir hko mk fuel st [] stream hsp hmsk hlen hsort herr
    exact ⟨batches, by simpa using heq, hb⟩
  · intro st prev hne hkeys herr hmsk
    exact spillTable_watermark cfg hdir hko st prev hne hkeys herr hmsk

/-- Spiller-stream records for the C5 witness: keys of type id 1 with payload
bytes `[1]` and `[3]`, one count partial each. -/
def c5o1 : Out := ⟨[⟨1, some [1]⟩], [⟨8, some [1]⟩]⟩

def c5o2 : Out := ⟨[⟨1, some [3]⟩], [⟨8, some [1]⟩]⟩

def c5mk : SVal := ⟨1, some [3]⟩

/-- A state mid-run: empty table, a two-record merged spill stream, watermark
at the second record's key. -/
def c5st : AggState WRec := ⟨[[1]], [], none, some c5mk, some [c5o1, c5o2]⟩

/-- A one-row table about to take its first spill. -/
def c5tbl : AggState WRec := Consume (wCfg 1 0 false false) initState ((2, 0) : WRec)

theorem C5_spill_drain_stop_witness :
    (∃ batches,
      drainLoop (wCfg 1 0 false false) false 3 c5st [] =
        (batches,
         { c5st with spiller := some ([c5o1, c5o2].dropWhile
             (fun o => decide (dirCmp (wCfg 1 0 false false).inputDir (primOf o) c5mk = .lt))) }) ∧
      ∀ o ∈ batches.flatten, dirCmp (wCfg 1 0 false false).inputDir (primOf o) c5mk = .lt) ∧
    (spillTable (wCfg 1 0 false false) false c5tbl).maxSpillKey =
      maxKeyOf (wCfg 1 0 false false).inputDir ([] ++
        (c5tbl.table.map (fun e =>
          rowOut (wCfg 1 0 false false) c5tbl.keyTypes true e.1 e.2)).map primOf) := by
  have h := C5_spill_drain_stop (wCfg 1 0 false false) (by decide) (fun o => rfl)
  exact ⟨h.1 c5mk 3 c5st [c5o1, c5o2] rfl rfl (by decide) (by decide) (by decide),
         h.2 c5tbl [] (by decide) (by decide) (by decide) (by decide)⟩

/-! ### The channel side of the driver (`Op.run` / `Op.sendResult` / `Op.reset`)

The Go side couples the producer goroutine to the consumer through
`resultCh`, `doneCh` and the run context.  The model drives those couplings
from scripts: each `sendResult` select consumes the next downstream action
(`recv`: the consumer takes the result; `done`: the consumer pulled with
`done=true`; `cancel`: the run context fired), and upstream `Pull(false)`
results come from a list (an error, EOS, or a batch of values).  The
observable events are the results sent on `resultCh` (tagged with whether
the batch was `nil` — the EOS terminal marker — and whether an error was
attached), the closing of `resultCh`, and every `spiller.Cleanup` call.
`run` registers its cleanup defer first and the `close(resultCh)` defer
second, so on return the channel closes before the deferred cleanup runs. -/

inductive DAct where
  | recv
  | done
  | cancel
deriving DecidableEq, Repr

inductive REv where
  | yield : Bool → Bool → REv
  | closeCh : REv
  | cleanup : REv
deriving DecidableEq, Repr

/-- Result of one `sendResult` call: the source's `(done, ok)` pair plus the
aggregator state, the remaining downstream script and the extended trace. -/
structure SRes (τ : Type _) where
  done : Bool
  ok : Bool
  st : AggState τ
  ds : List DAct
  tr : List REv

/-- `Op.reset`: release the spill files (`spiller.Cleanup`) when a spiller
exists, drop the spiller and clear the table; the watermarks persist. -/
def opReset {τ : Type _} (st : AggState τ) (tr : List REv) :
    AggState τ × List REv :=
  ({ st with table := [], spiller := none },
   if st.spiller.isSome then tr ++ [REv.cleanup] else tr)

/-- `Op.sendResult(b, err)` with `isNil = (b == nil)`: deliver on `resultCh`
(`recv`), or handle `doneCh` (reset — releasing any spill files — then
answer the pending error, if any, as the final reply), or give up on a
fired run context (`cancel`).  The parent `Pull(done=true)` of the done
path is modelled as returning no batch and no error. -/
def sendResultM {τ : Type _} (st : AggState τ) (ds : List DAct)
    (isNil isErr : Bool) (tr : List REv) : SRes τ :=
  match ds with
  | [] => ⟨false, false, st, [], tr⟩
  | DAct.recv :: rest => ⟨false, true, st, rest, tr ++ [REv.yield isNil isErr]⟩
  | DAct.cancel :: rest => ⟨false, false, st, rest, tr⟩
  | DAct.done :: rest =>
    let r := opReset st tr
    if isErr then
      match rest with
      | DAct.recv :: rest2 => ⟨true, false, r.1, rest2, r.2 ++ [REv.yield true true]⟩
      | _ :: rest2 => ⟨false, false, r.1, rest2, r.2⟩
      | [] => ⟨false, false, r.1, [], r.2⟩
    else ⟨true, true, r.1, rest, r.2⟩

/-- Result of the `sendResults` closure or of the sorted early-emit loop:
for `sendResults` the Boolean is its return value, for the early loop
whether `run` must return. -/
structure LRes (τ : Type _) where
  flag : Bool
  st : AggState τ
  ds : List DAct
  tr : List REv

/-- The `sendResults` closure in `run`: repeatedly send `nextResult(true)`
batches until a `nil` result, a `done` answer, or a failed send. -/
def sendResultsM {ρ τ : Type _} (cfg : Config ρ τ) :
    Nat → AggState τ → List DAct → List REv → Option (LRes τ)
  | 0, _, _, _ => none
  | fuel + 1, st, ds, tr =>
    let nr := nextResult cfg true st
    let r := sendResultM nr.2 ds nr.1.isNone false tr
    if !r.ok then some ⟨false, r.st, r.ds, r.tr⟩
    else if nr.1.isNone || r.done then some ⟨true, r.st, r.ds, r.tr⟩
    else sendResultsM cfg fuel r.st r.ds r.tr

/-- The sorted-mode early-emit loop after one input batch: stream
`nextResult(false)` batches (each stable-sorted by the first-key comparator
before sending) until a `nil` result, a `done` answer, or a failed send;
`flag` reports whether `run` must return. -/
def earlyLoopM {ρ τ : Type _} (cfg : Config ρ τ) :
    Nat → AggState τ → List DAct → List REv → Option (LRes τ)
  | 0, _, _, _ => none
  | fuel + 1, st, ds, tr =>
    match nextResult cfg false st with
    | (none, st1) => some ⟨false, st1, ds, tr⟩
    | (some _, st1) =>
      let r := sendResultM st1 ds false false tr
      if !r.ok then some ⟨true, r.st, r.ds, r.tr⟩
      else if r.done then some ⟨false, r.st, r.ds, r.tr⟩
      else earlyLoopM cfg fuel r.st r.ds r.tr

/-- What `run`'s deferred functions append on return: `close(resultCh)`
first, then the outer deferred `spiller.Cleanup` when a spiller is live. -/
def exitTrace {τ : Type _} (st : AggState τ) (tr : List REv) : List REv :=
  tr ++ [REv.closeCh] ++ (if st.spiller.isSome then [REv.cleanup] else [])

/-- `Op.run`: the producer loop, driven by the upstream pull results and the
downstream script; `none` when the scripts leave the goroutine blocked (or
the fuel runs out), otherwise the event trace and the aggregator state at
goroutine exit. -/
def runM {ρ τ : Type _} (cfg : Config ρ τ) :
    Nat → List (Except Unit (Option (List ρ))) → List DAct → AggState τ →
    List REv → Option (List REv × AggState τ)
  | 0, _, _, _, _ => none
  | fuel + 1, ups, ds, st, tr =>
    match ups with
    | [] => none
    | Except.error _ :: ups2 =>
      let r := sendResultM st ds true true tr
      if !r.ok then some (exitTrace r.st r.tr, r.st)
      else runM cfg fuel ups2 r.ds r.st r.tr
    | Except.ok none :: ups2 =>
      match sendResultsM cfg (fuel + 1) st ds tr with
      | none => none
      | some r =>
        if !r.flag then some (exitTrace r.st r.tr, r.st)
        else runM cfg fuel ups2 r.ds r.st r.tr
    | Except.ok (some batch) :: ups2 =>
      let st1 := consumeBatch cfg st batch
      if cfg.inputDir == 0 then runM cfg fuel ups2 ds st1 tr
      else
        match earlyLoopM cfg (fuel + 1) st1 ds tr with
        | none => none
        | some r =>
          if r.flag then some (exitTrace r.st r.tr, r.st)
          else runM cfg fuel ups2 r.ds r.st r.tr

/-- C9 (amended): spill-file cleanup happens on every exit path of the
producer loop, but not before the terminal result: (a) every terminating
`run` trace ends with `close(resultCh)` followed — when a spiller is live at
exit — by the deferred `spiller.Cleanup`, the defers running in LIFO order
after the loop returns (so the cleanup follows the channel close, which
itself follows any result the loop yielded); (b) the downstream-cancellation
answer (`doneCh`) releases the spill files via `reset` immediately — the
cleanup event lands before that path's final reply, and no spiller
remains. -/
theorem C9_cleanup_on_exit {ρ τ : Type _} (cfg : Config ρ τ) :
    (∀ (fuel : Nat) (ups : List (Except Unit (Option (List ρ)))) (ds : List DAct)
       (st : AggState τ) (tr tr2 : List REv) (stf : AggState τ),
      runM cfg fuel ups ds st tr = some (tr2, stf) →
      ∃ tr0, tr2 = tr0 ++ [REv.closeCh] ++
        (if stf.spiller.isSome then [REv.cleanup] else [])) ∧
    (∀ (st : AggState τ) (rest : List DAct) (isNil isErr : Bool) (tr : List REv),
      (sendResultM st (DAct.done :: rest) isNil isErr tr).st.spiller = none ∧
      ∃ trEx, (sendResultM st (DAct.done :: rest) isNil isErr tr).tr =
        (if st.spiller.isSome then tr ++ [REv.cleanup] else tr) ++ trEx) := by
  constructor
  · intro fuel
    induction fuel with
    | zero =>
      intro ups ds st tr tr2 stf h
      simp [runM] at h
    | succ fuel ih =>
      intro ups ds st tr tr2 stf h
      cases ups with
      | nil => simp [runM] at h
      | cons u ups2 =>
        cases u with
        | error e =>
          simp only [runM] at h
          split at h
          · rw [Option.some.injEq, Prod.mk.injEq] at h
            obtain ⟨h1, h2⟩ := h
            subst h2
            exact ⟨(sendResultM st ds true true tr).tr, by rw [← h1]; rfl⟩
          · exact ih ups2 _ _ _ tr2 stf h
        | ok ob =>
          cases ob with
          | none =>
            simp only [runM] at h
            split at h
            · simp at h
            · split at h
              · rw [Option.some.injEq, Prod.mk.injEq] at h
                obtain ⟨h1, h2⟩ := h
                subst h2
                rename_i r _ _
                exact ⟨r.tr, by rw [← h1]; rfl⟩
              · exact ih ups2 _ _ _ tr2 stf h
          | some batch =>
            simp only [runM] at h
            split at h
            · exact ih ups2 _ _ _ tr2 stf h
            · split at h
              · simp at h
              · split at h
                · rw [Option.some.injEq, Prod.mk.injEq] at h
                  obtain ⟨h1, h2⟩ := h
                  subst h2
                  rename_i r _ _
                  exact ⟨r.tr, by rw [← h1]; rfl⟩
                · exact ih ups2 _ _ _ tr2 stf h
  · intro st rest isNil isErr tr
    constructor
    · cases isErr with
      | false => rfl
      | true =>
        cases rest with
        | nil => rfl
        | cons a rest2 => cases a <;> rfl
    · cases isErr with
      | false => exact ⟨[], by simp [sendResultM, opReset]⟩
      | true =>
        cases rest with
        | nil => exact ⟨[], by simp [sendResultM, opReset]⟩
        | cons a rest2 =>
          cases a with
          | recv => exact ⟨[REv.yield true true], by simp [sendResultM, opReset]⟩
          | done => exact ⟨[], by simp [sendResultM, opReset]⟩
          | cancel => exact ⟨[], by simp [sendResultM, opReset]⟩

/-- Sorted-mode, limit-1 configuration that spills on the second distinct
key. -/
def c9cfg : Config WRec WRec := wCfg 1 1 false false

/-- Upstream script: two single-record batches with distinct keys (the
second insert triggers a spill), then EOS, then an upstream error whose
send meets a fired run context, ending the goroutine. -/
def c9ups : List (Except Unit (Option (List WRec))) :=
  [.ok (some [(1, 0)]), .ok (some [(3, 0)]), .ok none, .error ()]

/-- Downstream script: the consumer receives the drained result batch and
the `nil` EOS terminal result; then the run context fires. -/
def c9ds : List DAct := [DAct.recv, DAct.recv, DAct.cancel]

/-- Final aggregator state of the C9 run. -/
def c9stf : AggState WRec :=
  ((runM c9cfg 6 c9ups c9ds initState []).getD ([], initState)).2

/-- C9 counterexample to the claimed ordering: on the normal end-of-stream
path the operator yields its terminal result (the `nil` EOS marker, second
event) while the spill files are still live — the only `Cleanup` call is
the deferred one, which runs after `close(resultCh)`, itself after the
terminal yield; the spiller is still present in the exit state.  So cleanup
is not invoked "before the operator yields its terminal result". -/
theorem C9_cleanup_order_counterexample :
    runM c9cfg 6 c9ups c9ds initState [] =
      some ([REv.yield false false, REv.yield true false,
             REv.closeCh, REv.cleanup], c9stf) ∧
    c9stf.spiller.isSome = true ∧
    REv.cleanup ∉ [REv.yield false false, REv.yield true false] := by
  refine ⟨by decide, by decide, by decide⟩

theorem C9_cleanup_on_exit_witness :
    (∃ tr0, [REv.yield false false, REv.yield true false, REv.closeCh, REv.cleanup] =
      tr0 ++ [REv.closeCh] ++ (if c9stf.spiller.isSome then [REv.cleanup] else [])) ∧
    ((sendResultM c9stf [DAct.done] true false []).st.spiller = none ∧
     ∃ trEx, (sendResultM c9stf [DAct.done] true false []).tr =
       (if c9stf.spiller.isSome then [] ++ [REv.cleanup] else []) ++ trEx) := by
  refine ⟨?_, (C9_cleanup_on_exit c9cfg).2 c9stf [] true false []⟩
  exact (C9_cleanup_on_exit c9cfg).1 6 c9ups c9ds initState []
    [REv.yield false false, REv.yield true false, REv.closeCh, REv.cleanup]
    c9stf (by decide)

/-! ### Canonical (order-insensitive) semantics of an unsorted-mode run

In unsorted mode (`inputDir = 0`) the driver emits nothing until EOF, so a
run is: fold `Consume` over all input records, then drain.  The reference
semantics groups the non-skipped records by their evaluated key tuple and
interprets, per group, the summed aggregate contributions.  The claims
about spill equivalence and the partials round trip are proved by showing
every run refines this form, under the decomposability hypothesis
`decodePart (resultPart s) = s`. -/

/-- Pointwise sum of two aggregate-state vectors. -/
def addVec {τ : Type _} (a b : List (Multiset τ)) : List (Multiset τ) :=
  List.zipWith (· + ·) a b

def zeroVecN (τ : Type _) (n : Nat) : List (Multiset τ) := List.replicate n 0

theorem addVec_length {τ : Type _} (a b : List (Multiset τ)) :
    (addVec a b).length = min a.length b.length := by
  simp [addVec]

theorem addVec_assoc {τ : Type _} :
    ∀ (a b c : List (Multiset τ)), addVec (addVec a b) c = addVec a (addVec b c) := by
  intro a
  induction a with
  | nil => intro b c; rfl
  | cons x xs ih =>
    intro b c
    cases b with
    | nil => rfl
    | cons y ys =>
      cases c with
      | nil => rfl
      | cons z zs =>
        have := ih ys zs
        simp only [addVec] at this
        simp [addVec, add_assoc, this]

theorem addVec_comm {τ : Type _} :
    ∀ (a b : List (Multiset τ)), addVec a b = addVec b a := by
  intro a
  induction a with
  | nil => intro b; cases b <;> rfl
  | cons x xs ih =>
    intro b
    cases b with
    | nil => rfl
    | cons y ys =>
      have := ih ys
      simp only [addVec] at this
      simp [addVec, add_comm, this]

theorem addVec_zero_left {τ : Type _} :
    ∀ (v : List (Multiset τ)), addVec (zeroVecN τ v.length) v = v := by
  intro v
  induction v with
  | nil => rfl
  | cons x xs ih =>
    simp only [List.length_cons, zeroVecN, List.replicate] at ih ⊢
    simp only [addVec] at ih
    simp [addVec, ih]

/-- One record's contribution to every aggregate state (`apply`, or the
decoded partial of each aggregate's output-field reference in partials-in
mode). -/
def recContrib {ρ τ : Type _} (cfg : Config ρ τ) (r : ρ) : List (Multiset τ) :=
  if cfg.partialsIn then
    (cfg.aggs.zip cfg.aggRefs).map (fun fr => fr.1.decodePart (fr.2 r))
  else cfg.aggs.map (fun _ => {cfg.applyRec r})

theorem recContrib_length {ρ τ : Type _} (cfg : Config ρ τ) (r : ρ)
    (har : cfg.aggRefs.length = cfg.aggs.length) :
    (recContrib cfg r).length = cfg.aggs.length := by
  unfold recContrib
  split <;> simp [har]

theorem newValRow_eq_zeroVecN {ρ τ : Type _} (cfg : Config ρ τ) :
    newValRow cfg = zeroVecN τ cfg.aggs.length := by
  simp [newValRow, zeroVecN, List.map_const]

/-- `updateReducers` is the pointwise addition of the record's
contribution. -/
theorem updateReducers_eq_addVec {ρ τ : Type _} (cfg : Config ρ τ) (r : ρ)
    (reds : List (Multiset τ)) (hl : reds.length = cfg.aggs.length)
    (har : cfg.aggRefs.length = cfg.aggs.length) :
    updateReducers cfg r reds = addVec reds (recContrib cfg r) := by
  unfold updateReducers recContrib
  split
  · rw [addVec, List.zipWith_map_right]
  · rw [addVec]
    have : ∀ (l1 : List (Multiset τ)) (l2 : List (AggFn τ)), l1.length = l2.length →
        l1.map (fun red => red + {cfg.applyRec r}) =
        List.zipWith (· + ·) l1 (l2.map (fun _ => ({cfg.applyRec r} : Multiset τ))) := by
      intro l1
      induction l1 with
      | nil => intro l2 _; simp
      | cons x xs ih =>
        intro l2 hlen
        cases l2 with
        | nil => simp at hlen
        | cons y ys => simp [ih ys (by simpa using hlen)]
    exact this reds cfg.aggs hl

/-- The non-skipped records, in input order. -/
def liveRecs {ρ τ : Type _} (cfg : Config ρ τ) (recs : List ρ) : List ρ :=
  recs.filter (fun r => decide (¬skipped cfg r))

/-- The evaluated key tuples of the non-skipped records, in input order. -/
def keysSeen {ρ τ : Type _} (cfg : Config ρ τ) (recs : List ρ) : List (List SVal) :=
  (liveRecs cfg recs).map (keyVals cfg)

/-- First-occurrence deduplication. -/
def dedupF {α : Type _} [DecidableEq α] : List α → List α
  | [] => []
  | a :: as => a :: (dedupF as).filter (fun b => decide (b ≠ a))

theorem mem_dedupF {α : Type _} [DecidableEq α] :
    ∀ {l : List α} {a : α}, a ∈ dedupF l ↔ a ∈ l := by
  intro l
  induction l with
  | nil => intro a; simp [dedupF]
  | cons x xs ih =>
    intro a
    constructor
    · intro h
      rcases List.mem_cons.mp h with h2 | h2
      · subst h2; exact List.mem_cons_self a xs
      · exact List.mem_cons_of_mem x (ih.mp (List.mem_of_mem_filter h2))
    · intro h
      rcases List.mem_cons.mp h with h2 | h2
      · subst h2; exact List.mem_cons_self a _
      · by_cases hax : a = x
        · subst hax; exact List.mem_cons_self a _
        · exact List.mem_cons_of_mem x
            (List.mem_filter.mpr ⟨ih.mpr h2, by simpa using hax⟩)

theorem nodup_dedupF {α : Type _} [DecidableEq α] :
    ∀ (l : List α), (dedupF l).Nodup := by
  intro l
  induction l with
  | nil => simp [dedupF]
  | cons x xs ih =>
    refine List.nodup_cons.mpr ⟨?_, List.Nodup.filter _ ih⟩
    intro hx
    have := (List.mem_filter.mp hx).2
    simp at this

/-- The total aggregate-state vector accumulated for one key over an input
sequence: the contributions of the non-skipped records carrying that key
tuple. -/
def cfReds {ρ τ : Type _} (cfg : Config ρ τ) (recs : List ρ) (k : List SVal) :
    List (Multiset τ) :=
  ((liveRecs cfg recs).filter (fun r => decide (keyVals cfg r = k))).foldl
    (fun v r => addVec v (recContrib cfg r)) (zeroVecN τ cfg.aggs.length)

/-- The output aggregate fields for a state vector. -/
def keyOutAggs {τ : Type _} (aggs : List (AggFn τ)) (pOut : Bool)
    (v : List (Multiset τ)) : List SVal :=
  List.zipWith (fun fn red => if pOut then fn.resultPart red else fn.result red) aggs v

/-- Canonical outputs of an unsorted-mode run: one record per distinct key
tuple (in first-occurrence order), keyed by the evaluated key values, with
the interpreted group totals as aggregate fields. -/
def canonicalOuts {ρ τ : Type _} (cfg : Config ρ τ) (recs : List ρ) : List Out :=
  (dedupF (keysSeen cfg recs)).map (fun k =>
    ⟨k, keyOutAggs cfg.aggs cfg.partialsOut (cfReds cfg recs k)⟩)

/-! ### Logical keys and their encodings -/

/-- The type vector of an evaluated key tuple. -/
def tysOfK (k : List SVal) : List Nat := k.map SVal.tid

/-- The flat zcode payload of an evaluated key tuple. -/
def flatOfK (k : List SVal) : Bytes := encodeFlat (k.map SVal.bytes)

/-- The encoded table key of a key tuple against an intern table. -/
def encKey (kts : List (List Nat)) (k : List SVal) : Bytes :=
  flatOfK k ++ uvarint (idxOf (tysOfK k) kts)

theorem zipWith_mk_eta : ∀ (k : List SVal),
    List.zipWith SVal.mk (k.map SVal.tid) (k.map SVal.bytes) = k := by
  intro k
  induction k with
  | nil => rfl
  | cons v vs ih => simp [ih]

theorem encodeFlat_append (a b : List (Option Bytes)) :
    encodeFlat (a ++ b) = encodeFlat a ++ encodeFlat b := by
  induction a with
  | nil => rfl
  | cons v vs ih => simp [encodeFlat] at ih ⊢; simp [ih]

theorem uvarint_ne_nil (n : Nat) : uvarint n ≠ [] := by
  unfold uvarint
  cases hn : n with
  | zero => simp [uvarintAux]
  | succ m =>
    simp only [uvarintAux]
    split <;> simp

theorem zcodeAppendVal_frame (v : Option Bytes) :
    ∃ m pay, zcodeAppendVal v = uvarint m ++ pay := by
  cases v with
  | none => exact ⟨0, [], by simp [zcodeAppendVal, uvarint, uvarintAux]⟩
  | some bs => exact ⟨bs.length + 1, bs, rfl⟩

/-- A full table key cannot be the strict frame-extension of another: the
flat payload of extra key values followed by a varint cannot itself be one
varint. -/
theorem encKey_no_strict_ext {vals1 vals2 : List (Option Bytes)} {t1 t2 : Nat}
    (hlt : vals1.length < vals2.length)
    (h : encodeFlat vals1 ++ uvarint t1 = encodeFlat vals2 ++ uvarint t2) :
    False := by
  have hsplit : vals2 = vals2.take vals1.length ++ vals2.drop vals1.length := by
    simp
  rw [hsplit, encodeFlat_append, List.append_assoc] at h
  have hlen : vals1.length = (vals2.take vals1.length).length := by
    simp [List.length_take]
    omega
  have h2 := parseFlat_encodeFlat (vals2.take vals1.length)
    (encodeFlat (vals2.drop vals1.length) ++ uvarint t2)
  rw [← hlen] at h2
  have h1 := parseFlat_encodeFlat vals1 (uvarint t1)
  rw [h] at h1
  have h3 := h1.symm.trans h2
  rw [Prod.mk.injEq] at h3
  have hdrop : vals2.drop vals1.length ≠ [] := by
    intro hd
    have := List.length_drop vals1.length vals2
    rw [hd] at this
    simp at this
    omega
  cases hd : vals2.drop vals1.length with
  | nil => exact hdrop hd
  | cons v rest =>
    rw [hd] at h3
    have h4 := h3.2
    rw [show encodeFlat (v :: rest) = zcodeAppendVal v ++ encodeFlat rest from by
      simp [encodeFlat]] at h4
    obtain ⟨m, pay, hzv⟩ := zcodeAppendVal_frame v
    rw [hzv] at h4
    rw [List.append_assoc, List.append_assoc] at h4
    have h5 : uvarint t1 ++ [] = uvarint m ++ (pay ++ (encodeFlat rest ++ uvarint t2)) := by
      rw [List.append_nil]; exact h4
    obtain ⟨-, h6⟩ := uvarint_frame_inj h5
    have h7 : uvarint t2 = [] := by
      have := h6.symm
      rcases List.append_eq_nil.mp this with ⟨-, h8⟩
      rcases List.append_eq_nil.mp h8 with ⟨-, h9⟩
      exact h9
    exact uvarint_ne_nil t2 h7

/-- Encoded table keys are injective on key tuples whose type vectors are
interned. -/
theorem encKey_inj {kts : List (List Nat)} {k1 k2 : List SVal}
    (h1 : tysOfK k1 ∈ kts) (h2 : tysOfK k2 ∈ kts)
    (heq : encKey kts k1 = encKey kts k2) : k1 = k2 := by
  unfold encKey flatOfK at heq
  rcases Nat.lt_trichotomy (k1.map SVal.bytes).length (k2.map SVal.bytes).length with hlt | heqn | hgt
  · exact absurd heq (fun h => encKey_no_strict_ext hlt h)
  · obtain ⟨hv, hid⟩ := tableKey_inj heqn heq
    have hg1 := idxOf_get h1
    have hg2 := idxOf_get h2
    rw [hid] at hg1
    have htys : tysOfK k1 = tysOfK k2 := Option.some.inj (hg1.symm.trans hg2)
    calc k1 = List.zipWith SVal.mk (k1.map SVal.tid) (k1.map SVal.bytes) :=
          (zipWith_mk_eta k1).symm
      _ = List.zipWith SVal.mk (k2.map SVal.tid) (k2.map SVal.bytes) := by
          rw [show k1.map SVal.tid = tysOfK k1 from rfl, htys, hv]; rfl
      _ = k2 := zipWith_mk_eta k2
  · exact absurd heq.symm (fun h => encKey_no_strict_ext hgt h)

/-- Decoding the aggregate fields of an output record. -/
def decodeVec {τ : Type _} (aggs : List (AggFn τ)) (vals : List SVal) :
    List (Multiset τ) :=
  List.zipWith (fun fn v => fn.decodePart v) aggs vals

/-- Under decomposability, decoding a partial output row recovers exactly
the row's aggregate states. -/
theorem decodeVec_resultPart {τ : Type _} :
    ∀ (aggs : List (AggFn τ)) (reds : List (Multiset τ)),
    (∀ fn ∈ aggs, ∀ s, fn.decodePart (fn.resultPart s) = s) →
    reds.length = aggs.length →
    decodeVec aggs (List.zipWith (fun fn red => fn.resultPart red) aggs reds) = reds := by
  intro aggs
  induction aggs with
  | nil =>
    intro reds _ hlen
    rw [List.length_nil, List.length_eq_zero] at hlen
    subst hlen
    rfl
  | cons fn fns ih =>
    intro reds hdec hlen
    cases reds with
    | nil => simp at hlen
    | cons red rest =>
      simp only [List.zipWith_cons_cons, decodeVec, List.cons.injEq]
      constructor
      · exact hdec fn (List.mem_cons_self fn fns) red
      · exact ih rest (fun g hg s => hdec g (List.mem_cons_of_mem fn hg) s)
          (by simpa using hlen)

/-- A table row stored under the encoded key of `k` (with `k`'s type vector
interned) decodes back to the key tuple `k`. -/
theorem rowOut_keys_enc {ρ τ : Type _} (cfg : Config ρ τ) (kts : List (List Nat))
    (pOut : Bool) (k : List SVal) (row : Row τ) (hmem : tysOfK k ∈ kts)
    (hid : row.keyType = idxOf (tysOfK k) kts) :
    (rowOut cfg kts pOut (encKey kts k) row).keys = k := by
  unfold rowOut encKey flatOfK
  simp only [hid, getD_of_get? (idxOf_get hmem)]
  rw [show (tysOfK k).length = (k.map SVal.bytes).length from by simp [tysOfK]]
  rw [parseFlat_encodeFlat]
  exact zipWith_mk_eta k

theorem rowOut_aggs {ρ τ : Type _} (cfg : Config ρ τ) (kts : List (List Nat))
    (pOut : Bool) (kb : Bytes) (row : Row τ) :
    (rowOut cfg kts pOut kb row).aggs =
      List.zipWith (fun fn red => if pOut then fn.resultPart red else fn.result red)
        cfg.aggs row.reducers := rfl

/-- In unsorted mode the key scan never touches the max-table-key. -/
theorem scanKeys_fst_dir0 {ρ τ : Type _} (cfg : Config ρ τ)
    (hd : cfg.inputDir = 0) (r : ρ) :
    ∀ (es : List (ρ → SVal)) (i : Nat) (mtk : Option SVal),
    (scanKeys cfg r es i mtk).1 = mtk := by
  intro es
  induction es with
  | nil => intro i mtk; rfl
  | cons e es ih =>
    intro i mtk
    by_cases hq : cfg.isQuiet (e r)
    · simp [scanKeys, hq]
    · simp only [scanKeys, if_neg hq,
        if_neg (by simp [hd] : ¬(i = 0 ∧ cfg.inputDir ≠ 0))]
      have h1 := ih (i + 1) mtk
      cases hrec : scanKeys cfg r es (i + 1) mtk with
      | mk mtkF rest =>
        rw [hrec] at h1
        cases rest with
        | none => simpa using h1
        | some p => rcases p with ⟨tys, flat, prim⟩; simpa using h1

/-- In unsorted mode a skipped record leaves the state untouched. -/
theorem Consume_skipped_dir0 {ρ τ : Type _} (cfg : Config ρ τ)
    (hd : cfg.inputDir = 0) (st : AggState τ) (r : ρ) (h : skipped cfg r) :
    Consume cfg st r = st := by
  unfold Consume
  have h2 := scanKeys_none_of_skipped cfg r st.maxTableKey h
  have h1 := scanKeys_fst_dir0 cfg hd r cfg.keyExprs 0 st.maxTableKey
  cases hsk : scanKeys cfg r cfg.keyExprs 0 st.maxTableKey with
  | mk a b =>
    rw [hsk] at h1 h2
    simp only at h1 h2
    subst h1
    subst h2
    rfl

/-- In unsorted mode the key scan of a non-skipped record returns the
evaluated key tuple's type vector and flat payload, with no group value. -/
theorem scanKeys_dir0 {ρ τ : Type _} (cfg : Config ρ τ) (hd : cfg.inputDir = 0)
    (r : ρ) (mtk : Option SVal) (h : ¬skipped cfg r) :
    scanKeys cfg r cfg.keyExprs 0 mtk =
      (mtk, some (tysOfK (keyVals cfg r), flatOfK (keyVals cfg r), none)) := by
  cases hk : cfg.keyExprs with
  | nil =>
    simp [scanKeys, tysOfK, flatOfK, keyVals, hk, encodeFlat]
  | cons e es =>
    have hq : ¬cfg.isQuiet (e r) := by
      intro hqq
      exact h ⟨e, by rw [hk]; exact List.mem_cons_self e es, hqq⟩
    cases hrec : scanTail cfg r es with
    | none =>
      rcases (scanTail_none_iff cfg r es).mp hrec with ⟨e2, he2, hq2⟩
      exact absurd ⟨e2, by rw [hk]; exact List.mem_cons_of_mem e he2, hq2⟩ h
    | some p =>
      rcases p with ⟨tys2, flat2⟩
      obtain ⟨ht2, hf2⟩ := scanTail_some_spec cfg r es tys2 flat2 hrec
      rw [scanKeys_zero, if_neg hq, hrec]
      have hdn : ¬cfg.inputDir ≠ 0 := by simp [hd]
      simp only [if_neg hdn, Option.map_some]
      refine Prod.ext rfl ?_
      simp only [Option.some.injEq, Prod.mk.injEq]
      rw [ht2, hf2]
      simp only [tysOfK, flatOfK, keyVals, hk, encodeFlat, List.map_cons, List.map_map,
        List.foldr_cons, Prod.mk.injEq, List.cons.injEq, true_and]
      rfl

/-- `Consume` in unsorted mode on a non-skipped record. -/
theorem Consume_dir0 {ρ τ : Type _} (cfg : Config ρ τ) (hd : cfg.inputDir = 0)
    (st : AggState τ) (r : ρ) (h : ¬skipped cfg r) :
    Consume cfg st r = consumeStep cfg st r st.maxTableKey
      (tysOfK (keyVals cfg r)) (flatOfK (keyVals cfg r)) none :=
  Consume_eq_step (scanKeys_dir0 cfg hd r st.maxTableKey h)

/-! ### Account bookkeeping for the unsorted-run invariant -/

theorem addVec_right_comm {τ : Type _} (b x y : List (Multiset τ)) :
    addVec (addVec b x) y = addVec (addVec b y) x := by
  rw [addVec_assoc, addVec_assoc, addVec_comm x y]

theorem foldl_addVec_perm {τ : Type _} {l1 l2 : List (List (Multiset τ))}
    (h : l1.Perm l2) : ∀ b, l1.foldl addVec b = l2.foldl addVec b := by
  induction h with
  | nil => intro b; rfl
  | cons x _ ih => intro b; simp only [List.foldl_cons]; exact ih _
  | swap x y l =>
    intro b
    simp only [List.foldl_cons]
    rw [addVec_right_comm]
  | trans _ _ ih1 ih2 => intro b; rw [ih1, ih2]

theorem foldl_addVec_pull {τ : Type _} :
    ∀ (l : List (List (Multiset τ))) (b v : List (Multiset τ)),
    l.foldl addVec (addVec b v) = addVec (l.foldl addVec b) v := by
  intro l
  induction l with
  | nil => intro b v; rfl
  | cons x xs ih =>
    intro b v
    simp only [List.foldl_cons]
    rw [addVec_right_comm, ih]

/-- Sum of a list of aggregate-state vectors. -/
def vecsSum (τ : Type _) (n : Nat) (l : List (List (Multiset τ))) :
    List (Multiset τ) :=
  l.foldl addVec (zeroVecN τ n)

theorem vecsSum_perm {τ : Type _} {n : Nat} {l1 l2 : List (List (Multiset τ))}
    (h : l1.Perm l2) : vecsSum τ n l1 = vecsSum τ n l2 :=
  foldl_addVec_perm h _

theorem vecsSum_append_one {τ : Type _} (n : Nat)
    (l : List (List (Multiset τ))) (v : List (Multiset τ)) :
    vecsSum τ n (l ++ [v]) = addVec (vecsSum τ n l) v := by
  unfold vecsSum
  rw [List.foldl_append]
  rfl

/-- The merged spill stream (empty when no spiller exists). -/
def spillStream {τ : Type _} (st : AggState τ) : List Out := st.spiller.getD []

/-- The key tuple a table entry decodes to. -/
def rowKeyOf {ρ τ : Type _} (cfg : Config ρ τ) (st : AggState τ)
    (e : Bytes × Row τ) : List SVal :=
  (rowOut cfg st.keyTypes true e.1 e.2).keys

/-- The aggregate-state vectors the in-memory table holds for key `k`. -/
def tableConts {ρ τ : Type _} (cfg : Config ρ τ) (st : AggState τ)
    (k : List SVal) : List (List (Multiset τ)) :=
  (st.table.filter (fun e => decide (rowKeyOf cfg st e = k))).map
    (fun e => e.2.reducers)

/-- The decoded aggregate-state vectors the spill stream holds for key `k`. -/
def spillConts {ρ τ : Type _} (cfg : Config ρ τ) (st : AggState τ)
    (k : List SVal) : List (List (Multiset τ)) :=
  ((spillStream st).filter (fun o => decide (o.keys = k))).map
    (fun o => decodeVec cfg.aggs o.aggs)

theorem tblGet_none_iff {τ : Type _} (t : List (Bytes × Row τ)) (k : Bytes) :
    tblGet t k = none ↔ ∀ e ∈ t, e.1 ≠ k := by
  induction t with
  | nil => simp [tblGet]
  | cons e es ih =>
    by_cases he : e.1 = k
    · simp [tblGet, he]
    · simp only [tblGet, if_neg he, ih]
      constructor
      · intro h a ha
        rcases List.mem_cons.mp ha with h2 | h2
        · subst h2; exact he
        · exact h a h2
      · intro h a ha
        exact h a (List.mem_cons_of_mem e ha)

theorem tblGet_mem {τ : Type _} {t : List (Bytes × Row τ)} {k : Bytes}
    {row : Row τ} (h : tblGet t k = some row) : (k, row) ∈ t := by
  induction t with
  | nil => simp [tblGet] at h
  | cons e es ih =>
    by_cases he : e.1 = k
    · rw [tblGet, if_pos he] at h
      rw [Option.some.injEq] at h
      have he2 : e = (k, row) := Prod.ext he h
      rw [← he2]
      exact List.mem_cons_self e es
    · rw [tblGet, if_neg he] at h
      exact List.mem_cons_of_mem e (ih h)

/-- With pairwise-distinct encoded keys, the entries carrying a present key
are exactly the one found entry. -/
theorem filter_eq_of_tblGet {τ : Type _} {t : List (Bytes × Row τ)} {k : Bytes}
    {row : Row τ} (hnd : (t.map Prod.fst).Nodup) (h : tblGet t k = some row) :
    t.filter (fun e => decide (e.1 = k)) = [(k, row)] := by
  induction t with
  | nil => simp [tblGet] at h
  | cons e es ih =>
    rw [List.map_cons, List.nodup_cons] at hnd
    by_cases he : e.1 = k
    · rw [tblGet, if_pos he] at h
      rw [Option.some.injEq] at h
      rw [List.filter_cons, if_pos (by simpa using he)]
      have hnone : es.filter (fun e2 => decide (e2.1 = k)) = [] := by
        rw [List.filter_eq_nil_iff]
        intro a ha
        simp only [decide_eq_true_eq]
        intro hak
        exact hnd.1 (by rw [he, ← hak]; exact List.mem_map_of_mem Prod.fst ha)
      rw [hnone]
      cases e with
      | mk e1 e2 => simp only at he h; rw [he, h]
    · rw [tblGet, if_neg he] at h
      rw [List.filter_cons, if_neg (by simpa using he)]
      exact ih hnd.2 h

theorem liveRecs_append {ρ τ : Type _} (cfg : Config ρ τ) (recs : List ρ) (r : ρ) :
    liveRecs cfg (recs ++ [r]) =
      liveRecs cfg recs ++ (if skipped cfg r then [] else [r]) := by
  unfold liveRecs
  rw [List.filter_append]
  congr 1
  by_cases h : skipped cfg r <;> simp [h]

theorem keysSeen_append {ρ τ : Type _} (cfg : Config ρ τ) (recs : List ρ) (r : ρ) :
    keysSeen cfg (recs ++ [r]) =
      keysSeen cfg recs ++ (if skipped cfg r then [] else [keyVals cfg r]) := by
  unfold keysSeen
  rw [liveRecs_append, List.map_append]
  congr 1
  by_cases h : skipped cfg r <;> simp [h]

theorem cfReds_append_skip {ρ τ : Type _} (cfg : Config ρ τ) (recs : List ρ)
    (r : ρ) (h : skipped cfg r) (k : List SVal) :
    cfReds cfg (recs ++ [r]) k = cfReds cfg recs k := by
  unfold cfReds
  rw [liveRecs_append, if_pos h, List.append_nil]

theorem cfReds_append_hit {ρ τ : Type _} (cfg : Config ρ τ) (recs : List ρ)
    (r : ρ) (h : ¬skipped cfg r) (hk : keyVals cfg r = k) :
    cfReds cfg (recs ++ [r]) k = addVec (cfReds cfg recs k) (recContrib cfg r) := by
  unfold cfReds
  rw [liveRecs_append, if_neg h, List.filter_append, List.foldl_append]
  rw [show List.filter (fun r2 => decide (keyVals cfg r2 = k)) [r] = [r] from by
    simp [hk]]
  rfl

theorem cfReds_append_miss {ρ τ : Type _} (cfg : Config ρ τ) (recs : List ρ)
    (r : ρ) (h : ¬skipped cfg r) (hk : keyVals cfg r ≠ k) :
    cfReds cfg (recs ++ [r]) k = cfReds cfg recs k := by
  unfold cfReds
  rw [liveRecs_append, if_neg h, List.filter_append, List.foldl_append]
  rw [show List.filter (fun r2 => decide (keyVals cfg r2 = k)) [r] = [] from by
    simp [hk]]
  rfl

/-- The run invariant of an unsorted-mode (`inputDir = 0`) operator after
consuming `recs`: the intern table is duplicate-free and covers every seen
key's type vector; every table entry is the encoding of a seen key with a
well-formed state vector, under pairwise-distinct encoded keys; every spill
record carries a seen key and a full aggregate vector, and the stream is
sorted by the full-keys comparator; every seen key is represented; and, per
key, the table's states plus the decoded spill partials sum to the group's
total contributions. -/
structure InvU {ρ τ : Type _} (cfg : Config ρ τ) (st : AggState τ)
    (recs : List ρ) : Prop where
  ktN : st.keyTypes.Nodup
  ktSeen : ∀ r ∈ liveRecs cfg recs, tysOfK (keyVals cfg r) ∈ st.keyTypes
  tblKey : ∀ e ∈ st.table, ∃ k, k ∈ keysSeen cfg recs ∧ e.1 = encKey st.keyTypes k ∧
    e.2.keyType = idxOf (tysOfK k) st.keyTypes
  tblLen : ∀ e ∈ st.table, e.2.reducers.length = cfg.aggs.length
  tblN : (st.table.map Prod.fst).Nodup
  spKey : ∀ o ∈ spillStream st, o.keys ∈ keysSeen cfg recs
  spLen : ∀ o ∈ spillStream st, o.aggs.length = cfg.aggs.length
  spSorted : (spillStream st).Pairwise (fun a b => keysLe cfg.inputDir a b = true)
  support : ∀ k ∈ keysSeen cfg recs,
    (∃ e ∈ st.table, rowKeyOf cfg st e = k) ∨ (∃ o ∈ spillStream st, o.keys = k)
  account : ∀ k, vecsSum τ cfg.aggs.length (tableConts cfg st k ++ spillConts cfg st k) =
    cfReds cfg recs k

theorem InvU.initial {ρ τ : Type _} (cfg : Config ρ τ) :
    InvU cfg (initState : AggState τ) [] := by
  refine ⟨?_, ?_, ?_, ?_, ?_, ?_, ?_, ?_, ?_, ?_⟩
  · simp [initState]
  · intro r hr; simp [liveRecs] at hr
  · intro e he; simp [initState] at he
  · intro e he; simp [initState] at he
  · simp [initState]
  · intro o ho; simp [initState, spillStream] at ho
  · intro o ho; simp [initState, spillStream] at ho
  · simp [initState, spillStream]
  · intro k hk; simp [keysSeen, liveRecs] at hk
  · intro k
    simp [tableConts, spillConts, spillStream, initState, cfReds, liveRecs, vecsSum]

/-- The key tuple seen in a key list is a live record's evaluation. -/
theorem mem_keysSeen {ρ τ : Type _} {cfg : Config ρ τ} {recs : List ρ}
    {k : List SVal} (h : k ∈ keysSeen cfg recs) :
    ∃ r ∈ liveRecs cfg recs, keyVals cfg r = k := by
  unfold keysSeen at h
  obtain ⟨r, hr, hk⟩ := List.mem_map.mp h
  exact ⟨r, hr, hk⟩

theorem InvU.ktSeenKey {ρ τ : Type _} {cfg : Config ρ τ} {st : AggState τ}
    {recs : List ρ} (inv : InvU cfg st recs) {k : List SVal}
    (h : k ∈ keysSeen cfg recs) : tysOfK k ∈ st.keyTypes := by
  obtain ⟨r, hr, hk⟩ := mem_keysSeen h
  rw [← hk]
  exact inv.ktSeen r hr

/-- Each table entry decodes to its (seen) key tuple. -/
theorem InvU.rowKey {ρ τ : Type _} {cfg : Config ρ τ} {st : AggState τ}
    {recs : List ρ} (inv : InvU cfg st recs) {e : Bytes × Row τ}
    (he : e ∈ st.table) :
    ∃ k, k ∈ keysSeen cfg recs ∧ rowKeyOf cfg st e = k ∧
      e.1 = encKey st.keyTypes k ∧ e.2.keyType = idxOf (tysOfK k) st.keyTypes := by
  obtain ⟨k, hk, henc, hid⟩ := inv.tblKey e he
  refine ⟨k, hk, ?_, henc, hid⟩
  unfold rowKeyOf
  rw [henc]
  exact rowOut_keys_enc cfg st.keyTypes true k e.2 (inv.ktSeenKey hk) hid

/-- Full injectivity of the table-key encoding: the flat payload and the
type id are both determined, with no length side condition. -/
theorem flatKey_inj {v1 v2 : List (Option Bytes)} {t1 t2 : Nat}
    (h : encodeFlat v1 ++ uvarint t1 = encodeFlat v2 ++ uvarint t2) :
    v1 = v2 ∧ t1 = t2 := by
  rcases Nat.lt_trichotomy v1.length v2.length with hlt | heqn | hgt
  · exact absurd h (fun h2 => encKey_no_strict_ext hlt h2)
  · exact tableKey_inj heqn h
  · exact absurd h.symm (fun h2 => encKey_no_strict_ext hgt h2)

theorem idxOf_append_self {tv : List Nat} :
    ∀ {tbl : List (List Nat)}, tv ∉ tbl → idxOf tv (tbl ++ [tv]) = tbl.length := by
  intro tbl
  induction tbl with
  | nil => intro _; simp [idxOf]
  | cons t ts ih =>
    intro hmem
    have ht : t ≠ tv := by
      intro h
      exact hmem (by rw [h]; exact List.mem_cons_self tv ts)
    rw [List.cons_append, idxOf, if_neg ht,
      ih (fun h2 => hmem (List.mem_cons_of_mem t h2))]
    simp

/-- What one intern lookup guarantees: the result table is duplicate-free,
extends the old one, preserves every interned id, and holds the looked-up
vector at the returned id. -/
theorem tvtLookup_spec {tbl : List (List Nat)} (tv : List Nat)
    (hnd : tbl.Nodup) :
    (tvtLookup tbl tv).2.Nodup ∧
    (∀ u ∈ tbl, u ∈ (tvtLookup tbl tv).2 ∧
      idxOf u (tvtLookup tbl tv).2 = idxOf u tbl) ∧
    tv ∈ (tvtLookup tbl tv).2 ∧
    idxOf tv (tvtLookup tbl tv).2 = (tvtLookup tbl tv).1 := by
  unfold tvtLookup
  by_cases hm : tv ∈ tbl
  · rw [if_pos hm]
    exact ⟨hnd, fun u hu => ⟨hu, rfl⟩, hm, rfl⟩
  · rw [if_neg hm]
    refine ⟨?_, ?_, ?_, ?_⟩
    · simp only [List.nodup_append, List.nodup_cons]
      refine ⟨hnd, by simp, ?_⟩
      intro a ha h2
      simp only [List.mem_singleton] at h2
      exact hm (h2 ▸ ha)
    · intro u hu
      exact ⟨List.mem_append_left _ hu, idxOf_append hu⟩
    · exact List.mem_append_right _ (List.mem_cons_self tv [])
    · exact idxOf_append_self hm

theorem updateReducers_length {ρ τ : Type _} (cfg : Config ρ τ) (r : ρ)
    (reds : List (Multiset τ)) (hl : reds.length = cfg.aggs.length)
    (har : cfg.aggRefs.length = cfg.aggs.length) :
    (updateReducers cfg r reds).length = cfg.aggs.length := by
  rw [updateReducers_eq_addVec cfg r reds hl har, addVec_length, hl,
    recContrib_length cfg r har]
  simp

/-- `rowOut` ignores the row's aggregate states when building the key
fields. -/
theorem rowOut_keys_bump {ρ τ : Type _} (cfg : Config ρ τ)
    (kts : List (List Nat)) (pOut pOut2 : Bool) (kb : Bytes) (row : Row τ)
    (f : List (Multiset τ) → List (Multiset τ)) :
    (rowOut cfg kts pOut kb { row with reducers := f row.reducers }).keys =
      (rowOut cfg kts pOut2 kb row).keys := rfl

/-- Interning one more type vector (and writing the max-table-key) preserves
the run invariant: all existing ids, encodings and decodings are stable. -/
theorem InvU.extendKT {ρ τ : Type _} {cfg : Config ρ τ} {st : AggState τ}
    {recs : List ρ} (inv : InvU cfg st recs) (tys : List Nat) (m2 : Option SVal) :
    InvU cfg { st with maxTableKey := m2, keyTypes := (tvtLookup st.keyTypes tys).2 }
      recs := by
  obtain ⟨hnd2, hold, hmem2, hidx2⟩ := tvtLookup_spec tys inv.ktN
  have hstab : ∀ k : List SVal, tysOfK k ∈ st.keyTypes →
      encKey (tvtLookup st.keyTypes tys).2 k = encKey st.keyTypes k := by
    intro k hk
    unfold encKey
    rw [(hold _ hk).2]
  have hrowstab : ∀ e ∈ st.table,
      rowKeyOf cfg { st with maxTableKey := m2, keyTypes := (tvtLookup st.keyTypes tys).2 } e =
        rowKeyOf cfg st e := by
    intro e he
    obtain ⟨k0, hks, hrk, henc, hid⟩ := inv.rowKey he
    have hk0 : tysOfK k0 ∈ st.keyTypes := inv.ktSeenKey hks
    have henc2 : e.1 = encKey (tvtLookup st.keyTypes tys).2 k0 := by
      rw [henc, ← hstab k0 hk0]
    have hid2 : e.2.keyType = idxOf (tysOfK k0) (tvtLookup st.keyTypes tys).2 := by
      rw [hid, (hold _ hk0).2]
    rw [hrk]
    show (rowOut cfg (tvtLookup st.keyTypes tys).2 true e.1 e.2).keys = k0
    rw [henc2]
    exact rowOut_keys_enc cfg _ true k0 e.2 (hold _ hk0).1 hid2
  refine ⟨hnd2, ?_, ?_, inv.tblLen, inv.tblN, inv.spKey, inv.spLen, inv.spSorted, ?_, ?_⟩
  · intro r hr
    exact (hold _ (inv.ktSeen r hr)).1
  · intro e he
    obtain ⟨k0, hks, henc, hid⟩ := inv.tblKey e he
    have hk0 : tysOfK k0 ∈ st.keyTypes := inv.ktSeenKey hks
    exact ⟨k0, hks, by rw [henc, ← hstab k0 hk0], by rw [hid, (hold _ hk0).2]⟩
  · intro k hk
    rcases inv.support k hk with ⟨e, he, hek⟩ | h
    · exact Or.inl ⟨e, he, by rw [hrowstab e he]; exact hek⟩
    · exact Or.inr h
  · intro k
    have ht : tableConts cfg { st with maxTableKey := m2, keyTypes := (tvtLookup st.keyTypes tys).2 } k = tableConts cfg st k := by
      unfold tableConts
      rw [List.filter_congr (fun e he => by rw [hrowstab e he])]
    rw [ht]
    exact inv.account k

/-- `spillTable` on an empty table is the identity. -/
theorem spillTable_empty {ρ τ : Type _} (cfg : Config ρ τ) (eof : Bool)
    (st : AggState τ) (he : st.table = []) : spillTable cfg eof st = st := by
  unfold spillTable
  rw [readTable_flush_of_empty cfg true st he]

/-- Spilling the table preserves the run invariant and empties the table:
each row becomes one partial record of the merged stream, keyed by its
decoded key tuple, and decoding the partial recovers the row's states. -/
theorem InvU.spillKeep {ρ τ : Type _} {cfg : Config ρ τ} {st : AggState τ}
    {recs : List ρ} (inv : InvU cfg st recs) (eof : Bool)
    (hdec : ∀ fn ∈ cfg.aggs, ∀ s, fn.decodePart (fn.resultPart s) = s) :
    InvU cfg (spillTable cfg eof st) recs ∧ (spillTable cfg eof st).table = [] := by
  cases htbl : st.table with
  | nil =>
    rw [spillTable_empty cfg eof st htbl]
    exact ⟨inv, htbl⟩
  | cons e0 es0 =>
    have hne : st.table ≠ [] := by rw [htbl]; simp
    obtain ⟨hT, hS, hK, hM⟩ := spillTable_spec cfg eof st hne
    have hperm : spillStream (spillTable cfg eof st) |>.Perm
        (spillStream st ++ st.table.map (fun e => rowOut cfg st.keyTypes true e.1 e.2)) := by
      rw [spillStream, hS]
      exact sortBy_perm _ _
    have hnewkeys : ∀ e ∈ st.table,
        (rowOut cfg st.keyTypes true e.1 e.2).keys = rowKeyOf cfg st e := fun _ _ => rfl
    have hdecnew : ∀ e ∈ st.table,
        decodeVec cfg.aggs (rowOut cfg st.keyTypes true e.1 e.2).aggs = e.2.reducers := by
      intro e he
      rw [rowOut_aggs]
      have : List.zipWith (fun fn red => if true = true then fn.resultPart red else fn.result red)
          cfg.aggs e.2.reducers =
          List.zipWith (fun fn red => fn.resultPart red) cfg.aggs e.2.reducers := by
        simp
      rw [this]
      exact decodeVec_resultPart cfg.aggs e.2.reducers hdec (inv.tblLen e he)
    constructor
    · refine ⟨?_, ?_, ?_, ?_, ?_, ?_, ?_, ?_, ?_, ?_⟩
      · rw [hK]; exact inv.ktN
      · intro r hr; rw [hK]; exact inv.ktSeen r hr
      · intro e he; rw [hT] at he; simp at he
      · intro e he; rw [hT] at he; simp at he
      · rw [hT]; simp
      · intro o ho
        have ho2 := hperm.mem_iff.mp ho
        rcases List.mem_append.mp ho2 with h2 | h2
        · exact inv.spKey o h2
        · obtain ⟨e, he, heo⟩ := List.mem_map.mp h2
          obtain ⟨k0, hks, hrk, -, -⟩ := inv.rowKey he
          rw [← heo, hnewkeys e he, hrk]
          exact hks
      · intro o ho
        have ho2 := hperm.mem_iff.mp ho
        rcases List.mem_append.mp ho2 with h2 | h2
        · exact inv.spLen o h2
        · obtain ⟨e, he, heo⟩ := List.mem_map.mp h2
          rw [← heo, rowOut_aggs]
          simp [inv.tblLen e he]
      · rw [spillStream, hS]
        exact sortBy_pairwise (keysLe_total cfg.inputDir) (keysLe_trans cfg.inputDir) _
      · intro k hk
        rcases inv.support k hk with ⟨e, he, hek⟩ | ⟨o, ho, hok⟩
        · refine Or.inr ⟨rowOut cfg st.keyTypes true e.1 e.2, ?_, by rw [hnewkeys e he]; exact hek⟩
          exact hperm.mem_iff.mpr (List.mem_append_right _ (List.mem_map_of_mem _ he))
        · exact Or.inr ⟨o, hperm.mem_iff.mpr (List.mem_append_left _ ho), hok⟩
      · intro k
        have htc : tableConts cfg (spillTable cfg eof st) k = [] := by
          unfold tableConts
          rw [hT]
          rfl
        have hsc : (spillConts cfg (spillTable cfg eof st) k).Perm
            (spillConts cfg st k ++ tableConts cfg st k) := by
          unfold spillConts tableConts
          have h1 : (spillStream (spillTable cfg eof st)).filter
              (fun o => decide (o.keys = k)) |>.Perm
              ((spillStream st ++ st.table.map (fun e => rowOut cfg st.keyTypes true e.1 e.2)).filter
                (fun o => decide (o.keys = k))) := hperm.filter _
          have h2 := h1.map (fun o => decodeVec cfg.aggs o.aggs)
          refine h2.trans ?_
          rw [List.filter_append, List.map_append]
          refine List.Perm.append (List.Perm.refl _) ?_
          rw [List.filter_map, List.map_map]
          have h3 : st.table.filter ((fun o => decide (o.keys = k)) ∘
              (fun e => rowOut cfg st.keyTypes true e.1 e.2)) =
              st.table.filter (fun e => decide (rowKeyOf cfg st e = k)) := by
            exact List.filter_congr (fun e he => rfl)
          rw [h3]
          have h4 : ∀ e ∈ st.table.filter (fun e => decide (rowKeyOf cfg st e = k)),
              ((fun o => decodeVec cfg.aggs o.aggs) ∘
                (fun e => rowOut cfg st.keyTypes true e.1 e.2)) e = e.2.reducers := by
            intro e he
            exact hdecnew e (List.mem_of_mem_filter he)
          rw [List.map_congr_left h4]
        rw [htc, List.nil_append]
        rw [vecsSum_perm hsc, vecsSum_perm (List.perm_append_comm)]
        exact inv.account k
    · exact hT

theorem newValRow_length {ρ τ : Type _} (cfg : Config ρ τ) :
    (newValRow cfg).length = cfg.aggs.length := by
  simp [newValRow]

/-- Appending a fresh row for a first-sighted (or respilled) key preserves
the invariant, advancing the consumed-record list by the creating record. -/
theorem InvU.freshAppend {ρ τ : Type _} {cfg : Config ρ τ} {st2 : AggState τ}
    {recs : List ρ} (inv : InvU cfg st2 recs) (r : ρ) (hr : ¬skipped cfg r)
    (har : cfg.aggRefs.length = cfg.aggs.length)
    (hmem : tysOfK (keyVals cfg r) ∈ st2.keyTypes)
    (hget : tblGet st2.table (encKey st2.keyTypes (keyVals cfg r)) = none) :
    InvU cfg { st2 with table := st2.table ++ [(encKey st2.keyTypes (keyVals cfg r), freshRow cfg r (idxOf (tysOfK (keyVals cfg r)) st2.keyTypes) none)] } (recs ++ [r]) := by
  have hks : keysSeen cfg (recs ++ [r]) = keysSeen cfg recs ++ [keyVals cfg r] := by
    rw [keysSeen_append, if_neg hr]
  have hlive : liveRecs cfg (recs ++ [r]) = liveRecs cfg recs ++ [r] := by
    rw [liveRecs_append, if_neg hr]
  have hnewrk : rowKeyOf cfg st2 (encKey st2.keyTypes (keyVals cfg r),
      freshRow cfg r (idxOf (tysOfK (keyVals cfg r)) st2.keyTypes) none) = keyVals cfg r := by
    unfold rowKeyOf
    exact rowOut_keys_enc cfg st2.keyTypes true (keyVals cfg r) _ hmem rfl
  have hfl : (freshRow cfg r (idxOf (tysOfK (keyVals cfg r)) st2.keyTypes)
      (none : Option SVal)).reducers.length = cfg.aggs.length := by
    show (updateReducers cfg r (newValRow cfg)).length = cfg.aggs.length
    exact updateReducers_length cfg r _ (newValRow_length cfg) har
  refine ⟨inv.ktN, ?_, ?_, ?_, ?_, ?_, ?_, inv.spSorted, ?_, ?_⟩
  · intro a ha
    rw [hlive] at ha
    rcases List.mem_append.mp ha with h2 | h2
    · exact inv.ktSeen a h2
    · rw [List.mem_singleton] at h2
      rw [h2]
      exact hmem
  · intro e he
    rcases List.mem_append.mp he with h2 | h2
    · obtain ⟨k0, hk0, henc, hid⟩ := inv.tblKey e h2
      exact ⟨k0, by rw [hks]; exact List.mem_append_left _ hk0, henc, hid⟩
    · rw [List.mem_singleton] at h2
      refine ⟨keyVals cfg r, by rw [hks]; exact List.mem_append_right _ (List.mem_singleton.mpr rfl), ?_, ?_⟩
      · rw [h2]
      · rw [h2]
        rfl
  · intro e he
    rcases List.mem_append.mp he with h2 | h2
    · exact inv.tblLen e h2
    · rw [List.mem_singleton] at h2
      rw [h2]
      exact hfl
  · rw [List.map_append, List.nodup_append]
    refine ⟨inv.tblN, by simp, ?_⟩
    intro a ha h2
    simp only [List.map_cons, List.map_nil, List.mem_singleton] at h2
    obtain ⟨e, he, hea⟩ := List.mem_map.mp ha
    rw [tblGet_none_iff] at hget
    exact hget e he (by rw [hea, h2])
  · intro o ho
    rw [hks]
    exact List.mem_append_left _ (inv.spKey o ho)
  · intro o ho
    exact inv.spLen o ho
  · intro k hk
    rw [hks] at hk
    rcases List.mem_append.mp hk with h2 | h2
    · rcases inv.support k h2 with ⟨e, he, hek⟩ | h3
      · exact Or.inl ⟨e, List.mem_append_left _ he, hek⟩
      · exact Or.inr h3
    · rw [List.mem_singleton] at h2
      subst h2
      exact Or.inl ⟨_, List.mem_append_right _ (List.mem_singleton.mpr rfl), hnewrk⟩
  · intro k
    have htc : tableConts cfg { st2 with table := st2.table ++ [(encKey st2.keyTypes (keyVals cfg r), freshRow cfg r (idxOf (tysOfK (keyVals cfg r)) st2.keyTypes) none)] } k =
        tableConts cfg st2 k ++
          (if keyVals cfg r = k then [updateReducers cfg r (newValRow cfg)] else []) := by
      show ((st2.table ++ [(encKey st2.keyTypes (keyVals cfg r), freshRow cfg r (idxOf (tysOfK (keyVals cfg r)) st2.keyTypes) none)]).filter (fun e => decide (rowKeyOf cfg st2 e = k))).map (fun e => e.2.reducers) = _
      rw [List.filter_append, List.map_append]
      congr 1
      by_cases hkk : keyVals cfg r = k
      · rw [List.filter_cons, if_pos (by simp only [hnewrk]; exact decide_eq_true hkk), if_pos hkk]
        rfl
      · rw [List.filter_cons, if_neg (by simp only [hnewrk]; simpa using hkk), if_neg hkk]
        rfl
    have hsc : spillConts cfg { st2 with table := st2.table ++ [(encKey st2.keyTypes (keyVals cfg r), freshRow cfg r (idxOf (tysOfK (keyVals cfg r)) st2.keyTypes) none)] } k = spillConts cfg st2 k := rfl
    rw [htc, hsc]
    by_cases hkk : keyVals cfg r = k
    · rw [if_pos hkk]
      have hperm : ((tableConts cfg st2 k ++ [updateReducers cfg r (newValRow cfg)]) ++
          spillConts cfg st2 k).Perm
          ((tableConts cfg st2 k ++ spillConts cfg st2 k) ++ [updateReducers cfg r (newValRow cfg)]) := by
        rw [List.append_assoc, List.append_assoc]
        exact List.Perm.append_left _ (List.perm_append_comm)
      rw [vecsSum_perm hperm, vecsSum_append_one, inv.account k,
        cfReds_append_hit cfg recs r hr hkk]
      rw [updateReducers_eq_addVec cfg r _ (newValRow_length cfg) har,
        newValRow_eq_zeroVecN]
      rw [show zeroVecN τ cfg.aggs.length = zeroVecN τ (recContrib cfg r).length from by
        rw [recContrib_length cfg r har]]
      rw [addVec_zero_left]
    · rw [if_neg hkk, List.append_nil]
      rw [inv.account k, cfReds_append_miss cfg recs r hr hkk]

/-- Feeding a record to the existing row of its key preserves the
invariant, advancing the consumed-record list. -/
theorem InvU.bump {ρ τ : Type _} {cfg : Config ρ τ} {st : AggState τ}
    {recs : List ρ} (inv : InvU cfg st recs) (r : ρ) (hr : ¬skipped cfg r)
    (har : cfg.aggRefs.length = cfg.aggs.length)
    (hmem : tysOfK (keyVals cfg r) ∈ st.keyTypes) (row : Row τ)
    (hget : tblGet st.table (encKey st.keyTypes (keyVals cfg r)) = some row) :
    InvU cfg { st with table := tblUpdate st.table (encKey st.keyTypes (keyVals cfg r)) (bumpRow cfg r) } (recs ++ [r]) := by
  have hks : keysSeen cfg (recs ++ [r]) = keysSeen cfg recs ++ [keyVals cfg r] := by
    rw [keysSeen_append, if_neg hr]
  have hlive : liveRecs cfg (recs ++ [r]) = liveRecs cfg recs ++ [r] := by
    rw [liveRecs_append, if_neg hr]
  have hkbkey : ∀ e ∈ st.table, e.1 = encKey st.keyTypes (keyVals cfg r) →
      rowKeyOf cfg st e = keyVals cfg r := by
    intro e he hekb
    obtain ⟨k1, hk1, hrk1, henc1, -⟩ := inv.rowKey he
    rw [hrk1]
    exact encKey_inj (inv.ktSeenKey hk1) hmem (by rw [← henc1, hekb])
  have hkeykb : ∀ e ∈ st.table, rowKeyOf cfg st e = keyVals cfg r →
      e.1 = encKey st.keyTypes (keyVals cfg r) := by
    intro e he hrk
    obtain ⟨k1, hk1, hrk1, henc1, -⟩ := inv.rowKey he
    rw [henc1, hrk1.symm.trans hrk]
  have hrowstab : ∀ e ∈ st.table,
      rowKeyOf cfg st (if e.1 = encKey st.keyTypes (keyVals cfg r) then (e.1, bumpRow cfg r e.2) else e) = rowKeyOf cfg st e := by
    intro e he
    by_cases hekb : e.1 = encKey st.keyTypes (keyVals cfg r)
    · rw [if_pos hekb]
      unfold rowKeyOf bumpRow
      exact rowOut_keys_bump cfg st.keyTypes true true e.1 e.2 _
    · rw [if_neg hekb]
  have hupd : tblUpdate st.table (encKey st.keyTypes (keyVals cfg r)) (bumpRow cfg r) =
      st.table.map (fun e => if e.1 = encKey st.keyTypes (keyVals cfg r) then (e.1, bumpRow cfg r e.2) else e) := by
    unfold tblUpdate
    exact List.map_congr_left (fun e _ => by split <;> rfl)
  have hfst : ∀ e : Bytes × Row τ,
      (if e.1 = encKey st.keyTypes (keyVals cfg r) then (e.1, bumpRow cfg r e.2) else e).1 = e.1 := by
    intro e; split <;> rfl
  have hkt : ∀ e : Bytes × Row τ,
      (if e.1 = encKey st.keyTypes (keyVals cfg r) then (e.1, bumpRow cfg r e.2) else e).2.keyType = e.2.keyType := by
    intro e; split <;> rfl
  refine ⟨inv.ktN, ?_, ?_, ?_, ?_, ?_, ?_, inv.spSorted, ?_, ?_⟩
  · intro a ha
    rw [hlive] at ha
    rcases List.mem_append.mp ha with h2 | h2
    · exact inv.ktSeen a h2
    · rw [List.mem_singleton] at h2
      rw [h2]
      exact hmem
  · intro e2 he2
    rw [hupd] at he2
    obtain ⟨e, he, hee⟩ := List.mem_map.mp he2
    obtain ⟨k1, hk1, henc1, hid1⟩ := inv.tblKey e he
    refine ⟨k1, by rw [hks]; exact List.mem_append_left _ hk1, ?_, ?_⟩
    · rw [← hee, hfst e]; exact henc1
    · rw [← hee, hkt e]; exact hid1
  · intro e2 he2
    rw [hupd] at he2
    obtain ⟨e, he, hee⟩ := List.mem_map.mp he2
    by_cases hekb : e.1 = encKey st.keyTypes (keyVals cfg r)
    · rw [← hee, if_pos hekb]
      show (updateReducers cfg r e.2.reducers).length = cfg.aggs.length
      exact updateReducers_length cfg r _ (inv.tblLen e he) har
    · rw [← hee, if_neg hekb]
      exact inv.tblLen e he
  · have hmf : (tblUpdate st.table (encKey st.keyTypes (keyVals cfg r)) (bumpRow cfg r)).map Prod.fst = st.table.map Prod.fst := by
      rw [hupd, List.map_map]
      exact List.map_congr_left (fun e _ => hfst e)
    rw [hmf]
    exact inv.tblN
  · intro o ho
    rw [hks]
    exact List.mem_append_left _ (inv.spKey o ho)
  · intro o ho
    exact inv.spLen o ho
  · intro k2 hk2
    rw [hks] at hk2
    have hcase : ∀ k3 ∈ keysSeen cfg recs ++ [keyVals cfg r],
        (∃ e ∈ st.table, rowKeyOf cfg st e = k3) ∨ (∃ o ∈ spillStream st, o.keys = k3) := by
      intro k3 hk3
      rcases List.mem_append.mp hk3 with h2 | h2
      · exact inv.support k3 h2
      · rw [List.mem_singleton] at h2
        subst h2
        exact Or.inl ⟨_, tblGet_mem hget, hkbkey _ (tblGet_mem hget) rfl⟩
    rcases hcase k2 hk2 with ⟨e, he, hek⟩ | h3
    · refine Or.inl ⟨(if e.1 = encKey st.keyTypes (keyVals cfg r) then (e.1, bumpRow cfg r e.2) else e), ?_, ?_⟩
      · rw [hupd]
        exact List.mem_map_of_mem _ he
      · show rowKeyOf cfg st _ = k2
        rw [hrowstab e he]
        exact hek
    · exact Or.inr h3
  · intro k2
    have htc : tableConts cfg { st with table := tblUpdate st.table (encKey st.keyTypes (keyVals cfg r)) (bumpRow cfg r) } k2 =
        (st.table.filter (fun e => decide (rowKeyOf cfg st e = k2))).map
          (fun e => (if e.1 = encKey st.keyTypes (keyVals cfg r) then (e.1, bumpRow cfg r e.2) else e).2.reducers) := by
      show ((tblUpdate st.table (encKey st.keyTypes (keyVals cfg r)) (bumpRow cfg r)).filter
        (fun e => decide (rowKeyOf cfg st e = k2))).map (fun e => e.2.reducers) = _
      rw [hupd, List.filter_map]
      rw [List.filter_congr (fun e he => by
        simp only [Function.comp]
        rw [hrowstab e he])]
      rw [List.map_map]
      rfl
    have hsc : spillConts cfg { st with table := tblUpdate st.table (encKey st.keyTypes (keyVals cfg r)) (bumpRow cfg r) } k2 = spillConts cfg st k2 := rfl
    rw [htc, hsc]
    by_cases hkk : keyVals cfg r = k2
    · subst hkk
      have hfeq : st.table.filter (fun e => decide (rowKeyOf cfg st e = keyVals cfg r)) =
          st.table.filter (fun e => decide (e.1 = encKey st.keyTypes (keyVals cfg r))) := by
        refine List.filter_congr (fun e he => ?_)
        by_cases h2 : rowKeyOf cfg st e = keyVals cfg r
        · rw [decide_eq_true h2, decide_eq_true (hkeykb e he h2)]
        · have h3 : ¬e.1 = encKey st.keyTypes (keyVals cfg r) := by
            intro h4
            exact h2 (hkbkey e he h4)
          rw [decide_eq_false h2, decide_eq_false h3]
      rw [hfeq, filter_eq_of_tblGet inv.tblN hget]
      have hold : tableConts cfg st (keyVals cfg r) = [row.reducers] := by
        unfold tableConts
        rw [hfeq, filter_eq_of_tblGet inv.tblN hget]
        rfl
      have hacc := inv.account (keyVals cfg r)
      rw [hold] at hacc
      rw [cfReds_append_hit cfg recs r hr rfl, ← hacc]
      simp only [List.map_cons, List.map_nil, if_pos rfl]
      show vecsSum τ cfg.aggs.length ((bumpRow cfg r row).reducers :: spillConts cfg st (keyVals cfg r)) = _
      show (spillConts cfg st (keyVals cfg r)).foldl addVec
        (addVec (zeroVecN τ cfg.aggs.length) (bumpRow cfg r row).reducers) = _
      rw [show (bumpRow cfg r row).reducers = addVec row.reducers (recContrib cfg r) from
        updateReducers_eq_addVec cfg r _ (inv.tblLen _ (tblGet_mem hget)) har]
      rw [← addVec_assoc, foldl_addVec_pull]
      rfl
    · have hne2 : keyVals cfg r ≠ k2 := hkk
      have hmapeq : (st.table.filter (fun e => decide (rowKeyOf cfg st e = k2))).map
          (fun e => (if e.1 = encKey st.keyTypes (keyVals cfg r) then (e.1, bumpRow cfg r e.2) else e).2.reducers) =
          (st.table.filter (fun e => decide (rowKeyOf cfg st e = k2))).map
          (fun e => e.2.reducers) := by
        refine List.map_congr_left (fun e he => ?_)
        have he2 := List.mem_filter.mp he
        have hrk2 : rowKeyOf cfg st e = k2 := of_decide_eq_true he2.2
        have h3 : ¬e.1 = encKey st.keyTypes (keyVals cfg r) := by
          intro h4
          exact hne2 (by rw [← hkbkey e he2.1 h4, hrk2])
        rw [if_neg h3]
      rw [hmapeq]
      rw [show (st.table.filter (fun e => decide (rowKeyOf cfg st e = k2))).map (fun e => e.2.reducers) = tableConts cfg st k2 from rfl]
      rw [inv.account k2, cfReds_append_miss cfg recs r hr hne2]

/-- A skipped record changes neither the state nor the canonical grouping. -/
theorem InvU.skipKeep {ρ τ : Type _} {cfg : Config ρ τ} {st : AggState τ}
    {recs : List ρ} (inv : InvU cfg st recs) {r : ρ} (hsk : skipped cfg r) :
    InvU cfg st (recs ++ [r]) := by
  have hlive : liveRecs cfg (recs ++ [r]) = liveRecs cfg recs := by
    rw [liveRecs_append, if_pos hsk, List.append_nil]
  have hks : keysSeen cfg (recs ++ [r]) = keysSeen cfg recs := by
    rw [keysSeen_append, if_pos hsk, List.append_nil]
  refine ⟨inv.ktN, ?_, ?_, inv.tblLen, inv.tblN, ?_, inv.spLen, inv.spSorted, ?_, ?_⟩
  · intro a ha; rw [hlive] at ha; exact inv.ktSeen a ha
  · intro e he
    obtain ⟨k0, hk0, henc, hid⟩ := inv.tblKey e he
    exact ⟨k0, by rw [hks]; exact hk0, henc, hid⟩
  · intro o ho; rw [hks]; exact inv.spKey o ho
  · intro k hk; rw [hks] at hk; exact inv.support k hk
  · intro k; rw [cfReds_append_skip cfg recs r hsk]; exact inv.account k

theorem spillTable_keyTypes {ρ τ : Type _} (cfg : Config ρ τ) (eof : Bool)
    (st : AggState τ) : (spillTable cfg eof st).keyTypes = st.keyTypes := by
  cases htbl : st.table with
  | nil => rw [spillTable_empty cfg eof st htbl]
  | cons e es =>
    exact (spillTable_spec cfg eof st (by rw [htbl]; simp)).2.2.1

/-- One `Consume` step in unsorted mode preserves the run invariant,
advancing the consumed-record list by the record. -/
theorem InvU.consume {ρ τ : Type _} {cfg : Config ρ τ} {st : AggState τ}
    {recs : List ρ} (inv : InvU cfg st recs) (hd0 : cfg.inputDir = 0)
    (hdec : ∀ fn ∈ cfg.aggs, ∀ s, fn.decodePart (fn.resultPart s) = s)
    (har : cfg.aggRefs.length = cfg.aggs.length) (r : ρ) :
    InvU cfg (Consume cfg st r) (recs ++ [r]) := by
  by_cases hsk : skipped cfg r
  · rw [Consume_skipped_dir0 cfg hd0 st r hsk]
    exact inv.skipKeep hsk
  · rw [Consume_dir0 cfg hd0 st r hsk]
    unfold consumeStep
    obtain ⟨hnd2, hold, hmem2, hidx2⟩ :=
      tvtLookup_spec (tysOfK (keyVals cfg r)) inv.ktN
    cases hget : tblGet st.table (flatOfK (keyVals cfg r) ++
        uvarint (tvtLookup st.keyTypes (tysOfK (keyVals cfg r))).1) with
    | some row =>
      have hmem : tysOfK (keyVals cfg r) ∈ st.keyTypes := by
        by_contra hnm
        have hlk1 : (tvtLookup st.keyTypes (tysOfK (keyVals cfg r))).1 =
            st.keyTypes.length := by
          unfold tvtLookup
          rw [if_neg hnm]
        rw [hlk1] at hget
        have hment := tblGet_mem hget
        obtain ⟨k1, hk1, -, henc1, -⟩ := inv.rowKey hment
        have h2 : flatOfK (keyVals cfg r) ++ uvarint st.keyTypes.length =
            flatOfK k1 ++ uvarint (idxOf (tysOfK k1) st.keyTypes) := henc1
        obtain ⟨-, hideq⟩ := flatKey_inj h2
        have := idxOf_lt_length (inv.ktSeenKey hk1)
        omega
      have hlk1 : (tvtLookup st.keyTypes (tysOfK (keyVals cfg r))).1 =
          idxOf (tysOfK (keyVals cfg r)) st.keyTypes := by
        unfold tvtLookup
        rw [if_pos hmem]
      have hlk2 : (tvtLookup st.keyTypes (tysOfK (keyVals cfg r))).2 = st.keyTypes := by
        unfold tvtLookup
        rw [if_pos hmem]
      rw [hlk1] at hget
      rw [hlk1, hlk2]
      show InvU cfg { st with maxTableKey := st.maxTableKey, keyTypes := st.keyTypes, table := tblUpdate st.table (encKey st.keyTypes (keyVals cfg r)) (bumpRow cfg r) } (recs ++ [r])
      have hgoal := inv.bump r hsk har hmem row hget
      exact hgoal
    | none =>
      have hmem1 : tysOfK (keyVals cfg r) ∈
          (tvtLookup st.keyTypes (tysOfK (keyVals cfg r))).2 := hmem2
      have inv1 := inv.extendKT (tysOfK (keyVals cfg r)) st.maxTableKey
      by_cases hlim : effLimit cfg.limit ≤ st.table.length
      · rw [if_pos hlim]
        have invSp := inv1.spillKeep false hdec
        have hKsp : (spillTable cfg false { st with maxTableKey := st.maxTableKey, keyTypes := (tvtLookup st.keyTypes (tysOfK (keyVals cfg r))).2 }).keyTypes = (tvtLookup st.keyTypes (tysOfK (keyVals cfg r))).2 :=
          spillTable_keyTypes cfg false _
        have hgetSp : tblGet (spillTable cfg false { st with maxTableKey := st.maxTableKey, keyTypes := (tvtLookup st.keyTypes (tysOfK (keyVals cfg r))).2 }).table (encKey (spillTable cfg false { st with maxTableKey := st.maxTableKey, keyTypes := (tvtLookup st.keyTypes (tysOfK (keyVals cfg r))).2 }).keyTypes (keyVals cfg r)) = none := by
          rw [invSp.2]
          rfl
        have hres := invSp.1.freshAppend r hsk har (by rw [hKsp]; exact hmem1) hgetSp
        rw [show (tvtLookup st.keyTypes (tysOfK (keyVals cfg r))).1 = idxOf (tysOfK (keyVals cfg r)) (spillTable cfg false { st with maxTableKey := st.maxTableKey, keyTypes := (tvtLookup st.keyTypes (tysOfK (keyVals cfg r))).2 }).keyTypes from by rw [hKsp]; exact hidx2.symm]
        exact hres
      · rw [if_neg hlim]
        have hget1 : tblGet { st with maxTableKey := st.maxTableKey, keyTypes := (tvtLookup st.keyTypes (tysOfK (keyVals cfg r))).2 }.table (encKey { st with maxTableKey := st.maxTableKey, keyTypes := (tvtLookup st.keyTypes (tysOfK (keyVals cfg r))).2 }.keyTypes (keyVals cfg r)) = none := by
          show tblGet st.table (encKey (tvtLookup st.keyTypes (tysOfK (keyVals cfg r))).2 (keyVals cfg r)) = none
          unfold encKey
          rw [hidx2]
          exact hget
        have hres := inv1.freshAppend r hsk har hmem1 hget1
        rw [show (tvtLookup st.keyTypes (tysOfK (keyVals cfg r))).1 = idxOf (tysOfK (keyVals cfg r)) { st with maxTableKey := st.maxTableKey, keyTypes := (tvtLookup st.keyTypes (tysOfK (keyVals cfg r))).2 }.keyTypes from hidx2.symm]
        exact hres

/-! ### The EOF drain: peeling equal-key classes off the merged stream -/

/-- Repeated `nextResultFromSpills`: peel one maximal equal-key run after
another. -/
def peelGroups {ρ τ : Type _} (cfg : Config ρ τ) : Nat → List Out → List Out
  | 0, _ => []
  | _ + 1, [] => []
  | fuel + 1, h :: t =>
    spillGroupOut cfg h (h :: t.takeWhile (keysEqb cfg.inputDir h)) ::
      peelGroups cfg fuel (t.dropWhile (keysEqb cfg.inputDir h))

theorem dropWhile_length_le {α : Type _} (p : α → Bool) (l : List α) :
    (l.dropWhile p).length ≤ l.length :=
  (List.dropWhile_sublist p).length_le

theorem peelGroups_fuel_eq {ρ τ : Type _} (cfg : Config ρ τ) :
    ∀ (f1 f2 : Nat) (s : List Out), s.length ≤ f1 → s.length ≤ f2 →
    peelGroups cfg f1 s = peelGroups cfg f2 s := by
  intro f1
  induction f1 with
  | zero =>
    intro f2 s h1 _
    have hs : s = [] := by
      cases s with
      | nil => rfl
      | cons x t => simp at h1
    subst hs
    cases f2 <;> rfl
  | succ f1 ih =>
    intro f2 s h1 h2
    cases s with
    | nil => cases f2 <;> rfl
    | cons x t =>
      cases f2 with
      | zero => simp at h2
      | succ f2 =>
        simp only [peelGroups]
        congr 1
        have hdw : (t.dropWhile (keysEqb cfg.inputDir x)).length ≤ t.length :=
          dropWhile_length_le _ t
        simp only [List.length_cons] at h1 h2
        exact ih f2 _ (by omega) (by omega)

theorem peelGroups_fuel {ρ τ : Type _} (cfg : Config ρ τ) (fuel : Nat)
    (s : List Out) (h : s.length < fuel) :
    peelGroups cfg fuel s = peelGroups cfg (s.length + 1) s :=
  peelGroups_fuel_eq cfg fuel (s.length + 1) s (by omega) (by omega)

theorem keysLe_congr_right {dir : Int} {a b c : Out} (h : b.keys = c.keys) :
    keysLe dir a b = keysLe dir a c := by
  unfold keysLe keysCmp
  rw [h]

theorem keysLe_antisym {dir : Int} {a b : Out} (h1 : keysLe dir a b = true)
    (h2 : keysLe dir b a = true) : keysEqb dir a b = true := by
  rw [keysLe_iff] at h1 h2
  have hf := cmpFacts_cmpLex (cmpFacts_dirCmp dir)
  have hs := hf.swap_eq a.keys b.keys
  rw [keysEqb]
  rcases hab : keysCmp dir a b with _ | _ | _
  · rw [show keysCmp dir a b = cmpLex (dirCmp dir) a.keys b.keys from rfl] at hab
    rw [hab] at hs
    exact absurd (show keysCmp dir b a = .gt from hs.symm) h2
  · rw [if_pos rfl]
  · exact absurd hab h1

/-- In a sorted stream, every record equal to the head sits in the
`takeWhile` prefix: nothing beyond the `dropWhile` boundary carries the
head's key. -/
theorem dropWhile_sorted_not_eq {dir : Int} {h : Out} :
    ∀ (t : List Out), ((h :: t).Pairwise (fun a b => keysLe dir a b = true)) →
    ∀ o ∈ t.dropWhile (keysEqb dir h), keysEqb dir h o = false := by
  intro t
  induction t with
  | nil => intro _ o ho; simp [List.dropWhile] at ho
  | cons x xs ih =>
    intro hpw o ho
    have hpw2 : (h :: xs).Pairwise (fun a b => keysLe dir a b = true) := by
      rcases List.pairwise_cons.mp hpw with ⟨hh, hxxs⟩
      refine List.pairwise_cons.mpr ⟨?_, (List.pairwise_cons.mp hxxs).2⟩
      intro b hb
      exact hh b (List.mem_cons_of_mem x hb)
    rw [List.dropWhile_cons] at ho
    by_cases hx : keysEqb dir h x = true
    · rw [if_pos hx] at ho
      exact ih hpw2 o ho
    · rw [if_neg hx] at ho
      rcases List.mem_cons.mp ho with h2 | h2
      · subst h2
        exact Bool.not_eq_true _ ▸ (by simpa using hx)
      · by_contra hoe
        have hoe2 : keysEqb dir h o = true := by
          cases he : keysEqb dir h o
          · exact absurd he hoe
          · rfl
        have hkeq : h.keys = o.keys := keysEqb_iff.mp hoe2
        rcases List.pairwise_cons.mp hpw with ⟨hh, hxxs⟩
        have hxo : keysLe dir x o = true :=
          (List.pairwise_cons.mp hxxs).1 o h2
        have hxh : keysLe dir x h = true := by
          rw [keysLe_congr_right hkeq]
          exact hxo
        have hhx : keysLe dir h x = true := hh x (List.mem_cons_self x xs)
        exact hx (keysLe_antisym hhx hxh)

/-- The head's full class in a sorted stream is the head plus the
`takeWhile` run. -/
theorem sorted_class_filter {dir : Int} {h : Out} {t : List Out}
    (hpw : (h :: t).Pairwise (fun a b => keysLe dir a b = true)) :
    (h :: t).filter (fun o => decide (o.keys = h.keys)) =
      h :: t.takeWhile (keysEqb dir h) := by
  rw [List.filter_cons, if_pos (by simp)]
  congr 1
  conv_lhs => rw [← List.takeWhile_append_dropWhile (p := keysEqb dir h) (l := t)]
  rw [List.filter_append]
  have h1 : (t.takeWhile (keysEqb dir h)).filter (fun o => decide (o.keys = h.keys)) =
      t.takeWhile (keysEqb dir h) := by
    rw [List.filter_eq_self]
    intro o ho
    have := (mem_takeWhile ho).2
    rw [keysEqb_iff] at this
    simp [this]
  have h2 : (t.dropWhile (keysEqb dir h)).filter (fun o => decide (o.keys = h.keys)) = [] := by
    rw [List.filter_eq_nil_iff]
    intro o ho
    have := dropWhile_sorted_not_eq t hpw o ho
    rw [show (keysEqb dir h o = false) ↔ ¬(keysEqb dir h o = true) from by simp] at this
    rw [keysEqb_iff] at this
    simp only [decide_eq_true_eq]
    intro hok
    exact this hok.symm
  rw [h1, h2, List.append_nil]

/-- Keys past the head's class are untouched by dropping that class. -/
theorem sorted_other_filter {dir : Int} {h : Out} {t : List Out} {k : List SVal}
    (hk : k ≠ h.keys) :
    (h :: t).filter (fun o => decide (o.keys = k)) =
      (t.dropWhile (keysEqb dir h)).filter (fun o => decide (o.keys = k)) := by
  rw [List.filter_cons, if_neg (by simpa using fun h2 => hk h2.symm)]
  conv_lhs => rw [← List.takeWhile_append_dropWhile (p := keysEqb dir h) (l := t)]
  rw [List.filter_append]
  have h1 : (t.takeWhile (keysEqb dir h)).filter (fun o => decide (o.keys = k)) = [] := by
    rw [List.filter_eq_nil_iff]
    intro o ho
    have := (mem_takeWhile ho).2
    rw [keysEqb_iff] at this
    simp only [decide_eq_true_eq]
    intro hok
    exact hk (by rw [← hok, this])
  rw [h1, List.nil_append]

theorem vecsSum_length {τ : Type _} {n : Nat} :
    ∀ (l : List (List (Multiset τ))) (acc : List (Multiset τ)),
    acc.length = n → (∀ v ∈ l, v.length = n) →
    (l.foldl addVec acc).length = n := by
  intro l
  induction l with
  | nil => intro acc ha _; exact ha
  | cons v vs ih =>
    intro acc ha hl
    simp only [List.foldl_cons]
    refine ih _ ?_ (fun u hu => hl u (List.mem_cons_of_mem v hu))
    rw [addVec_length, ha, hl v (List.mem_cons_self v vs)]
    simp

theorem foldl_addVec_getElem {τ : Type _} {n : Nat} :
    ∀ (l : List (List (Multiset τ))) (acc : List (Multiset τ)),
    acc.length = n → (∀ v ∈ l, v.length = n) → ∀ (i : Nat), i < n →
    (l.foldl addVec acc).getD i 0 =
      (l.map (fun v => v.getD i 0)).foldl (· + ·) (acc.getD i 0) := by
  intro l
  induction l with
  | nil => intro acc _ _ i _; rfl
  | cons v vs ih =>
    intro acc ha hl i hi
    simp only [List.foldl_cons, List.map_cons]
    have hv : v.length = n := hl v (List.mem_cons_self v vs)
    have hlen : (addVec acc v).length = n := by
      rw [addVec_length, ha, hv]; simp
    rw [ih _ hlen (fun u hu => hl u (List.mem_cons_of_mem v hu)) i hi]
    congr 1
    have hia : i < (addVec acc v).length := by omega
    rw [List.getD_eq_getElem _ _ hia]
    unfold addVec
    rw [List.getElem_zipWith]
    rw [List.getD_eq_getElem acc 0 (by omega), List.getD_eq_getElem v 0 (by omega)]

theorem vecsSum_getD {τ : Type _} {n : Nat} (l : List (List (Multiset τ)))
    (hl : ∀ v ∈ l, v.length = n) (i : Nat) (hi : i < n) :
    (vecsSum τ n l).getD i 0 = (l.map (fun v => v.getD i 0)).foldl (· + ·) 0 := by
  unfold vecsSum
  rw [foldl_addVec_getElem l (zeroVecN τ n) (by simp [zeroVecN]) hl i hi]
  congr 1
  rw [List.getD_eq_getElem _ _ (by simp [zeroVecN]; omega)]
  simp [zeroVecN]

/-- `nextResultFromSpills`' group record is the interpreted sum of the
group's decoded partials. -/
theorem spillGroupOut_eq {ρ τ : Type _} (cfg : Config ρ τ) (first : Out)
    (grp : List Out) (hlen : ∀ o ∈ grp, o.aggs.length = cfg.aggs.length) :
    spillGroupOut cfg first grp =
      ⟨first.keys, keyOutAggs cfg.aggs cfg.partialsOut
        (vecsSum τ cfg.aggs.length (grp.map (fun o => decodeVec cfg.aggs o.aggs)))⟩ := by
  have hdlen : ∀ v ∈ grp.map (fun o => decodeVec cfg.aggs o.aggs),
      v.length = cfg.aggs.length := by
    intro v hv
    obtain ⟨o, ho, hov⟩ := List.mem_map.mp hv
    rw [← hov]
    unfold decodeVec
    rw [List.length_zipWith, hlen o ho]
    simp
  have hslen : (vecsSum τ cfg.aggs.length (grp.map (fun o => decodeVec cfg.aggs o.aggs))).length = cfg.aggs.length :=
    vecsSum_length _ _ (by simp [zeroVecN]) hdlen
  unfold spillGroupOut keyOutAggs
  congr 1
  refine List.ext_getElem ?_ ?_
  · rw [List.length_map, List.enum_length, List.length_zipWith, hslen]
    simp
  · intro i h1 h2
    rw [List.getElem_map, List.getElem_enum, List.getElem_zipWith]
    have hi : i < cfg.aggs.length := by
      rw [List.length_map, List.enum_length] at h1
      exact h1
    have hred : (grp.map (fun o => (cfg.aggs.get ⟨i, hi⟩).decodePart (o.aggs.getD i default))).foldl (· + ·) 0 =
        (vecsSum τ cfg.aggs.length (grp.map (fun o => decodeVec cfg.aggs o.aggs))).getD i 0 := by
      rw [vecsSum_getD _ hdlen i hi]
      congr 1
      rw [List.map_map]
      refine List.map_congr_left (fun o ho => ?_)
      show (cfg.aggs.get ⟨i, hi⟩).decodePart (o.aggs.getD i default) =
        (decodeVec cfg.aggs o.aggs).getD i 0
      have hio : i < o.aggs.length := by rw [hlen o ho]; exact hi
      have hidv : i < (decodeVec cfg.aggs o.aggs).length := by
        unfold decodeVec
        rw [List.length_zipWith, hlen o ho]
        simpa using hi
      rw [List.getD_eq_getElem _ _ hidv]
      unfold decodeVec
      rw [List.getElem_zipWith]
      rw [List.getD_eq_getElem _ _ hio]
      rfl
    rw [(List.getD_eq_getElem (vecsSum τ cfg.aggs.length (grp.map (fun o => decodeVec cfg.aggs o.aggs))) 0 (by rw [hslen]; exact hi)).symm]
    simp only []
    rw [List.get_eq_getElem] at hred
    rw [hred]

theorem dedupF_filter_head {α : Type _} [DecidableEq α] (x : α) :
    ∀ (A B : List α), (∀ a ∈ A, a = x) →
    (dedupF (A ++ B)).filter (fun b => decide (b ≠ x)) =
      (dedupF B).filter (fun b => decide (b ≠ x)) := by
  intro A
  induction A with
  | nil => intro B _; rfl
  | cons a A2 ih =>
    intro B hall
    have hax : a = x := hall a (List.mem_cons_self a A2)
    subst hax
    rw [show dedupF ((a :: A2) ++ B) = a :: ((dedupF (A2 ++ B)).filter (fun b => decide (b ≠ a))) from rfl]
    rw [List.filter_cons, if_neg (by simp)]
    rw [List.filter_filter]
    have hff : (dedupF (A2 ++ B)).filter (fun b => decide (b ≠ a) && decide (b ≠ a)) =
        (dedupF (A2 ++ B)).filter (fun b => decide (b ≠ a)) :=
      List.filter_congr (fun b _ => by cases hba : decide (b ≠ a) <;> simp [hba])
    rw [hff]
    exact ih B (fun u hu => hall u (List.mem_cons_of_mem a hu))

theorem dedupF_filter_none {α : Type _} [DecidableEq α] (x : α) (B : List α)
    (h : ∀ b ∈ B, b ≠ x) :
    (dedupF B).filter (fun b => decide (b ≠ x)) = dedupF B := by
  rw [List.filter_eq_self]
  intro b hb
  exact decide_eq_true (h b (mem_dedupF.mp hb))

/-- Peeling the whole sorted stream yields exactly one record per distinct
key, keyed by its class's key tuple, with the interpreted sum of the
class's decoded partials. -/
theorem peelGroups_spec {ρ τ : Type _} (cfg : Config ρ τ) :
    ∀ (fuel : Nat) (S : List Out), S.length < fuel →
    S.Pairwise (fun a b => keysLe cfg.inputDir a b = true) →
    (∀ o ∈ S, o.aggs.length = cfg.aggs.length) →
    peelGroups cfg fuel S = (dedupF (S.map Out.keys)).map (fun k =>
      ⟨k, keyOutAggs cfg.aggs cfg.partialsOut (vecsSum τ cfg.aggs.length
        ((S.filter (fun o => decide (o.keys = k))).map (fun o => decodeVec cfg.aggs o.aggs)))⟩) := by
  intro fuel
  induction fuel with
  | zero => intro S h; omega
  | succ fuel ih =>
    intro S hlen hsort hal
    cases S with
    | nil => rfl
    | cons h t =>
      simp only [peelGroups]
      have htdw : (t.dropWhile (keysEqb cfg.inputDir h)).length ≤ t.length :=
        dropWhile_length_le _ t
      have hdwsub : (t.dropWhile (keysEqb cfg.inputDir h)).Sublist (h :: t) :=
        (List.dropWhile_sublist _).trans (List.sublist_cons_self h t)
      have hih := ih (t.dropWhile (keysEqb cfg.inputDir h))
        (by simp only [List.length_cons] at hlen; omega)
        (hsort.sublist hdwsub) (fun o ho => hal o (hdwsub.mem ho))
      have hdk : dedupF ((h :: t).map Out.keys) =
          h.keys :: dedupF ((t.dropWhile (keysEqb cfg.inputDir h)).map Out.keys) := by
        rw [show (h :: t).map Out.keys = h.keys :: t.map Out.keys from rfl]
        rw [show dedupF (h.keys :: t.map Out.keys) =
          h.keys :: ((dedupF (t.map Out.keys)).filter (fun b => decide (b ≠ h.keys))) from rfl]
        congr 1
        conv_lhs => rw [← List.takeWhile_append_dropWhile (p := keysEqb cfg.inputDir h) (l := t)]
        rw [List.map_append]
        rw [dedupF_filter_head h.keys _ _ (by
          intro a ha
          obtain ⟨o, ho, hoa⟩ := List.mem_map.mp ha
          rw [← hoa]
          exact (keysEqb_iff.mp (mem_takeWhile ho).2).symm)]
        refine dedupF_filter_none h.keys _ ?_
        intro b hb
        obtain ⟨o, ho, hob⟩ := List.mem_map.mp hb
        have := dropWhile_sorted_not_eq t hsort o ho
        intro hbk
        rw [← hob] at hbk
        rw [show keysEqb cfg.inputDir h o = true from keysEqb_iff.mpr hbk.symm] at this
        exact Bool.true_eq_false.mp this
      rw [hdk, List.map_cons]
      congr 1
      · rw [spillGroupOut_eq cfg h (h :: t.takeWhile (keysEqb cfg.inputDir h)) (by
          intro o ho
          have hosub : (h :: t.takeWhile (keysEqb cfg.inputDir h)).Sublist (h :: t) :=
            List.Sublist.cons₂ h (List.takeWhile_sublist _)
          exact hal o (hosub.mem ho))]
        rw [← sorted_class_filter hsort]
      · rw [hih]
        refine List.map_congr_left (fun k hk => ?_)
        have hkne : k ≠ h.keys := by
          intro hkk
          have := mem_dedupF.mp hk
          obtain ⟨o, ho, hok⟩ := List.mem_map.mp this
          have h2 := dropWhile_sorted_not_eq t hsort o ho
          rw [show keysEqb cfg.inputDir h o = true from
            keysEqb_iff.mpr (by rw [hok, hkk])] at h2
          exact Bool.true_eq_false.mp h2
        rw [← sorted_other_filter hkne]

/-- One EOF batch of the spill drain: whole classes are peeled until the
stream empties or the batch cap is hit; peeling the remainder continues
exactly where the batch stopped. -/
theorem readSpillsLoop_eof_spec {ρ τ : Type _} (cfg : Config ρ τ)
    (msk : Option SVal) :
    ∀ (fuel : Nat) (stream acc : List Out), stream.length < fuel →
    ∃ outs rest,
      readSpillsLoop cfg true msk fuel stream acc = (acc.reverse ++ outs, rest) ∧
      outs ++ peelGroups cfg (rest.length + 1) rest =
        peelGroups cfg (stream.length + 1) stream ∧
      rest.Sublist stream ∧
      (stream ≠ [] → acc = [] → outs ≠ []) ∧
      (outs ≠ [] → rest.length < stream.length) := by
  intro fuel
  induction fuel with
  | zero => intro stream acc h; omega
  | succ fuel ih =>
    intro stream acc hlen
    by_cases hcap : opBatchLen ≤ acc.length
    · refine ⟨[], stream, ?_, by simp, List.Sublist.refl _, ?_, by simp⟩
      · rw [readSpillsLoop_cap cfg true msk fuel stream acc hcap]
        simp
      · intro _ hacc
        rw [hacc] at hcap
        simp [opBatchLen] at hcap
    · cases stream with
      | nil =>
        refine ⟨[], [], ?_, by simp, List.Sublist.refl _, by simp, by simp⟩
        rw [readSpillsLoop_nil cfg true msk fuel acc hcap]
        simp
      | cons h t =>
        rw [readSpillsLoop_eof_go cfg msk fuel h t acc hcap]
        have hdwlen : (t.dropWhile (keysEqb cfg.inputDir h)).length ≤ t.length :=
          dropWhile_length_le _ t
        simp only [List.length_cons] at hlen
        obtain ⟨outs2, rest, heq, hpeel, hsub, -, -⟩ :=
          ih (t.dropWhile (keysEqb cfg.inputDir h))
            (spillGroupOut cfg h (h :: t.takeWhile (keysEqb cfg.inputDir h)) :: acc)
            (by omega)
        refine ⟨spillGroupOut cfg h (h :: t.takeWhile (keysEqb cfg.inputDir h)) :: outs2,
          rest, ?_, ?_, ?_, by simp, ?_⟩
        · rw [heq]
          simp
        · rw [List.cons_append, hpeel]
          show _ = peelGroups cfg (t.length + 1 + 1) (h :: t)
          rw [show peelGroups cfg (t.length + 1 + 1) (h :: t) =
            spillGroupOut cfg h (h :: t.takeWhile (keysEqb cfg.inputDir h)) ::
              peelGroups cfg (t.length + 1) (t.dropWhile (keysEqb cfg.inputDir h)) from rfl]
          congr 1
          exact peelGroups_fuel_eq cfg _ _ _ (by omega) (by omega)
        · exact hsub.trans ((List.dropWhile_sublist _).trans (List.sublist_cons_self h t))
        · intro _
          have := hsub.length_le
          simp only [List.length_cons]
          omega

/-- Draining at EOF from an empty table with a live spiller yields, over all
batches, exactly the peeled classes of the merged stream. -/
theorem drainLoop_eof_spec {ρ τ : Type _} (cfg : Config ρ τ) :
    ∀ (fuel : Nat) (st : AggState τ) (acc : List (List Out)) (stream : List Out),
    st.spiller = some stream → st.table = [] → stream.length + 1 < fuel →
    ∃ batches st2,
      drainLoop cfg true fuel st acc = (acc.reverse ++ batches, st2) ∧
      batches.flatten = peelGroups cfg (stream.length + 1) stream := by
  intro fuel
  induction fuel with
  | zero => intro st acc stream _ _ h; omega
  | succ fuel ih =>
    intro st acc stream hsp htbl hlen
    have hstep : drainLoop cfg true (fuel + 1) st acc =
        (match nextResult cfg true st with
         | (none, st1) => (acc.reverse, st1)
         | (some recs, st1) => drainLoop cfg true fuel st1 (recs :: acc)) := rfl
    have hnr : nextResult cfg true st = readSpills cfg true st := by
      unfold nextResult
      rw [hsp]
      show readSpills cfg true (spillTable cfg true st) = readSpills cfg true st
      rw [spillTable_empty cfg true st htbl]
    obtain ⟨outs, rest, heq, hpeel, hsub, hne, hprog⟩ :=
      readSpillsLoop_eof_spec cfg st.maxSpillKey (stream.length + 1) stream []
        (by omega)
    have hrs : readSpills cfg true st =
        (if outs.isEmpty then (none, st)
         else (some outs, { st with spiller := some rest })) := by
      unfold readSpills
      rw [hsp]
      simp only [Bool.not_true, Bool.false_and, Bool.false_eq_true, if_false,
        Option.getD_some]
      rw [heq]
      simp
    cases houts : outs with
    | nil =>
      have hstream : stream = [] := by
        by_contra hne2
        exact (hne hne2 rfl) houts
      refine ⟨[], st, ?_, by rw [hstream]; rfl⟩
      rw [hstep, hnr, hrs, houts]
      simp
    | cons o1 os =>
      have houtsne : outs.isEmpty = false := by rw [houts]; rfl
      have houtne : outs ≠ [] := by rw [houts]; simp
      obtain ⟨batches2, st3, heq2, hflat2⟩ :=
        ih { st with spiller := some rest } (outs :: acc) rest rfl htbl
          (by have := hprog houtne; omega)
      have hstep2 : drainLoop cfg true (fuel + 1) st acc =
          drainLoop cfg true fuel { st with spiller := some rest } (outs :: acc) := by
        rw [hstep, hnr, hrs, if_neg (by rw [houtsne]; simp)]
      refine ⟨outs :: batches2, st3, ?_, ?_⟩
      · rw [hstep2, heq2]
        simp
      · rw [List.flatten_cons, hflat2, hpeel]

/-- Draining at EOF with no spiller: one flush batch of the whole table
(none when it is empty). -/
theorem drainLoop_noSpill_spec {ρ τ : Type _} (cfg : Config ρ τ) (fuel : Nat)
    (st : AggState τ) (acc : List (List Out)) (hsp : st.spiller = none)
    (hfuel : 1 < fuel) :
    ∃ st2, drainLoop cfg true fuel st acc =
      (acc.reverse ++ (if st.table.isEmpty then [] else
        [st.table.map (fun e => rowOut cfg st.keyTypes cfg.partialsOut e.1 e.2)]), st2) := by
  obtain ⟨k, rfl⟩ : ∃ k, fuel = k + 2 := ⟨fuel - 2, by omega⟩
  have hstep : ∀ (f : Nat) (s : AggState τ) (a : List (List Out)),
      drainLoop cfg true (f + 1) s a =
      (match nextResult cfg true s with
       | (none, st1) => (a.reverse, st1)
       | (some recs, st1) => drainLoop cfg true f st1 (recs :: a)) := fun _ _ _ => rfl
  have hnr : nextResult cfg true st = readTable cfg true cfg.partialsOut st := by
    unfold nextResult
    rw [hsp]
  by_cases htbl : st.table = []
  · refine ⟨st, ?_⟩
    rw [show (k + 2) = (k + 1) + 1 from rfl, hstep, hnr,
      readTable_flush_of_empty cfg cfg.partialsOut st htbl]
    rw [show st.table.isEmpty = true from by rw [htbl]; rfl]
    simp
  · refine ⟨{ st with table := [] }, ?_⟩
    rw [show (k + 2) = (k + 1) + 1 from rfl, hstep, hnr,
      readTable_flush_of_ne cfg cfg.partialsOut st htbl]
    have hnr2 : nextResult cfg true { st with table := [] } =
        readTable cfg true cfg.partialsOut { st with table := [] } := by
      unfold nextResult
      rw [show ({ st with table := [] } : AggState τ).spiller = none from hsp]
    have hstep2 : (match (some (st.table.map (fun e => rowOut cfg st.keyTypes cfg.partialsOut e.1 e.2)), ({ st with table := [] } : AggState τ)) with
        | (none, st1) => (acc.reverse, st1)
        | (some recs, st1) => drainLoop cfg true (k + 1) st1 (recs :: acc)) =
        drainLoop cfg true (k + 1) { st with table := [] }
          ((st.table.map (fun e => rowOut cfg st.keyTypes cfg.partialsOut e.1 e.2)) :: acc) := rfl
    rw [hstep2, hstep, hnr2, readTable_flush_of_empty cfg cfg.partialsOut _ rfl]
    rw [show st.table.isEmpty = false from by
      cases h2 : st.table with
      | nil => exact absurd h2 htbl
      | cons a b => rfl]
    simp

/-- In unsorted mode the producer loop is: consume everything, then the EOF
drain. -/
theorem runBatches_dir0 {ρ τ : Type _} (cfg : Config ρ τ)
    (hd : cfg.inputDir = 0) :
    ∀ (bs : List (List ρ)) (st : AggState τ),
    runBatches cfg bs st =
      drainLoop cfg true (stMeasure (bs.flatten.foldl (Consume cfg) st) + 2)
        (bs.flatten.foldl (Consume cfg) st) [] := by
  intro bs
  induction bs with
  | nil => intro st; rfl
  | cons b bs2 ih =>
    intro st
    have hb : (cfg.inputDir == 0) = true := by simp [hd]
    show (if cfg.inputDir == 0 then runBatches cfg bs2 (consumeBatch cfg st b)
      else _) = _
    rw [hb, if_pos rfl, ih (consumeBatch cfg st b)]
    rw [show (b :: bs2).flatten = b ++ bs2.flatten from rfl, List.foldl_append]
    rfl

/-- Consuming a whole record list preserves the invariant. -/
theorem InvU.consumeList {ρ τ : Type _} {cfg : Config ρ τ}
    (hd0 : cfg.inputDir = 0)
    (hdec : ∀ fn ∈ cfg.aggs, ∀ s, fn.decodePart (fn.resultPart s) = s)
    (har : cfg.aggRefs.length = cfg.aggs.length) :
    ∀ (rs : List ρ) (st : AggState τ) (recs : List ρ), InvU cfg st recs →
    InvU cfg (rs.foldl (Consume cfg) st) (recs ++ rs) := by
  intro rs
  induction rs with
  | nil => intro st recs inv; rw [List.append_nil]; exact inv
  | cons r rs2 ih =>
    intro st recs inv
    rw [show recs ++ r :: rs2 = (recs ++ [r]) ++ rs2 from by simp]
    exact ih (Consume cfg st r) (recs ++ [r]) (inv.consume hd0 hdec har r)

theorem filter_eq_of_mem_nodup {τ : Type _} {t : List (Bytes × Row τ)}
    {e : Bytes × Row τ} (hnd : (t.map Prod.fst).Nodup) (he : e ∈ t) :
    t.filter (fun x => decide (x.1 = e.1)) = [e] := by
  induction t with
  | nil => simp at he
  | cons a t2 ih =>
    rw [List.map_cons, List.nodup_cons] at hnd
    rcases List.mem_cons.mp he with h2 | h2
    · subst h2
      rw [List.filter_cons, if_pos (by simp)]
      have hnone : t2.filter (fun x => decide (x.1 = e.1)) = [] := by
        rw [List.filter_eq_nil_iff]
        intro a2 ha2
        simp only [decide_eq_true_eq]
        intro hae
        exact hnd.1 (by rw [← hae]; exact List.mem_map_of_mem Prod.fst ha2)
      rw [hnone]
    · have hae : ¬(a.1 = e.1) := by
        intro h3
        exact hnd.1 (by rw [h3]; exact List.mem_map_of_mem Prod.fst h2)
      rw [List.filter_cons, if_neg (by simpa using hae)]
      exact ih hnd.2 h2

theorem perm_of_nodup_ext {α : Type _} {l1 l2 : List α} (h1 : l1.Nodup)
    (h2 : l2.Nodup) (h : ∀ a, a ∈ l1 ↔ a ∈ l2) : l1.Perm l2 :=
  (List.subperm_of_subset h1 (fun a ha => (h a).mp ha)).antisymm
    (List.subperm_of_subset h2 (fun a ha => (h a).mpr ha))

theorem rowOut_keys_pout {ρ τ : Type _} (cfg : Config ρ τ)
    (kts : List (List Nat)) (pOut : Bool) (kb : Bytes) (row : Row τ) :
    (rowOut cfg kts pOut kb row).keys = (rowOut cfg kts true kb row).keys := rfl

theorem spillTable_some_spiller {ρ τ : Type _} (cfg : Config ρ τ) (eof : Bool)
    (st : AggState τ) (s0 : List Out) (hsp : st.spiller = some s0) :
    ∃ S, (spillTable cfg eof st).spiller = some S ∧
      S.length = st.table.length + s0.length := by
  by_cases htbl : st.table = []
  · refine ⟨s0, ?_, by rw [htbl]; simp⟩
    rw [spillTable_empty cfg eof st htbl]
    exact hsp
  · obtain ⟨-, hS, -, -⟩ := spillTable_spec cfg eof st htbl
    refine ⟨_, hS, ?_⟩
    have := (sortBy_perm (keysLe cfg.inputDir)
      (st.spiller.getD [] ++ st.table.map (fun e => rowOut cfg st.keyTypes true e.1 e.2))).length_eq
    rw [this, List.length_append, List.length_map, hsp]
    simp [Nat.add_comm]

/-- The unsorted-mode master theorem: the multiset of records a run delivers
equals the canonical group-by semantics of its flattened input, for every
limit, under decomposable aggregates. -/
theorem unsortedRun_canonical {ρ τ : Type _} (cfg : Config ρ τ)
    (hd0 : cfg.inputDir = 0)
    (hdec : ∀ fn ∈ cfg.aggs, ∀ s, fn.decodePart (fn.resultPart s) = s)
    (har : cfg.aggRefs.length = cfg.aggs.length)
    (batches : List (List ρ)) :
    ((opRunOuts cfg batches : List Out) : Multiset Out) =
      ((canonicalOuts cfg batches.flatten : List Out) : Multiset Out) := by
  have invF : InvU cfg (batches.flatten.foldl (Consume cfg) initState)
      batches.flatten := by
    have h := InvU.consumeList hd0 hdec har batches.flatten initState []
      (InvU.initial cfg)
    simpa using h
  have hrun : opRunOuts cfg batches =
      ((drainLoop cfg true (stMeasure (batches.flatten.foldl (Consume cfg) initState) + 2)
        (batches.flatten.foldl (Consume cfg) initState) []).1).flatten := by
    unfold opRunOuts opRun
    rw [runBatches_dir0 cfg hd0]
  set recs := batches.flatten with hrecs
  set stF := recs.foldl (Consume cfg) initState with hstF
  cases hspl : stF.spiller with
  | none =>
    obtain ⟨st2, hdr⟩ := drainLoop_noSpill_spec cfg (stMeasure stF + 2) stF []
      hspl (by omega)
    rw [hrun, hdr]
    by_cases htbl : stF.table = []
    · rw [show stF.table.isEmpty = true from by rw [htbl]; rfl]
      have hks : dedupF (keysSeen cfg recs) = [] := by
        cases hd : dedupF (keysSeen cfg recs) with
        | nil => rfl
        | cons k ks =>
          have hk : k ∈ keysSeen cfg recs :=
            mem_dedupF.mp (hd ▸ List.mem_cons_self k ks)
          rcases invF.support k hk with ⟨e, he, -⟩ | ⟨o, ho, -⟩
          · rw [htbl] at he; simp at he
          · rw [spillStream, hspl] at ho; simp at ho
      show ((([] : List (List Out)).reverse ++ []).flatten : Multiset Out) = _
      rw [show canonicalOuts cfg recs =
        (dedupF (keysSeen cfg recs)).map (fun k =>
          ⟨k, keyOutAggs cfg.aggs cfg.partialsOut (cfReds cfg recs k)⟩) from rfl, hks]
      rfl
    · rw [show stF.table.isEmpty = false from by
        cases h2 : stF.table with
        | nil => exact absurd h2 htbl
        | cons a b => rfl]
      have hkeysnd : (stF.table.map (rowKeyOf cfg stF)).Nodup := by
        refine List.Nodup.map_on ?_ (List.Nodup.of_map Prod.fst invF.tblN)
        intro x hx y hy hxy
        obtain ⟨kx, hkx, hrkx, hencx, -⟩ := invF.rowKey hx
        obtain ⟨ky, hky, hrky, hency, -⟩ := invF.rowKey hy
        have hfst : x.1 = y.1 := by
          rw [hencx, hency, ← hrkx, ← hrky, hxy]
        exact List.inj_on_of_nodup_map invF.tblN hx hy hfst
      have hmemiff : ∀ k, k ∈ stF.table.map (rowKeyOf cfg stF) ↔
          k ∈ dedupF (keysSeen cfg recs) := by
        intro k
        rw [mem_dedupF]
        constructor
        · intro hk
          obtain ⟨e, he, hek⟩ := List.mem_map.mp hk
          obtain ⟨k0, hk0, hrk0, -, -⟩ := invF.rowKey he
          rw [← hek, hrk0]
          exact hk0
        · intro hk
          rcases invF.support k hk with ⟨e, he, hek⟩ | ⟨o, ho, -⟩
          · exact List.mem_map.mpr ⟨e, he, hek⟩
          · rw [spillStream, hspl] at ho; simp at ho
      have hperm : (stF.table.map (rowKeyOf cfg stF)).Perm
          (dedupF (keysSeen cfg recs)) :=
        perm_of_nodup_ext hkeysnd (nodup_dedupF _) hmemiff
      have hrowfn : ∀ e ∈ stF.table,
          rowOut cfg stF.keyTypes cfg.partialsOut e.1 e.2 =
            (⟨rowKeyOf cfg stF e, keyOutAggs cfg.aggs cfg.partialsOut
              (cfReds cfg recs (rowKeyOf cfg stF e))⟩ : Out) := by
        intro e he
        have hsc : spillConts cfg stF (rowKeyOf cfg stF e) = [] := by
          unfold spillConts spillStream
          rw [hspl]
          rfl
        obtain ⟨k0, hk0, hrk0, henc0, -⟩ := invF.rowKey he
        have htc : tableConts cfg stF (rowKeyOf cfg stF e) = [e.2.reducers] := by
          unfold tableConts
          have hfeq : stF.table.filter
              (fun x => decide (rowKeyOf cfg stF x = rowKeyOf cfg stF e)) =
              stF.table.filter (fun x => decide (x.1 = e.1)) := by
            refine List.filter_congr (fun x hx => ?_)
            obtain ⟨kx, hkx, hrkx, hencx, -⟩ := invF.rowKey hx
            by_cases h2 : rowKeyOf cfg stF x = rowKeyOf cfg stF e
            · rw [decide_eq_true h2, decide_eq_true
                (show x.1 = e.1 from by rw [hencx, henc0, ← hrkx, ← hrk0, h2])]
            · have h3 : ¬(x.1 = e.1) := by
                intro h4
                apply h2
                rw [hrkx, hrk0]
                refine encKey_inj (invF.ktSeenKey hkx) (invF.ktSeenKey hk0) ?_
                rw [← hencx, ← henc0]
                exact h4
              rw [decide_eq_false h2, decide_eq_false h3]
          rw [hfeq, filter_eq_of_mem_nodup invF.tblN he]
          rfl
        have hacc := invF.account (rowKeyOf cfg stF e)
        rw [htc, hsc, List.append_nil] at hacc
        have hred : e.2.reducers = cfReds cfg recs (rowKeyOf cfg stF e) := by
          rw [← hacc]
          unfold vecsSum
          simp only [List.foldl_cons, List.foldl_nil]
          rw [show (zeroVecN τ cfg.aggs.length) =
            zeroVecN τ (e.2.reducers).length from by rw [invF.tblLen e he]]
          exact (addVec_zero_left _).symm
        have hkeys : (rowOut cfg stF.keyTypes cfg.partialsOut e.1 e.2).keys =
            rowKeyOf cfg stF e := by
          rw [rowOut_keys_pout]
          rfl
        have haggs : (rowOut cfg stF.keyTypes cfg.partialsOut e.1 e.2).aggs =
            keyOutAggs cfg.aggs cfg.partialsOut
              (cfReds cfg recs (rowKeyOf cfg stF e)) := by
          rw [rowOut_aggs, ← hred]
          rfl
        calc rowOut cfg stF.keyTypes cfg.partialsOut e.1 e.2
            = ⟨(rowOut cfg stF.keyTypes cfg.partialsOut e.1 e.2).keys,
               (rowOut cfg stF.keyTypes cfg.partialsOut e.1 e.2).aggs⟩ := rfl
          _ = _ := by rw [hkeys, haggs]
      show ((([] : List (List Out)).reverse ++
        [stF.table.map (fun e => rowOut cfg stF.keyTypes cfg.partialsOut e.1 e.2)]).flatten : Multiset Out) = _
      simp only [List.reverse_nil, List.nil_append, List.flatten_cons,
        List.flatten_nil, List.append_nil]
      rw [Multiset.coe_eq_coe]
      have hfinal : (stF.table.map (fun e => (⟨rowKeyOf cfg stF e,
          keyOutAggs cfg.aggs cfg.partialsOut
            (cfReds cfg recs (rowKeyOf cfg stF e))⟩ : Out))).Perm
          (canonicalOuts cfg recs) := by
        have h2 := hperm.map (fun k =>
          (⟨k, keyOutAggs cfg.aggs cfg.partialsOut (cfReds cfg recs k)⟩ : Out))
        rw [List.map_map] at h2
        exact h2
      rw [List.map_congr_left hrowfn]
      exact hfinal
  | some s0 =>
    have invSp := invF.spillKeep true hdec
    obtain ⟨S, hS, hSlen⟩ := spillTable_some_spiller cfg true stF s0 hspl
    have hSm : S.length ≤ stMeasure stF := by
      rw [hSlen]
      unfold stMeasure
      rw [hspl]
      simp
    have hstreamS : spillStream (spillTable cfg true stF) = S := by
      rw [spillStream, hS]
      rfl
    have hsteq : drainLoop cfg true (stMeasure stF + 2) stF [] =
        drainLoop cfg true (stMeasure stF + 2) (spillTable cfg true stF) [] := by
      have hA : nextResult cfg true stF = readSpills cfg true (spillTable cfg true stF) := by
        unfold nextResult
        rw [hspl]
        rfl
      have hB : nextResult cfg true (spillTable cfg true stF) =
          readSpills cfg true (spillTable cfg true stF) := by
        unfold nextResult
        rw [hS]
        show readSpills cfg true (spillTable cfg true (spillTable cfg true stF)) = _
        rw [spillTable_empty cfg true _ invSp.2]
      show (match nextResult cfg true stF with
        | (none, st1) => (([] : List (List Out)).reverse, st1)
        | (some recs2, st1) =>
          drainLoop cfg true (stMeasure stF + 1) st1 (recs2 :: [])) =
        (match nextResult cfg true (spillTable cfg true stF) with
        | (none, st1) => (([] : List (List Out)).reverse, st1)
        | (some recs2, st1) =>
          drainLoop cfg true (stMeasure stF + 1) st1 (recs2 :: []))
      rw [hA, hB]
    obtain ⟨batchesD, st2, hdr, hflat⟩ := drainLoop_eof_spec cfg
      (stMeasure stF + 2) (spillTable cfg true stF) [] S hS invSp.2 (by omega)
    rw [hrun, hsteq, hdr]
    show ((([] : List (List Out)).reverse ++ batchesD).flatten : Multiset Out) = _
    simp only [List.reverse_nil, List.nil_append]
    rw [hflat]
    have hsorted : S.Pairwise (fun a b => keysLe cfg.inputDir a b = true) := by
      have := invSp.1.spSorted
      rw [hstreamS] at this
      exact this
    have hlens : ∀ o ∈ S, o.aggs.length = cfg.aggs.length := by
      intro o ho
      have := invSp.1.spLen o
      rw [hstreamS] at this
      exact this ho
    rw [peelGroups_spec cfg (S.length + 1) S (by omega) hsorted hlens]
    have hvs : ∀ k, vecsSum τ cfg.aggs.length
        ((S.filter (fun o => decide (o.keys = k))).map
          (fun o => decodeVec cfg.aggs o.aggs)) = cfReds cfg recs k := by
      intro k
      have hacc := invSp.1.account k
      have htc : tableConts cfg (spillTable cfg true stF) k = [] := by
        unfold tableConts
        rw [invSp.2]
        rfl
      have hscS : spillConts cfg (spillTable cfg true stF) k =
          (S.filter (fun o => decide (o.keys = k))).map
            (fun o => decodeVec cfg.aggs o.aggs) := by
        unfold spillConts
        rw [hstreamS]
      rw [htc, List.nil_append, hscS] at hacc
      exact hacc
    have hmemiff : ∀ k, k ∈ dedupF (S.map Out.keys) ↔
        k ∈ dedupF (keysSeen cfg recs) := by
      intro k
      rw [mem_dedupF, mem_dedupF]
      constructor
      · intro hk
        obtain ⟨o, ho, hok⟩ := List.mem_map.mp hk
        rw [← hok]
        have := invSp.1.spKey o
        rw [hstreamS] at this
        exact this ho
      · intro hk
        rcases invSp.1.support k hk with ⟨e, he, -⟩ | ⟨o, ho, hok⟩
        · rw [invSp.2] at he; simp at he
        · rw [hstreamS] at ho
          exact List.mem_map.mpr ⟨o, ho, hok⟩
    have hperm : (dedupF (S.map Out.keys)).Perm (dedupF (keysSeen cfg recs)) :=
      perm_of_nodup_ext (nodup_dedupF _) (nodup_dedupF _) hmemiff
    rw [Multiset.coe_eq_coe]
    rw [List.map_congr_left (fun k _ => by
      rw [hvs k] :
      ∀ k ∈ dedupF (S.map Out.keys),
        (⟨k, keyOutAggs cfg.aggs cfg.partialsOut (vecsSum τ cfg.aggs.length
          ((S.filter (fun o => decide (o.keys = k))).map
            (fun o => decodeVec cfg.aggs o.aggs)))⟩ : Out) =
        (⟨k, keyOutAggs cfg.aggs cfg.partialsOut (cfReds cfg recs k)⟩ : Out))]
    exact hperm.map _

/-! ### C1: spill equivalence

The original claim quantifies over every input sequence.  In sorted mode
(`inputDir ≠ 0`) it fails: `maxSpillKey` only tracks keys of spilled runs
while `maxTableKey` also advances on skipped records, so a run with spilling
can hold a group back (and later merge it) where the unbounded run early-emits
it in two pieces.  The amended claim restricts to unsorted mode (`inputDir
= 0`), where the output multiset is limit-independent. -/

theorem natSort_perm_eq {l1 l2 : List Nat} (h : l1.Perm l2) :
    sortBy (fun a b => decide (a ≤ b)) l1 = sortBy (fun a b => decide (a ≤ b)) l2 := by
  have htot : ∀ a b : Nat, (decide (a ≤ b) || decide (b ≤ a)) = true := by
    intro a b; rcases Nat.le_total a b with h1 | h1 <;> simp [h1]
  have htr : ∀ a b c : Nat, decide (a ≤ b) = true → decide (b ≤ c) = true →
      decide (a ≤ c) = true := by
    intro a b c h1 h2; simp at *; omega
  have hp : (sortBy (fun a b => decide (a ≤ b)) l1).Perm
      (sortBy (fun a b => decide (a ≤ b)) l2) :=
    ((sortBy_perm _ l1).trans h).trans (sortBy_perm _ l2).symm
  have hs1 : List.Sorted (fun a b : Nat => a ≤ b) (sortBy (fun a b => decide (a ≤ b)) l1) :=
    ((sortBy_pairwise htot htr l1).imp (fun h => of_decide_eq_true h))
  have hs2 : List.Sorted (fun a b : Nat => a ≤ b) (sortBy (fun a b => decide (a ≤ b)) l2) :=
    ((sortBy_pairwise htot htr l2).imp (fun h => of_decide_eq_true h))
  exact @List.eq_of_perm_of_sorted Nat (fun a b => a ≤ b) inferInstance _ _ hp hs1 hs2

/-- Canonical sorted-list form of a multiset of naturals (the encoding used
by the collect-style fixture aggregate). -/
def msSorted (s : Multiset Nat) : List Nat :=
  Quotient.lift (fun l => sortBy (fun a b => decide (a ≤ b)) l)
    (fun _ _ h => natSort_perm_eq h) s

theorem msSorted_coe (s : Multiset Nat) :
    ((msSorted s : List Nat) : Multiset Nat) = s := by
  refine Quotient.inductionOn s ?_
  intro l
  have h1 : msSorted ⟦l⟧ = sortBy (fun a b => decide (a ≤ b)) l := rfl
  rw [Multiset.quot_mk_to_coe] at h1 ⊢
  rw [h1]
  exact Multiset.coe_eq_coe.mpr (sortBy_perm _ l)

/-- A collect-style aggregate over `Nat` contributions: the partial encodes
the state losslessly (as a sorted list), so `decodePart ∘ resultPart = id` —
the decomposability hypothesis of the spill claims holds for it on the nose. -/
def wCollect : AggFn Nat where
  result := fun s => ⟨9, some (msSorted s)⟩
  resultPart := fun s => ⟨8, some (msSorted s)⟩
  decodePart := fun v => match v.bytes with
    | some bs => (bs : Multiset Nat)
    | none => 0

theorem wCollect_decomp (s : Multiset Nat) :
    wCollect.decodePart (wCollect.resultPart s) = s := msSorted_coe s

/-- Secondary key used by the C1 fixture: quiet (type id 7) when the record's
second field is zero, otherwise a record-independent constant — so skipped
records advance only the primary watermark, and all unskipped records with
equal first fields share a full key tuple. -/
def wKeyC : WRec → SVal := fun r => if r.2 = 0 then ⟨7, some []⟩ else ⟨2, some [0]⟩

/-- Sorted-mode (ascending) collect configuration used by the C1
counterexample. -/
def c1cfgS (lim : Nat) : Config WRec Nat where
  keyExprs := [wKeyA, wKeyC]
  keyExpr0Out := fun o => o.keys.getD 0 default
  aggRefs := [fun r => ⟨8, some [r.2]⟩]
  aggs := [wCollect]
  applyRec := fun r => r.2
  isQuiet := fun v => v.tid == 7
  isError := fun _ => false
  limit := lim
  inputDir := 1
  partialsIn := false
  partialsOut := false

/-- Input refuting the original C1: key 1 spills before the quiet record
`(9,0)` advances `maxTableKey` to 9; with `limit = 1` the spill drain holds
key 1 back (its key is not below `maxSpillKey`) and later merges both of its
records, while the unbounded run early-emits them as two separate groups. -/
def c1batches : List (List WRec) := [[(1,7),(0,5)],[(9,0)],[(1,9)]]

/-- Unsorted-mode variant of the collect configuration (for the amended
claim's witness). -/
def c1cfgU (lim : Nat) : Config WRec Nat := { c1cfgS lim with inputDir := 0 }

/-- C1 (original claim, refuted): a sorted-mode run with a fully decomposable
aggregate, `limit = 1 ≥ 1`, and an unbounded comparison run in which no spill
is ever triggered (its final spiller is still `none`), whose output multisets
differ. -/
theorem C1_spill_equivalence_counterexample :
    (∀ fn ∈ (c1cfgS 1).aggs, ∀ s, fn.decodePart (fn.resultPart s) = s) ∧
    1 ≤ (c1cfgS 1).limit ∧
    (runBatches (c1cfgS 0) c1batches initState).2.spiller = none ∧
    ((opRunOuts (c1cfgS 1) c1batches : List Out) : Multiset Out) ≠
      ((opRunOuts (c1cfgS 0) c1batches : List Out) : Multiset Out) := by
  refine ⟨?_, by decide, by decide, by decide⟩
  intro fn hfn s
  rw [show fn = wCollect from by simpa [c1cfgS] using hfn]
  exact wCollect_decomp s

/-- C1 (amended): in unsorted mode, with decomposable aggregates, the output
record multiset of a run is the same for every configured limit — in
particular a spilling run (small limit) and a non-spilling run (unbounded
limit) deliver equal multisets. -/
theorem C1_spill_equivalence {ρ τ : Type _} (cfg : Config ρ τ)
    (hd0 : cfg.inputDir = 0)
    (hdec : ∀ fn ∈ cfg.aggs, ∀ s, fn.decodePart (fn.resultPart s) = s)
    (har : cfg.aggRefs.length = cfg.aggs.length)
    (l1 l2 : Nat) (batches : List (List ρ)) :
    ((opRunOuts { cfg with limit := l1 } batches : List Out) : Multiset Out) =
      ((opRunOuts { cfg with limit := l2 } batches : List Out) : Multiset Out) := by
  have h1 := unsortedRun_canonical { cfg with limit := l1 } hd0 hdec har batches
  have h2 := unsortedRun_canonical { cfg with limit := l2 } hd0 hdec har batches
  rw [h1, h2]
  rfl

theorem C1_spill_equivalence_witness :
    ((opRunOuts { c1cfgU 5 with limit := 1 } [[(1,7),(0,5)],[(1,9)]] : List Out) : Multiset Out) =
      ((opRunOuts { c1cfgU 5 with limit := 0 } [[(1,7),(0,5)],[(1,9)]] : List Out) : Multiset Out) :=
  C1_spill_equivalence (c1cfgU 5) rfl
    (by intro fn hfn s
        rw [show fn = wCollect from by simpa [c1cfgU, c1cfgS] using hfn]
        exact wCollect_decomp s)
    rfl 1 0 [[(1,7),(0,5)],[(1,9)]]

/-! ### C6: sorted-mode output ordering

Non-EOF early-emit batches are sorted before delivery
(`slices.SortStableFunc(res.Values(), keyCompare)` in `run`), but the EOF
drain (`sendResults`) delivers `nextResult(true)` batches unsorted; on the
no-spill path `readTable` walks the table in map order.  Because a fresh
row's `groupval` is the running `maxTableKey` at insertion (not the row's
own key), several rows with distinct keys can survive every early-emit
check and be flushed together at EOF, out of order. -/

theorem key0Le_iff (dir : Int) (a b : Out) :
    key0Le dir a b = true ↔
      dirCmp dir (a.keys.getD 0 default) (b.keys.getD 0 default) ≠ .gt := by
  unfold key0Le
  split
  · rename_i h
    constructor
    · intro hx; exact absurd hx (by decide)
    · intro hx; exact absurd h hx
  · rename_i h
    constructor
    · intro _; exact h
    · intro _; rfl

theorem key0Le_total (dir : Int) (a b : Out) :
    (key0Le dir a b || key0Le dir b a) = true := by
  have hf := cmpFacts_dirCmp dir
  by_cases h : dirCmp dir (a.keys.getD 0 default) (b.keys.getD 0 default) = .gt
  · have hba : dirCmp dir (b.keys.getD 0 default) (a.keys.getD 0 default) = .lt :=
      hf.gt_iff.mp h
    have : key0Le dir b a = true := (key0Le_iff dir b a).mpr (by rw [hba]; intro hx; cases hx)
    simp [this]
  · have : key0Le dir a b = true := (key0Le_iff dir a b).mpr h
    simp [this]

theorem key0Le_trans (dir : Int) (a b c : Out) (h1 : key0Le dir a b = true)
    (h2 : key0Le dir b c = true) : key0Le dir a c = true :=
  (key0Le_iff dir a c).mpr
    (dirCmp_not_gt_trans ((key0Le_iff dir a b).mp h1) ((key0Le_iff dir b c).mp h2))

theorem drainLoop_early_sorted {ρ τ : Type _} (cfg : Config ρ τ) :
    ∀ (fuel : Nat) (st : AggState τ) (acc : List (List Out)),
      (∀ b ∈ acc, b.Pairwise (fun x y => key0Le cfg.inputDir x y = true)) →
      ∀ b ∈ (drainLoop cfg false fuel st acc).1,
        b.Pairwise (fun x y => key0Le cfg.inputDir x y = true) := by
  intro fuel
  induction fuel with
  | zero =>
    intro st acc hacc b hb
    simp only [drainLoop, List.mem_reverse] at hb
    exact hacc b hb
  | succ fuel ih =>
    intro st acc hacc b hb
    have hstep : drainLoop cfg false (fuel + 1) st acc =
        match nextResult cfg false st with
        | (none, st1) => (acc.reverse, st1)
        | (some recs, st1) =>
          drainLoop cfg false fuel st1 (sortBy (key0Le cfg.inputDir) recs :: acc) := rfl
    rcases hnr : nextResult cfg false st with ⟨o, st1⟩
    cases o with
    | none =>
      rw [hstep, hnr] at hb
      exact hacc b (by simpa using hb)
    | some recs =>
      rw [hstep, hnr] at hb
      refine ih st1 (sortBy (key0Le cfg.inputDir) recs :: acc) ?_ b hb
      intro b2 hb2
      rcases List.mem_cons.mp hb2 with hb3 | hb3
      · subst hb3
        exact sortBy_pairwise (key0Le_total cfg.inputDir)
          (key0Le_trans cfg.inputDir) recs
      · exact hacc b2 hb3

/-- C6 (amended): in sorted mode, every batch the early-emit loop
(`nextResult(false)` repeated, as driven by `run` between input batches)
delivers is sorted by the primary key under the configured direction. -/
theorem C6_sorted_early_emit {ρ τ : Type _} (cfg : Config ρ τ)
    (hdir : cfg.inputDir ≠ 0) (fuel : Nat) (st : AggState τ) :
    ∀ b ∈ (drainLoop cfg false fuel st []).1,
      b.Pairwise (fun x y => key0Le cfg.inputDir x y = true) :=
  drainLoop_early_sorted cfg fuel st [] (by simp)

/-- State after consuming `(3,0), (1,0), (9,0)` in the ascending fixture:
rows for keys 3 and 1 both carry `groupval = 3`, key 9 bumps the watermark,
so the next early emit flushes keys 3 and 1 (sorted). -/
def c6st : AggState WRec :=
  consumeBatch (wCfg 1 0 false false) initState [(3,0),(1,0),(9,0)]

theorem C6_sorted_early_emit_witness :
    ((wCfg 1 0 false false).inputDir ≠ 0) ∧
    ([(⟨[⟨1, some [1]⟩], [⟨9, some [1]⟩]⟩ : Out), ⟨[⟨1, some [3]⟩], [⟨9, some [1]⟩]⟩] :
        List Out).Pairwise (fun x y => key0Le 1 x y = true) :=
  ⟨by decide,
    C6_sorted_early_emit (wCfg 1 0 false false) (by decide) 3 c6st
      [⟨[⟨1, some [1]⟩], [⟨9, some [1]⟩]⟩, ⟨[⟨1, some [3]⟩], [⟨9, some [1]⟩]⟩]
      (by decide)⟩

/-- C6 (original claim, refuted): an ascending-mode run whose EOF drain
delivers a batch that is not sorted by the primary key — both rows survive
to EOF with equal `groupval` watermarks and are flushed in table order,
key 3 before key 1. -/
theorem C6_sorted_output_counterexample :
    ¬ ∀ b ∈ opRun (wCfg 1 0 false false) [[(3,0),(1,0)]],
        b.Pairwise (fun x y => key0Le 1 x y = true) := by decide

/-! ### C3: partials round-trip -/

theorem dedupF_eq_self_of_nodup {α : Type _} [DecidableEq α] :
    ∀ {l : List α}, l.Nodup → dedupF l = l := by
  intro l
  induction l with
  | nil => intro _; rfl
  | cons a as ih =>
    intro h
    rcases List.nodup_cons.mp h with ⟨ha, h2⟩
    rw [dedupF, ih h2]
    rw [List.filter_eq_self.mpr]
    intro b hb
    simp only [decide_eq_true_eq]
    intro hba
    exact ha (hba ▸ hb)

theorem filter_eq_singleton_of_nodup {α : Type _} [DecidableEq α] :
    ∀ {l : List α}, l.Nodup → ∀ {a : α}, a ∈ l →
      l.filter (fun b => decide (b = a)) = [a] := by
  intro l
  induction l with
  | nil => intro _ a ha; simp at ha
  | cons x xs ih =>
    intro h a ha
    rcases List.nodup_cons.mp h with ⟨hx, h2⟩
    rcases List.mem_cons.mp ha with h3 | h3
    · subst h3
      rw [List.filter_cons, if_pos (by simp)]
      have : xs.filter (fun b => decide (b = a)) = [] := by
        rw [List.filter_eq_nil_iff]
        intro b hb
        simp only [decide_eq_true_eq]
        intro hba
        exact hx (hba ▸ hb)
      rw [this]
    · have hxa : ¬(x = a) := fun hxe => hx (hxe ▸ h3)
      rw [List.filter_cons, if_neg (by simpa using hxa)]
      exact ih h2 h3

theorem cfReds_eq_vecsSum {ρ τ : Type _} (cfg : Config ρ τ) (recs : List ρ)
    (k : List SVal) :
    cfReds cfg recs k = vecsSum τ cfg.aggs.length
      (((liveRecs cfg recs).filter (fun r => decide (keyVals cfg r = k))).map
        (recContrib cfg)) := by
  unfold cfReds vecsSum
  rw [List.foldl_map]

theorem cfReds_length {ρ τ : Type _} (cfg : Config ρ τ) (recs : List ρ)
    (k : List SVal) (har : cfg.aggRefs.length = cfg.aggs.length) :
    (cfReds cfg recs k).length = cfg.aggs.length := by
  rw [cfReds_eq_vecsSum]
  refine vecsSum_length _ _ (by simp [zeroVecN]) ?_
  intro v hv
  obtain ⟨r, -, hr⟩ := List.mem_map.mp hv
  rw [← hr]
  exact recContrib_length cfg r har

theorem keyOutAggs_true {τ : Type _} (aggs : List (AggFn τ))
    (v : List (Multiset τ)) :
    keyOutAggs aggs true v = List.zipWith (fun fn red => fn.resultPart red) aggs v := by
  simp [keyOutAggs]

theorem zip_map_decode {τ : Type _} (o : Out) :
    ∀ (l1 : List (AggFn τ)) (l2 : List (Out → SVal)),
      (l1.zip l2).map (fun fr => fr.1.decodePart (fr.2 o)) =
        List.zipWith (fun fn b => fn.decodePart b) l1 (l2.map (fun e => e o)) := by
  intro l1
  induction l1 with
  | nil => intro l2; rfl
  | cons x xs ih =>
    intro l2
    cases l2 with
    | nil => rfl
    | cons y ys => simp [ih ys]

theorem zipWith_decode_resultPart {τ : Type _} :
    ∀ (aggs : List (AggFn τ)) (v : List (Multiset τ)),
      (∀ fn ∈ aggs, ∀ s, fn.decodePart (fn.resultPart s) = s) →
      v.length = aggs.length →
      List.zipWith (fun fn b => fn.decodePart b) aggs
        (List.zipWith (fun fn red => fn.resultPart red) aggs v) = v := by
  intro aggs
  induction aggs with
  | nil =>
    intro v _ hv
    rw [List.length_nil] at hv
    rw [List.length_eq_zero] at hv
    rw [hv]
    rfl
  | cons fn fns ih =>
    intro v hdec hv
    cases v with
    | nil => simp at hv
    | cons red reds =>
      simp only [List.zipWith_cons_cons]
      rw [hdec fn (List.mem_cons_self fn fns) red,
        ih reds (fun f hf => hdec f (List.mem_cons_of_mem fn hf)) (by simpa using hv)]

set_option maxHeartbeats 1000000 in
/-- C3 (amended): partials round-trip in unsorted mode.  Running the operator
with `partialsOut = true` on an input sequence and feeding every delivered
batch to a second operator with the same aggregates, `partialsIn = true`,
`partialsOut = false`, whose key expressions and aggregate references read an
output record back field-by-field (keys positionally; each aggregate
reference returning that record's aggregate field), yields the same output
multiset as a single `partialsIn = false, partialsOut = false` run — under
decomposable aggregates and unsorted mode on both sides. -/
theorem C3_partials_roundtrip {ρ τ : Type _} (cfg : Config ρ τ) (cfg2 : Config Out τ)
    (batches : List (List ρ))
    (hd0 : cfg.inputDir = 0)
    (hdec : ∀ fn ∈ cfg.aggs, ∀ s, fn.decodePart (fn.resultPart s) = s)
    (har : cfg.aggRefs.length = cfg.aggs.length)
    (hpOut : cfg.partialsOut = false)
    (hd02 : cfg2.inputDir = 0)
    (haggs2 : cfg2.aggs = cfg.aggs)
    (har2 : cfg2.aggRefs.length = cfg2.aggs.length)
    (hpIn2 : cfg2.partialsIn = true)
    (hpOut2 : cfg2.partialsOut = false)
    (hkeys : ∀ o ∈ opRunOuts { cfg with partialsOut := true } batches,
      keyVals cfg2 o = o.keys)
    (hnq : ∀ o ∈ opRunOuts { cfg with partialsOut := true } batches, ¬ skipped cfg2 o)
    (haggr : ∀ o ∈ opRunOuts { cfg with partialsOut := true } batches,
      cfg2.aggRefs.map (fun e => e o) = o.aggs) :
    ((opRunOuts cfg2 (opRun { cfg with partialsOut := true } batches) : List Out) : Multiset Out) =
      ((opRunOuts cfg batches : List Out) : Multiset Out) := by
  obtain ⟨ke, k0O, aR, aG, apR, isQ, isE, lim, dir, pIn, pOut⟩ := cfg
  obtain ⟨ke2, k0O2, aR2, aG2, apR2, isQ2, isE2, lim2, dir2, pIn2, pOut2⟩ := cfg2
  dsimp only at hd0 hpOut hd02 haggs2 har har2 hpIn2 hpOut2
  subst hd0 hpOut hd02 haggs2 hpIn2 hpOut2
  set cfgS : Config ρ τ := ⟨ke, k0O, aR, aG2, apR, isQ, isE, lim, 0, pIn, false⟩ with hcfgS
  set cfg1 : Config ρ τ := ⟨ke, k0O, aR, aG2, apR, isQ, isE, lim, 0, pIn, true⟩ with hcfg1
  set cfgB : Config Out τ := ⟨ke2, k0O2, aR2, aG2, apR2, isQ2, isE2, lim2, 0, true, false⟩ with hcfgB
  have hdec2 : ∀ fn ∈ cfgB.aggs, ∀ s, fn.decodePart (fn.resultPart s) = s := hdec
  have hrun1 := unsortedRun_canonical cfg1 rfl hdec har batches
  have hrun2 := unsortedRun_canonical cfgB rfl hdec2 har2 (opRun cfg1 batches)
  have hrunS := unsortedRun_canonical cfgS rfl hdec har batches
  set recs : List ρ := batches.flatten with hrecs
  set L2 : List Out := opRunOuts cfg1 batches with hL2
  set K : List (List SVal) := dedupF (keysSeen cfg1 recs) with hK
  have hperm12 : L2.Perm (canonicalOuts cfg1 recs) := Multiset.coe_eq_coe.mp hrun1
  have hC1 : canonicalOuts cfg1 recs =
      K.map (fun k => (⟨k, keyOutAggs aG2 true (cfReds cfg1 recs k)⟩ : Out)) := rfl
  have hmemC1 : ∀ o ∈ canonicalOuts cfg1 recs, o ∈ L2 :=
    fun o ho => hperm12.symm.subset ho
  -- keys bookkeeping
  have hliveL2 : liveRecs cfgB L2 = L2 := by
    unfold liveRecs
    refine List.filter_eq_self.mpr ?_
    intro o ho
    simp only [decide_eq_true_eq]
    exact hnq o ho
  have hksL2 : keysSeen cfgB L2 = L2.map Out.keys := by
    unfold keysSeen
    rw [hliveL2]
    exact List.map_congr_left (fun o ho => hkeys o ho)
  have hC1keys : (canonicalOuts cfg1 recs).map Out.keys = K := by
    rw [hC1, List.map_map]
    exact List.map_id K
  have hpermK : (L2.map Out.keys).Perm K := by
    have h := hperm12.map Out.keys
    rw [hC1keys] at h
    exact h
  have hndK : K.Nodup := nodup_dedupF _
  have hnd2 : (keysSeen cfgB L2).Nodup := by
    rw [hksL2]
    exact hpermK.nodup_iff.mpr hndK
  -- per-key class computation
  have hkeyeq : ∀ k ∈ K, cfReds cfgB L2 k = cfReds cfgS recs k := by
    intro k hk
    have hgmem : (⟨k, keyOutAggs aG2 true (cfReds cfg1 recs k)⟩ : Out) ∈ L2 := by
      refine hmemC1 _ ?_
      rw [hC1]
      exact List.mem_map_of_mem _ hk
    have hfilterC1 : (canonicalOuts cfg1 recs).filter
        (fun o => decide (keyVals cfgB o = k)) =
        [⟨k, keyOutAggs aG2 true (cfReds cfg1 recs k)⟩] := by
      rw [hC1, List.filter_map]
      have hff : K.filter ((fun o => decide (keyVals cfgB o = k)) ∘
          (fun k2 => (⟨k2, keyOutAggs aG2 true (cfReds cfg1 recs k2)⟩ : Out))) =
          K.filter (fun q => decide (q = k)) := by
        refine List.filter_congr ?_
        intro q hq
        have hgq : keyVals cfgB (⟨q, keyOutAggs aG2 true (cfReds cfg1 recs q)⟩ : Out) = q := by
          refine hkeys _ (hmemC1 _ ?_)
          rw [hC1]
          exact List.mem_map_of_mem _ hq
        simp only [Function.comp]
        rw [hgq]
      rw [hff, filter_eq_singleton_of_nodup hndK hk]
      rfl
    have hfL2 : L2.filter (fun o => decide (keyVals cfgB o = k)) =
        [⟨k, keyOutAggs aG2 true (cfReds cfg1 recs k)⟩] := by
      refine List.perm_singleton.mp ?_
      have h := hperm12.filter (fun o => decide (keyVals cfgB o = k))
      rw [hfilterC1] at h
      exact h
    show ((liveRecs cfgB L2).filter (fun r => decide (keyVals cfgB r = k))).foldl
      (fun v r => addVec v (recContrib cfgB r)) (zeroVecN τ cfgB.aggs.length) = _
    rw [hliveL2, hfL2]
    simp only [List.foldl_cons, List.foldl_nil]
    have hlenc : (recContrib cfgB (⟨k, keyOutAggs aG2 true (cfReds cfg1 recs k)⟩ : Out)).length =
        cfgB.aggs.length :=
      recContrib_length cfgB _ har2
    rw [show zeroVecN τ cfgB.aggs.length =
      zeroVecN τ (recContrib cfgB (⟨k, keyOutAggs aG2 true (cfReds cfg1 recs k)⟩ : Out)).length
      from by rw [hlenc]]
    rw [addVec_zero_left]
    show (aG2.zip aR2).map (fun fr =>
      fr.1.decodePart (fr.2 (⟨k, keyOutAggs aG2 true (cfReds cfg1 recs k)⟩ : Out))) = _
    rw [zip_map_decode]
    rw [show aR2.map (fun e => e (⟨k, keyOutAggs aG2 true (cfReds cfg1 recs k)⟩ : Out)) =
      (⟨k, keyOutAggs aG2 true (cfReds cfg1 recs k)⟩ : Out).aggs from haggr _ hgmem]
    show List.zipWith (fun fn b => fn.decodePart b) aG2
      (keyOutAggs aG2 true (cfReds cfg1 recs k)) = _
    rw [keyOutAggs_true]
    have hcr1 : cfReds cfg1 recs k = cfReds cfgS recs k := rfl
    rw [hcr1]
    exact zipWith_decode_resultPart aG2 (cfReds cfgS recs k) hdec
      (cfReds_length cfgS recs k har)
  -- assemble
  rw [hrunS]
  rw [show opRunOuts cfgB (opRun cfg1 batches) = opRunOuts cfgB (opRun cfg1 batches) from rfl]
  rw [hrun2]
  rw [show (opRun cfg1 batches).flatten = L2 from rfl]
  have hcanon2 : canonicalOuts cfgB L2 = (keysSeen cfgB L2).map
      (fun k => (⟨k, keyOutAggs aG2 false (cfReds cfgB L2 k)⟩ : Out)) := by
    show (dedupF (keysSeen cfgB L2)).map _ = _
    rw [dedupF_eq_self_of_nodup hnd2]
  rw [hcanon2, hksL2]
  rw [Multiset.coe_eq_coe]
  have hSmap : canonicalOuts cfgS recs = K.map
      (fun k => (⟨k, keyOutAggs aG2 false (cfReds cfgS recs k)⟩ : Out)) := rfl
  rw [hSmap]
  have hstep1 : ((L2.map Out.keys).map
      (fun k => (⟨k, keyOutAggs aG2 false (cfReds cfgB L2 k)⟩ : Out))).Perm
      (K.map (fun k => (⟨k, keyOutAggs aG2 false (cfReds cfgB L2 k)⟩ : Out))) :=
    hpermK.map _
  refine hstep1.trans ?_
  rw [List.map_congr_left (fun k hk => by
    rw [hkeyeq k hk] :
    ∀ k ∈ K, (⟨k, keyOutAggs aG2 false (cfReds cfgB L2 k)⟩ : Out) =
      (⟨k, keyOutAggs aG2 false (cfReds cfgS recs k)⟩ : Out))]

/-- Round-trip second-stage configuration over output-shaped records: keys
read the two key slots positionally, the single aggregate reference reads the
aggregate field, aggregates as in the collect fixture. -/
def c3cfg2 : Config Out Nat where
  keyExprs := [fun o => o.keys.getD 0 default, fun o => o.keys.getD 1 default]
  keyExpr0Out := fun o => o.keys.getD 0 default
  aggRefs := [fun o => o.aggs.getD 0 default]
  aggs := [wCollect]
  applyRec := fun _ => 0
  isQuiet := fun v => v.tid == 7
  isError := fun _ => false
  limit := 0
  inputDir := 0
  partialsIn := true
  partialsOut := false

/-- Ascending-mode variant of the second stage (for the counterexample). -/
def c3cfg2S : Config Out Nat := { c3cfg2 with inputDir := 1 }

theorem C3_partials_roundtrip_witness :
    ((opRunOuts c3cfg2 (opRun { c1cfgU 0 with partialsOut := true } [[(1,7),(0,5)],[(1,9)]]) : List Out) : Multiset Out) =
      ((opRunOuts (c1cfgU 0) [[(1,7),(0,5)],[(1,9)]] : List Out) : Multiset Out) :=
  C3_partials_roundtrip (c1cfgU 0) c3cfg2 [[(1,7),(0,5)],[(1,9)]]
    rfl
    (by intro fn hfn s
        rw [show fn = wCollect from by simpa [c1cfgU, c1cfgS] using hfn]
        exact wCollect_decomp s)
    rfl rfl rfl rfl rfl rfl rfl
    (by decide) (by decide) (by decide)

/-- C3 (original claim, refuted in sorted mode): a sorted-mode run with a
fully decomposable aggregate whose evaluators read output records back
exactly, where the round-trip output multiset differs from the single run:
the single run early-emits key 1 as two separate groups (the watermark is
advanced past it by a quiet-skipped record), while the second stage of the
round-trip receives both partials before its own watermark passes and merges
them into one group. -/
theorem C3_partials_roundtrip_counterexample :
    (∀ fn ∈ (c1cfgS 0).aggs, ∀ s, fn.decodePart (fn.resultPart s) = s) ∧
    (∀ o ∈ opRunOuts { c1cfgS 0 with partialsOut := true } c1batches,
      keyVals c3cfg2S o = o.keys ∧ ¬ skipped c3cfg2S o ∧
        c3cfg2S.aggRefs.map (fun e => e o) = o.aggs) ∧
    ((opRunOuts c3cfg2S (opRun { c1cfgS 0 with partialsOut := true } c1batches) : List Out) : Multiset Out) ≠
      ((opRunOuts (c1cfgS 0) c1batches : List Out) : Multiset Out) := by
  refine ⟨?_, by decide, by decide⟩
  intro fn hfn s
  rw [show fn = wCollect from by simpa [c1cfgS] using hfn]
  exact wCollect_decomp s

end SuperAgg


